import Mathlib

/-!
# Pascal Robin Hood hash table (`opic/hash/pascal_robin_hood.c`)

A shallow embedding of the table engine: capacity arithmetic, the quadratic
probe function, lookup, the two-phase insert/upsert with its push-down
cascade, the two resize routines and delete with back-shift compaction.

Conventions of the embedding.

* Machine integers are natural numbers reduced explicitly: `uint64_t` modulo
  `2^64`, `uint32_t` (the histogram) modulo `2^32`, `uint16_t`
  (`longest_probes`) modulo `2^16`, `uint8_t` (`capacity_clz`) modulo `2^8`.
* A key token is `Token.empty` (0), `Token.tombstone` (~0) or `Token.live k`
  where `k` is the byte string the token resolves to in the key heap.
* The slab is a list of buckets; a bucket index is the pointer
  `&buckets[idx * bucket_size]`. Reading or writing a bucket outside the slab,
  or a histogram cell outside `stats[0..64)`, is `Fault.oob`.
* `op_assert` failures are `Fault.abort`. Unbounded loops take a fuel
  argument; running out of it is `Fault.fuel`.
* The slab allocator is an oracle `alloc : Nat → Bool` on the requested byte
  size. Key allocation (`OPLenRefCreate`) is taken to succeed.
* A `double` is the exact fraction it denotes; the `double` operations of
  `PRHHNew` round to nearest, ties to even (`dblRound`). Converting a `double`
  of `2^64` or more to `uint64_t` is `Fault.oob`.
-/

deriving instance DecidableEq for Except

namespace PRHH

/-- A key as the byte string a live token resolves to. -/
abbrev Key := List Nat

/-- A value payload, `valsize` bytes. -/
abbrev Val := List Nat

/-- The three readings of the leading 8 bytes of a bucket. -/
inductive Token where
  | empty : Token
  | tombstone : Token
  | live (key : Key) : Token
  deriving DecidableEq

/-- One slab record: key token followed by the value bytes. -/
structure Bucket where
  tok : Token
  val : Val
  deriving DecidableEq

/-- Ways an operation can fail to return. -/
inductive Fault where
  | abort : Fault
  | oob : Fault
  | fuel : Fault
  deriving DecidableEq

/-- The table handle `struct PascalRobinHoodHash`, with the slab it refers to. -/
structure Table where
  objcnt : Nat
  objcnt_high : Nat
  objcnt_low : Nat
  large_data_threshold : Nat
  capacity_clz : Nat
  capacity_ms4b : Nat
  longest_probes : Nat
  valsize : Nat
  stats : List Nat
  buckets : List Bucket
  deriving DecidableEq

/-- Result of `PRHHUpsertNewKey`. -/
inductive upsert_result_t where
  | UPSERT_EMPTY : upsert_result_t
  | UPSERT_DUP : upsert_result_t
  | UPSERT_PUSHDOWN : upsert_result_t
  deriving DecidableEq

def PROBE_STATS_SIZE : Nat := 64

def DEFAULT_LARGE_DATA_THRESHOLD : Nat := 2 ^ 30

def VISIT_IDX_CACHE : Nat := 8

/-- The modulus of `uint64_t`. -/
def W64 : Nat := 2 ^ 64

/-- Modelled from the spec: the macro `round_up_div` of `op_utils.h` is not in
the sources; the spec reads it as the ceiling of the quotient. -/
def round_up_div (x y : Nat) : Nat := (x + y - 1) / y

/-- Bytes of `struct PascalRobinHoodHash` (the handle allocation). -/
def sizeof_handle : Nat := 312

/-- Whether a token is a live key (neither 0 nor ~0). -/
def Token.isLive : Token → Bool
  | .live _ => true
  | _ => false

/-- A calloc-ed bucket: token 0 and zero value bytes. -/
def zeroBucket (valsize : Nat) : Bucket := ⟨.empty, List.replicate valsize 0⟩

/-- Stride of a bucket: `sizeof(oplenref_t) + valsize`. -/
def bucket_size (t : Table) : Nat := 8 + t.valsize

/-- Number of whole buckets in a calloc-ed slab of `bytes` bytes. -/
def slabLen (bsize bytes : Nat) : Nat := bytes / bsize

/-- Read `buckets[idx]`. -/
def readBucket (bs : List Bucket) (idx : Nat) : Except Fault Bucket :=
  match bs[idx]? with
  | some b => .ok b
  | none => .error .oob

/-- Overwrite `buckets[idx]`. -/
def writeBucket (bs : List Bucket) (idx : Nat) (b : Bucket) : Except Fault (List Bucket) :=
  if idx < bs.length then .ok (bs.set idx b) else .error .oob

/-- The update `stats[p]++`. -/
def statInc (s : List Nat) (p : Nat) : Except Fault (List Nat) :=
  if p < PROBE_STATS_SIZE then .ok (s.set p ((s.getD p 0 + 1) % 2 ^ 32)) else .error .oob

/-- The update `stats[p]--`. -/
def statDec (s : List Nat) (p : Nat) : Except Fault (List Nat) :=
  if p < PROBE_STATS_SIZE then .ok (s.set p ((s.getD p 0 + 2 ^ 32 - 1) % 2 ^ 32)) else .error .oob

/-- Read `stats[p]`. -/
def statGet (s : List Nat) (p : Nat) : Except Fault Nat :=
  if p < PROBE_STATS_SIZE then .ok (s.getD p 0) else .error .oob

/-- `PRHHCapacityInternal`: `(1UL << (64 - clz - 4)) * ms4b`. -/
def PRHHCapacityInternal (capacity_clz capacity_ms4b : Nat) : Nat :=
  (2 ^ (64 - capacity_clz - 4) * capacity_ms4b) % W64

/-- `PRHHCapacity`. -/
def PRHHCapacity (t : Table) : Nat :=
  PRHHCapacityInternal t.capacity_clz t.capacity_ms4b

/-- `PRHHObjcnt`. -/
def PRHHObjcnt (t : Table) : Nat := t.objcnt

/-- `PRHHValsize`. -/
def PRHHValsize (t : Table) : Nat := t.valsize

/-- `IncreaseProbeStat`. -/
def IncreaseProbeStat (t : Table) (probe : Nat) : Table :=
  { t with
    objcnt := (t.objcnt + 1) % W64
    longest_probes := (if probe > t.longest_probes then probe else t.longest_probes) % 2 ^ 16
    stats := if probe < PROBE_STATS_SIZE
      then t.stats.set probe ((t.stats.getD probe 0 + 1) % 2 ^ 32) else t.stats }

/-- The `int` product `probe * probe * 2` as converted to `uint64_t`
(two's-complement wrap of the 32-bit product, then sign extension). For
`probe < 32768` this is `probe * probe * 2`. -/
def probe_offset (probe : Nat) : Nat :=
  let v := (probe * probe * 2) % 2 ^ 32
  if v < 2 ^ 31 then v else W64 - 2 ^ 32 + v

/-- The mask `(1ULL << (64 - capacity_clz)) - 1`. -/
def probe_mask (capacity_clz : Nat) : Nat := 2 ^ (64 - capacity_clz) - 1

/-- `hash_with_probe`: quadratic probing, then fast mod and scale. -/
def hash_with_probe (t : Table) (key probe : Nat) : Nat :=
  ((((key + probe_offset probe) % W64) &&& probe_mask t.capacity_clz)
      * t.capacity_ms4b % W64) >>> 4

/-- The hash of the key a token resolves to; a sentinel token resolves to
nothing. -/
def tokenHash (hasher : Key → Nat) : Token → Except Fault Nat
  | .live k => .ok (hasher k % W64)
  | _ => .error .oob

/-- The scan `for (i = 0; i <= longest_probes; i++)` of `findprobe`:
`n` iterations are left, `i` is the current probe. -/
def findprobeScan (t : Table) (hashed_key idx : Nat) : Nat → Nat → Option Nat
  | 0, _ => none
  | n + 1, i =>
    if hash_with_probe t hashed_key i = idx then some i
    else findprobeScan t hashed_key idx n (i + 1)

/-- `findprobe`. -/
def findprobe (hasher : Key → Nat) (t : Table) (idx : Nat) : Except Fault Nat :=
  match readBucket t.buckets idx with
  | .error e => .error e
  | .ok b =>
    match tokenHash hasher b.tok with
    | .error e => .error e
    | .ok h =>
      match findprobeScan t h idx (t.longest_probes + 1) 0 with
      | some i => .ok i
      | none => .error .abort

/-- The loop of `PRHHSearchIdx`: `n` iterations are left, `probe` is the
current probe. The result is the bucket index of the hit. -/
def searchLoop (t : Table) (key : Key) (hashed_key : Nat) :
    Nat → Nat → Except Fault (Option Nat)
  | 0, _ => .ok none
  | n + 1, probe =>
    let idx := hash_with_probe t hashed_key probe
    match readBucket t.buckets idx with
    | .error e => .error e
    | .ok b =>
      match b.tok with
      | .empty => .ok none
      | .tombstone => searchLoop t key hashed_key n (probe + 1)
      | .live k =>
        if k = key then .ok (some idx)
        else searchLoop t key hashed_key n (probe + 1)

/-- `PRHHSearchIdx`: `some idx` for `true` with `*idx = idx`, `none` for
`false`. -/
def PRHHSearchIdx (hasher : Key → Nat) (t : Table) (key : Key) :
    Except Fault (Option Nat) :=
  searchLoop t key (hasher key % W64) (t.longest_probes + 1) 0

/-- `PRHHGetCustom`: the value slot is named by its bucket index; `none` is
`NULL`. -/
def PRHHGetCustom (hasher : Key → Nat) (t : Table) (key : Key) :
    Except Fault (Option Nat) :=
  PRHHSearchIdx hasher t key

/-- The cycle-break test of `PRHHUpsertPushDown`: whether `idx` is among the
recently visited indices (all `visit` entries while the ring is not full, the
seven newest afterwards). -/
def visitedHit (visit : Nat) (visited_idx : List Nat) (idx : Nat) : Bool :=
  if visit < VISIT_IDX_CACHE then (visited_idx.take visit).contains idx
  else ((List.range (VISIT_IDX_CACHE - 1)).map
    (fun j => visited_idx.getD ((visit + 1 + j) % VISIT_IDX_CACHE) 0)).contains idx

/-- The re-insertion loop shared by `PRHHSizeUp` and `PRHHSizeDown`:
`for (idx = 0; idx < old_capacity; idx++)` over the old slab, `n` iterations
left; `pd` is `PRHHUpsertPushDown(rhh, hasher, bucket, 0, NULL, &resized)`. -/
def rehashLoop (pd : Table → Bucket → Except Fault Table) :
    List Bucket → Nat → Table → Except Fault Table
  | _, 0, t => .ok t
  | [], _ + 1, _ => .error .oob
  | b :: rest, n + 1, t =>
    if b.tok.isLive then
      match pd t b with
      | .error e => .error e
      | .ok t1 => rehashLoop pd rest n t1
    else rehashLoop pd rest n t

/-- The common tail of `PRHHSizeUp` and `PRHHSizeDown` once the new
`(clz, ms4b)` is chosen: allocate, reset the handle, re-insert. The flag is
the function result (`false` when the allocation fails). -/
def resizeTo (pd : Table → Bucket → Except Fault Table) (alloc : Nat → Bool)
    (t : Table) (new_capacity_clz new_capacity_ms4b : Nat) :
    Except Fault (Table × Bool) :=
  let old_capacity := PRHHCapacity t
  let new_capacity := PRHHCapacityInternal new_capacity_clz new_capacity_ms4b
  let bytes := (bucket_size t * new_capacity) % W64
  if alloc bytes then
    let t0 : Table :=
      { t with
        objcnt := 0
        objcnt_high := (new_capacity * 8 % W64) / 10
        objcnt_low := (new_capacity * 2 % W64) / 10
        capacity_clz := new_capacity_clz
        capacity_ms4b := new_capacity_ms4b
        longest_probes := 0
        stats := List.replicate PROBE_STATS_SIZE 0
        buckets := List.replicate (slabLen (bucket_size t) bytes) (zeroBucket t.valsize) }
    match rehashLoop pd t.buckets old_capacity t0 with
    | .error e => .error e
    | .ok t1 => .ok (t1, true)
  else .ok (t, false)

/-- The choice of the new `(clz, ms4b)` in `PRHHSizeUp`. -/
def sizeUpShape (t : Table) : Except Fault (Nat × Nat) :=
  if (PRHHCapacity t * bucket_size t) % W64 ≥ t.large_data_threshold then
    match t.capacity_ms4b with
    | 8 => .ok (t.capacity_clz, 10)
    | 9 => .ok (t.capacity_clz, 12)
    | 10 => .ok (t.capacity_clz, 12)
    | 11 => .ok (t.capacity_clz, 14)
    | 12 => .ok (t.capacity_clz, 14)
    | 13 => .ok ((t.capacity_clz + 255) % 256, 8)
    | 14 => .ok ((t.capacity_clz + 255) % 256, 8)
    | 15 => .ok ((t.capacity_clz + 255) % 256, 10)
    | _ => .error .abort
  else
    .ok (if t.capacity_ms4b = 8 then (t.capacity_clz + 255) % 256
      else (t.capacity_clz + 254) % 256, 8)

/-- The choice of the new `(clz, ms4b)` in `PRHHSizeDown`, after its
`op_assert(old_capacity > 16)`. -/
def sizeDownShape (t : Table) : Except Fault (Nat × Nat) :=
  if PRHHCapacity t > 16 then
    match t.capacity_ms4b with
    | 8 => .ok ((t.capacity_clz + 1) % 256, 8)
    | 9 => .ok ((t.capacity_clz + 1) % 256, 8)
    | 10 => .ok ((t.capacity_clz + 1) % 256, 8)
    | 11 => .ok ((t.capacity_clz + 1) % 256, 8)
    | 12 => .ok ((t.capacity_clz + 1) % 256, 12)
    | 13 => .ok ((t.capacity_clz + 1) % 256, 12)
    | 14 => .ok ((t.capacity_clz + 1) % 256, 12)
    | 15 => .ok ((t.capacity_clz + 1) % 256, 12)
    | _ => .error .abort
  else .error .abort

/-- `PRHHSizeUp` with the push-down it re-inserts with as a parameter. -/
def sizeUpWith (pd : Table → Bucket → Except Fault Table) (alloc : Nat → Bool)
    (t : Table) : Except Fault (Table × Bool) :=
  match sizeUpShape t with
  | .error e => .error e
  | .ok (nclz, nms4b) => resizeTo pd alloc t nclz nms4b

/-- `PRHHSizeDown` with the push-down it re-inserts with as a parameter. -/
def sizeDownWith (pd : Table → Bucket → Except Fault Table) (alloc : Nat → Bool)
    (t : Table) : Except Fault (Table × Bool) :=
  match sizeDownShape t with
  | .error e => .error e
  | .ok (nclz, nms4b) => resizeTo pd alloc t nclz nms4b

/-- `PRHHUpsertPushDown`, one loop iteration per unit of fuel. The state of the
loop is the carried record `bucket_cpy`, `probe`, `avoid_bucket` (a bucket
index of the current slab, `none` for `NULL` or once the slab it pointed into
is replaced), `visit`, `visited_idx` and `*resized`. The nested `PRHHSizeUp`
re-inserts with fresh calls of this function. -/
def PRHHUpsertPushDown (hasher : Key → Nat) (alloc : Nat → Bool) :
    Nat → Table → Bucket → Nat → Option Nat → Nat → List Nat → Bool →
      Except Fault (Table × Bool)
  | 0, _, _, _, _, _, _, _ => .error .fuel
  | fuel + 1, t, bucket_cpy, probe, avoid_bucket, visit, visited_idx, resized =>
    match tokenHash hasher bucket_cpy.tok with
    | .error e => .error e
    | .ok hashed_key =>
      let idx := hash_with_probe t hashed_key probe
      if probe > PROBE_STATS_SIZE then
        match sizeUpWith (fun t1 b =>
            match PRHHUpsertPushDown hasher alloc fuel t1 b 0 none 0
              (List.replicate VISIT_IDX_CACHE 0) false with
            | .error e => .error e
            | .ok r => .ok r.1) alloc t with
        | .error e => .error e
        | .ok (t1, swapped) =>
          PRHHUpsertPushDown hasher alloc fuel t1 bucket_cpy 0
            (if swapped then none else avoid_bucket) visit visited_idx true
      else if avoid_bucket = some idx then
        PRHHUpsertPushDown hasher alloc fuel t bucket_cpy (probe + 1) avoid_bucket
          visit visited_idx resized
      else if visit > 2 && visitedHit visit visited_idx idx then
        PRHHUpsertPushDown hasher alloc fuel t bucket_cpy (probe + 1) avoid_bucket
          visit visited_idx resized
      else
        let visited1 := visited_idx.set (visit % VISIT_IDX_CACHE) idx
        match readBucket t.buckets idx with
        | .error e => .error e
        | .ok b =>
          if b.tok.isLive then
            match findprobe hasher t idx with
            | .error e => .error e
            | .ok old_probe =>
              if probe > old_probe then
                match statDec t.stats old_probe with
                | .error e => .error e
                | .ok s1 =>
                  match statInc s1 probe with
                  | .error e => .error e
                  | .ok s2 =>
                    PRHHUpsertPushDown hasher alloc fuel
                      { t with
                        longest_probes :=
                          (if probe > t.longest_probes then probe else t.longest_probes) % 2 ^ 16
                        stats := s2
                        buckets := t.buckets.set idx bucket_cpy }
                      b (old_probe + 1) avoid_bucket (visit + 1) visited1 resized
              else
                PRHHUpsertPushDown hasher alloc fuel t bucket_cpy (probe + 1) avoid_bucket
                  (visit + 1) visited1 resized
          else
            let t1 := IncreaseProbeStat t probe
            .ok ({ t1 with buckets := t1.buckets.set idx bucket_cpy }, resized)

/-- The call `PRHHUpsertPushDown(rhh, hasher, bucket, 0, NULL, &resized)` made
for every live record of the old slab by the resize routines. -/
def rehashPushDown (hasher : Key → Nat) (alloc : Nat → Bool) (fuel : Nat)
    (t : Table) (b : Bucket) : Except Fault Table :=
  match PRHHUpsertPushDown hasher alloc fuel t b 0 none 0
    (List.replicate VISIT_IDX_CACHE 0) false with
  | .error e => .error e
  | .ok r => .ok r.1

/-- `PRHHSizeUp`. -/
def PRHHSizeUp (hasher : Key → Nat) (alloc : Nat → Bool) (fuel : Nat) (t : Table) :
    Except Fault (Table × Bool) :=
  sizeUpWith (rehashPushDown hasher alloc fuel) alloc t

/-- `PRHHSizeDown`. -/
def PRHHSizeDown (hasher : Key → Nat) (alloc : Nat → Bool) (fuel : Nat) (t : Table) :
    Except Fault (Table × Bool) :=
  sizeDownWith (rehashPushDown hasher alloc fuel) alloc t

/-- The duplicate scan `for (p = probe + 1; p <= longest_probes; p++)` that
`PRHHUpsertNewKey` runs on a tombstone: `n` iterations left. -/
def dupScan (t : Table) (key : Key) (hashed_key : Nat) :
    Nat → Nat → Except Fault (Option Nat)
  | 0, _ => .ok none
  | n + 1, p =>
    let idx := hash_with_probe t hashed_key p
    match readBucket t.buckets idx with
    | .error e => .error e
    | .ok b =>
      match b.tok with
      | .live k =>
        if k = key then .ok (some idx) else dupScan t key hashed_key n (p + 1)
      | _ => dupScan t key hashed_key n (p + 1)

/-- `PRHHUpsertNewKey`, one loop iteration per unit of fuel, from `probe`.
The result carries the table, the outcome, `*matched_bucket` as a bucket
index and `*probe_state` (left 0 where the source leaves it unset). -/
def PRHHUpsertNewKey (hasher : Key → Nat) (alloc : Nat → Bool) (key : Key)
    (hashed_key : Nat) :
    Nat → Table → Nat → Except Fault (Table × upsert_result_t × Nat × Nat)
  | 0, _, _ => .error .fuel
  | fuel + 1, t, probe =>
    let idx := hash_with_probe t hashed_key probe
    if probe > PROBE_STATS_SIZE then
      match PRHHSizeUp hasher alloc fuel t with
      | .error e => .error e
      | .ok (t1, _) => PRHHUpsertNewKey hasher alloc key hashed_key fuel t1 0
    else
      match readBucket t.buckets idx with
      | .error e => .error e
      | .ok b =>
        match b.tok with
        | .empty => .ok (IncreaseProbeStat t probe, .UPSERT_EMPTY, idx, 0)
        | .tombstone =>
          match dupScan t key hashed_key (t.longest_probes - probe) (probe + 1) with
          | .error e => .error e
          | .ok (some dup) => .ok (t, .UPSERT_DUP, dup, 0)
          | .ok none => .ok (IncreaseProbeStat t probe, .UPSERT_EMPTY, idx, 0)
        | .live k =>
          if k = key then .ok (t, .UPSERT_DUP, idx, 0)
          else
            match findprobe hasher t idx with
            | .error e => .error e
            | .ok old_probe =>
              if probe > old_probe then
                match statDec t.stats old_probe with
                | .error e => .error e
                | .ok s1 =>
                  match statInc s1 probe with
                  | .error e => .error e
                  | .ok s2 =>
                    .ok ({ t with
                          longest_probes :=
                            (if probe > t.longest_probes then probe
                              else t.longest_probes) % 2 ^ 16
                          stats := s2 },
                        .UPSERT_PUSHDOWN, idx, old_probe + 1)
              else PRHHUpsertNewKey hasher alloc key hashed_key fuel t (probe + 1)

/-- `PRHHInsertCustom`. The flag is the function result. -/
def PRHHInsertCustom (hasher : Key → Nat) (alloc : Nat → Bool) (fuel : Nat)
    (t : Table) (key : Key) (val : Val) : Except Fault (Table × Bool) :=
  match (if t.objcnt > t.objcnt_high then PRHHSizeUp hasher alloc fuel t
      else .ok (t, true)) with
  | .error e => .error e
  | .ok (t0, false) => .ok (t0, false)
  | .ok (t0, true) =>
    match PRHHUpsertNewKey hasher alloc key (hasher key % W64) fuel t0 0 with
    | .error e => .error e
    | .ok (t1, .UPSERT_EMPTY, m, _) =>
      .ok ({ t1 with buckets := t1.buckets.set m ⟨.live key, val.take t1.valsize⟩ }, true)
    | .ok (t1, .UPSERT_DUP, m, _) =>
      match readBucket t1.buckets m with
      | .error e => .error e
      | .ok b =>
        .ok ({ t1 with buckets := t1.buckets.set m ⟨b.tok, val.take t1.valsize⟩ }, true)
    | .ok (t1, .UPSERT_PUSHDOWN, m, probe) =>
      match readBucket t1.buckets m with
      | .error e => .error e
      | .ok bucket_cpy =>
        match PRHHUpsertPushDown hasher alloc fuel
          { t1 with buckets := t1.buckets.set m ⟨.live key, val.take t1.valsize⟩ }
          bucket_cpy probe (some m) 0 (List.replicate VISIT_IDX_CACHE 0) false with
        | .error e => .error e
        | .ok (t2, _) => .ok (t2, true)

/-- What `PRHHUpsertCustom` hands back: the function result, `*val_ref` as a
bucket index (`none` for `NULL` or unset) and `*is_duplicate`. -/
structure UpsertOut where
  ok : Bool
  val_ref : Option Nat
  is_duplicate : Bool
  deriving DecidableEq

/-- `PRHHUpsertCustom`. -/
def PRHHUpsertCustom (hasher : Key → Nat) (alloc : Nat → Bool) (fuel : Nat)
    (t : Table) (key : Key) : Except Fault (Table × UpsertOut) :=
  match (if t.objcnt > t.objcnt_high then PRHHSizeUp hasher alloc fuel t
      else .ok (t, true)) with
  | .error e => .error e
  | .ok (t0, false) => .ok (t0, ⟨false, none, false⟩)
  | .ok (t0, true) =>
    match PRHHUpsertNewKey hasher alloc key (hasher key % W64) fuel t0 0 with
    | .error e => .error e
    | .ok (t1, .UPSERT_DUP, m, _) => .ok (t1, ⟨true, some m, true⟩)
    | .ok (t1, .UPSERT_EMPTY, m, _) =>
      match readBucket t1.buckets m with
      | .error e => .error e
      | .ok b =>
        .ok ({ t1 with buckets := t1.buckets.set m ⟨.live key, b.val⟩ }, ⟨true, some m, false⟩)
    | .ok (t1, .UPSERT_PUSHDOWN, m, probe) =>
      match readBucket t1.buckets m with
      | .error e => .error e
      | .ok bucket_cpy =>
        match PRHHUpsertPushDown hasher alloc fuel
          { t1 with buckets := t1.buckets.set m ⟨.live key, bucket_cpy.val⟩ }
          bucket_cpy probe (some m) 0 (List.replicate VISIT_IDX_CACHE 0) false with
        | .error e => .error e
        | .ok (t2, false) => .ok (t2, ⟨true, some m, false⟩)
        | .ok (t2, true) =>
          match PRHHGetCustom hasher t2 key with
          | .error e => .error e
          | .ok slot => .ok (t2, ⟨true, slot, false⟩)

/-- The candidate index of the back-shift scan of `PRHHDeleteCustom`:
`((premod_idx + candidate + (probe+1)*(probe+1)*2 - probe*probe*2) & mask)
 * capacity_ms4b >> 4`. -/
def candidateIdx (t : Table) (premod_idx candidate probe : Nat) : Nat :=
  ((((premod_idx + candidate + probe_offset (probe + 1) + (W64 - probe_offset probe)) % W64)
      &&& probe_mask t.capacity_clz) * t.capacity_ms4b % W64) >>> 4

/-- The inner `for (candidate = 0; candidate < candidates; candidate++)` of the
back-shift scan at one `probe`: `n` candidates left from `candidate`. The
result is the index of the first record that sits at its probe `probe + 1` and
would sit in the hole `idx` at `probe`. -/
def candidateScan (hasher : Key → Nat) (t : Table) (idx premod_idx probe : Nat) :
    Nat → Nat → Except Fault (Option Nat)
  | 0, _ => .ok none
  | n + 1, candidate =>
    let candidate_idx := candidateIdx t premod_idx candidate probe
    match readBucket t.buckets candidate_idx with
    | .error e => .error e
    | .ok b =>
      match b.tok with
      | .live k =>
        let hashed_rec := hasher k % W64
        if hash_with_probe t hashed_rec (probe + 1) = candidate_idx
            ∧ hash_with_probe t hashed_rec probe = idx then .ok (some candidate_idx)
        else candidateScan hasher t idx premod_idx probe n (candidate + 1)
      | _ => candidateScan hasher t idx premod_idx probe n (candidate + 1)

/-- The loop `for (probe = longest_probes - 1; probe > 0; probe--)` of the
back-shift scan, entered at `probe`; the result is the first match as
`(probe, candidate_idx)`. -/
def backShiftScan (hasher : Key → Nat) (t : Table) (idx premod_idx candidates : Nat) :
    Nat → Except Fault (Option (Nat × Nat))
  | 0 => .ok none
  | probe + 1 =>
    match candidateScan hasher t idx premod_idx (probe + 1) candidates 0 with
    | .error e => .error e
    | .ok (some candidate_idx) => .ok (some (probe + 1, candidate_idx))
    | .ok none => backShiftScan hasher t idx premod_idx candidates probe

/-- The step `if (p == longest_probes && stats[p] == 0) longest_probes--` of
`PRHHDeleteCustom`; the result is the new `longest_probes`. -/
def shrinkLongest (longest_probes : Nat) (stats : List Nat) (p : Nat) : Except Fault Nat :=
  if p = longest_probes then
    match statGet stats p with
    | .error e => .error e
    | .ok c => .ok (if c = 0 then (longest_probes + 2 ^ 16 - 1) % 2 ^ 16 else longest_probes)
  else .ok longest_probes

/-- The statistics update and the swap of one back-shift step: the record at
`candidate_idx` moves from probe `probe + 1` to the hole `idx` at `probe`. -/
def backShiftMove (t : Table) (idx candidate_idx probe : Nat) : Except Fault Table :=
  let s1 := if probe + 1 < PROBE_STATS_SIZE
    then t.stats.set (probe + 1) ((t.stats.getD (probe + 1) 0 + 2 ^ 32 - 1) % 2 ^ 32)
    else t.stats
  let s2 := if probe < PROBE_STATS_SIZE
    then s1.set probe ((s1.getD probe 0 + 1) % 2 ^ 32) else s1
  match shrinkLongest t.longest_probes s2 (probe + 1) with
  | .error e => .error e
  | .ok lp =>
    match readBucket t.buckets idx with
    | .error e => .error e
    | .ok bucket_tmp =>
      match readBucket t.buckets candidate_idx with
      | .error e => .error e
      | .ok c =>
        .ok { t with
              longest_probes := lp
              stats := s2
              buckets := ((t.buckets.set idx c).set candidate_idx bucket_tmp) }

/-- The `while (true)` back-shift loop of `PRHHDeleteCustom`, by recursion on
`record_probe` (it drops by one on every pass that moves a record). The result
is the table and the final position of the hole. -/
def backShiftLoop (hasher : Key → Nat) : Nat → Table → Nat → Except Fault (Table × Nat)
  | 0, t, idx => .ok (t, idx)
  | record_probe + 1, t, idx =>
    if 8 ≤ t.capacity_ms4b ∧ t.capacity_ms4b ≤ 15 then
      let premod_idx := round_up_div (16 * idx % W64) t.capacity_ms4b
      let candidates :=
        if (((premod_idx + 1) % W64 &&& probe_mask t.capacity_clz)
            * t.capacity_ms4b % W64) >>> 4 = idx then 2 else 1
      match backShiftScan hasher t idx premod_idx candidates (t.longest_probes - 1) with
      | .error e => .error e
      | .ok none => .ok (t, idx)
      | .ok (some (probe, candidate_idx)) =>
        match backShiftMove t idx candidate_idx probe with
        | .error e => .error e
        | .ok t1 => backShiftLoop hasher record_probe t1 candidate_idx
    else .error .abort

/-- The part of `PRHHDeleteCustom` after the size-down attempt: lookup,
statistics, back-shift, tombstone. The slot handed back is named by its bucket
index. -/
def deleteFound (hasher : Key → Nat) (t : Table) (key : Key) :
    Except Fault (Table × Option Nat) :=
  match PRHHSearchIdx hasher t key with
  | .error e => .error e
  | .ok none => .ok (t, none)
  | .ok (some idx) =>
    match findprobe hasher t idx with
    | .error e => .error e
    | .ok record_probe =>
      let s1 := if record_probe < PROBE_STATS_SIZE
        then t.stats.set record_probe ((t.stats.getD record_probe 0 + 2 ^ 32 - 1) % 2 ^ 32)
        else t.stats
      match shrinkLongest t.longest_probes s1 record_probe with
      | .error e => .error e
      | .ok lp =>
        match backShiftLoop hasher record_probe
          { t with objcnt := (t.objcnt + W64 - 1) % W64, stats := s1, longest_probes := lp }
          idx with
        | .error e => .error e
        | .ok (t1, hole) =>
          match readBucket t1.buckets hole with
          | .error e => .error e
          | .ok b =>
            .ok ({ t1 with buckets := t1.buckets.set hole ⟨.tombstone, b.val⟩ }, some hole)

/-- `PRHHDeleteCustom`: `none` is `NULL`, `some idx` the value slot of
bucket `idx`. -/
def PRHHDeleteCustom (hasher : Key → Nat) (alloc : Nat → Bool) (fuel : Nat)
    (t : Table) (key : Key) : Except Fault (Table × Option Nat) :=
  match (if t.objcnt < t.objcnt_low ∧ t.objcnt > 16 then PRHHSizeDown hasher alloc fuel t
      else .ok (t, true)) with
  | .error e => .error e
  | .ok (t0, false) => .ok (t0, none)
  | .ok (t0, true) => deleteFound hasher t0 key

/-- Number of binary digits of `x`, at most `fuel`. -/
def bitLength : Nat → Nat → Nat
  | 0, _ => 0
  | fuel + 1, x => if x = 0 then 0 else bitLength fuel (x / 2) + 1

/-- `__builtin_clzl` on a non-zero 64-bit value. -/
def clzl (x : Nat) : Nat := 64 - bitLength 64 x

/-- Number of binary digits of `x`, taken 32 at a time, at most `32 * fuel`. -/
def bitLen : Nat → Nat → Nat
  | 0, _ => 0
  | fuel + 1, x => if x < 2 ^ 32 then bitLength 32 x else bitLen fuel (x / 2 ^ 32) + 32

/-- Nearest integer to `n / d`, ties to the even one. -/
def roundHalfEven (n d : Nat) : Nat :=
  if 2 * (n % d) > d ∨ (2 * (n % d) = d ∧ (n / d) % 2 = 1) then n / d + 1 else n / d

/-- The `double` (IEEE 754 binary64, round to nearest, ties to even) nearest to
the non-negative fraction `a / b`; the result is the fraction
`value.1 / value.2`, with a power of two as denominator. A 53-bit significand
is kept, fewer below `2^-1022` (multiples of `2^-1074`). The exponent is not
bounded above: `PRHHNew` rejects a load of 1 or more and converts no value of
`2^64` or more. -/
def dblRound (a b : Nat) : Nat × Nat :=
  if a = 0 ∨ b = 0 then (0, 1)
  else
    let la := bitLen a a
    let lb := bitLen b b
    let k := if b * 2 ^ (la - lb) ≤ a * 2 ^ (lb - la) then 52 + lb else 53 + lb
    let up := min (k - la) 1074
    let down := la - k
    (roundHalfEven (a * 2 ^ up) (b * 2 ^ down) * 2 ^ down, 2 ^ up)

/-- The conversion `(double)n` of a `uint64_t`. -/
def u64ToDbl (n : Nat) : Nat × Nat := dblRound n 1

/-- The `double` quotient `x / y`, for `y > 0`. -/
def dblDiv (x y : Nat × Nat) : Nat × Nat := dblRound (x.1 * y.2) (x.2 * y.1)

/-- The `double` product `x * y`. -/
def dblMul (x y : Nat × Nat) : Nat × Nat := dblRound (x.1 * y.1) (x.2 * y.2)

/-- The conversion `(uint64_t)x` of a non-negative `double`: the integer part.
For a value of `2^64` or more the conversion is undefined in C. -/
def dblToU64 (x : Nat × Nat) : Except Fault Nat :=
  if x.1 / x.2 < W64 then .ok (x.1 / x.2) else .error .oob

/-- `PRHHNew`. The argument `load` is the `double` nearest to
`load_num / load_den` (every positive `double` is such a fraction itself).
`none` is the `false` result (an allocation failed). -/
def PRHHNew (alloc : Nat → Bool) (num_objects load_num load_den valsize : Nat) :
    Except Fault (Option Table) :=
  let load := dblRound load_num load_den
  if 0 < load.1 ∧ load.1 < load.2 then
    match dblToU64 (dblDiv (u64ToDbl (num_objects % W64)) load) with
    | .error e => .error e
    | .ok requested =>
      let capacity := if requested < 8 then 8 else requested
      let capacity_clz := clzl capacity
      let capacity_msb := 64 - capacity_clz
      let capacity_ms4b := round_up_div capacity (2 ^ (capacity_msb - 4)) % 2 ^ 32
      let capacity1 := (capacity_ms4b * 2 ^ (capacity_msb - 4)) % W64
      let bsize := 8 + valsize
      if alloc sizeof_handle then
        let bytes := (bsize * capacity1) % W64
        if alloc bytes then
          match dblToU64 (dblMul (u64ToDbl capacity1) load) with
          | .error e => .error e
          | .ok high =>
            .ok (some
              { objcnt := 0
                objcnt_high := high
                objcnt_low := (capacity1 * 2 % W64) / 10
                large_data_threshold := DEFAULT_LARGE_DATA_THRESHOLD
                capacity_clz := capacity_clz % 256
                capacity_ms4b := capacity_ms4b % 256
                longest_probes := 0
                valsize := valsize
                stats := List.replicate PROBE_STATS_SIZE 0
                buckets := List.replicate (slabLen bsize bytes) (zeroBucket valsize) })
        else .ok none
      else .ok none
  else .error .abort

/-- The loop of `PRHHIterate` over `idx < capacity`, `n` iterations left; the
result lists the callback invocations `(key, value, keysize, valsize)` in
call order. -/
def iterateLoop (valsize : Nat) : List Bucket → Nat → Except Fault (List (Key × Val × Nat × Nat))
  | _, 0 => .ok []
  | [], _ + 1 => .error .oob
  | b :: rest, n + 1 =>
    match iterateLoop valsize rest n with
    | .error e => .error e
    | .ok calls =>
      match b.tok with
      | .live k => .ok ((k, b.val, k.length, valsize) :: calls)
      | _ => .ok calls

/-- `PRHHIterate`, as the list of callback invocations it makes. -/
def PRHHIterate (t : Table) : Except Fault (List (Key × Val × Nat × Nat)) :=
  iterateLoop t.valsize t.buckets (PRHHCapacity t)

/-- Number of live buckets (token neither 0 nor ~0) of a slab. -/
def liveCount (bs : List Bucket) : Nat := (bs.filter (fun b => b.tok.isLive)).length

/-- Number of live buckets of a slab that store `key`. -/
def keyCopies (bs : List Bucket) (key : Key) : Nat :=
  (bs.filter (fun b => b.tok = Token.live key)).length

/-- Number of live buckets whose probe, as computed by `findprobe`, is `p`. -/
def probeHistogram (hasher : Key → Nat) (t : Table) (p : Nat) : Nat :=
  ((List.range t.buckets.length).filter (fun idx =>
    match t.buckets[idx]? with
    | some b => b.tok.isLive && (findprobe hasher t idx == .ok p)
    | none => false)).length

/-- Byte-wise comparison of two keys: same length and the same byte at every
position. -/
def sameBytes : Key → Key → Bool
  | [], [] => true
  | a :: as, b :: bs => a == b && sameBytes as bs
  | _, _ => false

/-- The reference lookup scan, following the spec's words: over the probes
`ps`, at the first probe whose bucket is EMPTY return miss, skip TOMBSTONE
buckets, at the first live bucket whose stored length and bytes equal the key
return hit with that index; if the scan ends, return miss. -/
def lookupRefScan (t : Table) (key : Key) (h : Nat) : List Nat → Except Fault (Option Nat)
  | [] => .ok none
  | p :: ps =>
    match readBucket t.buckets (hash_with_probe t h p) with
    | .error e => .error e
    | .ok b =>
      match b.tok with
      | .empty => .ok none
      | .tombstone => lookupRefScan t key h ps
      | .live k =>
        if k.length = key.length ∧ sameBytes k key = true
        then .ok (some (hash_with_probe t h p))
        else lookupRefScan t key h ps

/-- The reference lookup of the spec: with `h = hasher(key)`, scan
`p = 0, 1, ..., longest_probes`. -/
def lookupRef (hasher : Key → Nat) (t : Table) (key : Key) : Except Fault (Option Nat) :=
  lookupRefScan t key (hasher key % W64) (List.range (t.longest_probes + 1))

/-! ## Scenarios -/

/-- An allocator that never fails. -/
def allocAll : Nat → Bool := fun _ => true

/-- Successive `PRHHInsertCustom` calls with a zero-length value; the flag says
whether every call returned `true`. -/
def insertKeys (hasher : Key → Nat) (alloc : Nat → Bool) (fuel : Nat) :
    List Key → Table → Except Fault (Table × Bool)
  | [], t => .ok (t, true)
  | k :: ks, t =>
    match PRHHInsertCustom hasher alloc fuel t k [] with
    | .error e => .error e
    | .ok (t1, true) => insertKeys hasher alloc fuel ks t1
    | .ok (t1, false) => .ok (t1, false)

/-- A hasher sending the four one-byte keys 1, 2, 3, 4 to 38, 23, 7, 39. -/
def hasherA : Key → Nat
  | [1] => 38
  | [2] => 23
  | [3] => 7
  | [4] => 39
  | _ => 0

/-- The table after `PRHHNew(num_objects = 4, load = 1/2, valsize = 0)` and
the inserts of keys 1, 2, 3, 4 under `hasherA`, all returning `true`. -/
def tableA : Except Fault Table :=
  match PRHHNew allocAll 4 1 2 0 with
  | .ok (some t0) =>
    match insertKeys hasherA allocAll 200 [[1], [2], [3], [4]] t0 with
    | .ok (t, true) => .ok t
    | .ok (_, false) => .error .abort
    | .error e => .error e
  | .ok none => .error .abort
  | .error e => .error e

/-- A capacity-8 table holding key 1 (hash 38) in bucket 3. -/
def tableB : Table :=
  { objcnt := 1, objcnt_high := 4, objcnt_low := 1
    large_data_threshold := DEFAULT_LARGE_DATA_THRESHOLD
    capacity_clz := 60, capacity_ms4b := 8, longest_probes := 0, valsize := 0
    stats := (List.replicate PROBE_STATS_SIZE 0).set 0 1
    buckets := (List.replicate 8 (zeroBucket 0)).set 3 ⟨.live [1], []⟩ }

/-- One table operation of a scenario. -/
inductive Op where
  | ins (key : Key) (val : Val) : Op
  | ups (key : Key) : Op
  | del (key : Key) : Op

/-- Run a sequence of operations; an insert or upsert that returns `false` ends
the run with a fault. -/
def runOps (hasher : Key → Nat) (alloc : Nat → Bool) (fuel : Nat) :
    List Op → Table → Except Fault Table
  | [], t => .ok t
  | .ins k v :: ops, t =>
    match PRHHInsertCustom hasher alloc fuel t k v with
    | .ok (t1, true) => runOps hasher alloc fuel ops t1
    | .ok (_, false) => .error .abort
    | .error e => .error e
  | .ups k :: ops, t =>
    match PRHHUpsertCustom hasher alloc fuel t k with
    | .ok (t1, ⟨true, _, _⟩) => runOps hasher alloc fuel ops t1
    | .ok (_, ⟨false, _, _⟩) => .error .abort
    | .error e => .error e
  | .del k :: ops, t =>
    match PRHHDeleteCustom hasher alloc fuel t k with
    | .ok (t1, _) => runOps hasher alloc fuel ops t1
    | .error e => .error e

/-- Run a sequence of operations on the table `PRHHNew` returns. -/
def runFresh (hasher : Key → Nat) (fuel num_objects load_num load_den valsize : Nat)
    (ops : List Op) : Except Fault Table :=
  match PRHHNew allocAll num_objects load_num load_den valsize with
  | .ok (some t0) => runOps hasher allocAll fuel ops t0
  | .ok none => .error .abort
  | .error e => .error e

/-- A hasher sending the one-byte keys 1, 2, 3, 5, 6 to 0, 2, 1, 2, 2. -/
def hasherC : Key → Nat
  | [1] => 0
  | [2] => 2
  | [3] => 1
  | [5] => 2
  | [6] => 2
  | _ => 0

/-- The table after `PRHHNew(num_objects = 6, load = 3/4, valsize = 1)` and the
inserts of keys 2, 3, 1, 5, 6 under `hasherC`, all returning `true`. -/
def tableC : Except Fault Table :=
  runFresh hasherC 200 6 3 4 1
    [.ins [2] [67], .ins [3] [47], .ins [1] [82], .ins [5] [93], .ins [6] [60]]

/-- A hasher sending the one-byte keys 1, 2, 4, 5 to 93, 157, 13, 220. -/
def hasherD : Key → Nat
  | [1] => 93
  | [2] => 157
  | [4] => 13
  | [5] => 220
  | _ => 0

/-- The table after `PRHHNew(num_objects = 6, load = 3/4, valsize = 1)` and the
upserts of keys 1, 5, 4, 2, 1 under `hasherD`, all returning `true`. -/
def tableD : Except Fault Table :=
  runFresh hasherD 200 6 3 4 1 [.ups [1], .ups [5], .ups [4], .ups [2], .ups [1]]

/-- A hasher sending the one-byte keys 1, 2, 3, 5, 6, 7, 8 to
3, 0, 2, 2, 2, 2, 0. -/
def hasherE : Key → Nat
  | [1] => 3
  | [2] => 0
  | [3] => 2
  | [5] => 2
  | [6] => 2
  | [7] => 2
  | [8] => 0
  | _ => 0

/-- The table after `PRHHNew(num_objects = 12, load = 1/2, valsize = 1)`
(capacity 24), the inserts of keys 2, 3, 1, 8, 5, 7, 6 under `hasherE` and the
delete of key 6. -/
def tableE : Except Fault Table :=
  runFresh hasherE 200 12 1 2 1
    [.ins [2] [90], .ins [3] [31], .ins [1] [14], .ins [8] [97], .ins [5] [27],
     .ins [7] [82], .ins [6] [20], .del [6]]

/-- A hasher sending the one-byte keys 2, 3, 4, 6, 7, 8 to
12, 4, 14, 14, 12, 5. -/
def hasherF : Key → Nat
  | [2] => 12
  | [3] => 4
  | [4] => 14
  | [6] => 14
  | [7] => 12
  | [8] => 5
  | _ => 0

/-- The table after `PRHHNew(num_objects = 6, load = 3/4, valsize = 1)` and the
inserts of keys 6, 7, 3, 4, 8 under `hasherF`. -/
def tableF : Except Fault Table :=
  runFresh hasherF 200 6 3 4 1
    [.ins [6] [16], .ins [7] [87], .ins [3] [96], .ins [4] [24], .ins [8] [22]]

/-- A hasher sending the one-byte keys 1, 4, 5, 6 to 12, 29, 29, 28. -/
def hasherG : Key → Nat
  | [1] => 12
  | [4] => 29
  | [5] => 29
  | [6] => 28
  | _ => 0

/-- The table after `PRHHNew(num_objects = 4, load = 1/2, valsize = 1)`, the
inserts of keys 5 and 4, the upserts of keys 1 and 6 and the delete of key 4,
under `hasherG`. -/
def tableG : Except Fault Table :=
  runFresh hasherG 200 4 1 2 1
    [.ins [5] [48], .ins [4] [14], .ups [1], .ups [6], .del [4]]

/-- Successive `PRHHDeleteCustom` calls; the list holds the slot each call
returned, in call order. -/
def deleteKeys (hasher : Key → Nat) (alloc : Nat → Bool) (fuel : Nat) :
    List Key → Table → Except Fault (Table × List (Option Nat))
  | [], t => .ok (t, [])
  | k :: ks, t =>
    match PRHHDeleteCustom hasher alloc fuel t k with
    | .error e => .error e
    | .ok (t1, slot) =>
      match deleteKeys hasher alloc fuel ks t1 with
      | .error e => .error e
      | .ok (t2, slots) => .ok (t2, slot :: slots)

/-- The value `PRHHGetCustom` exposes for a key: the slot and its bytes. -/
def getValue (hasher : Key → Nat) (t : Table) (key : Key) :
    Except Fault (Option (Nat × Val)) :=
  match PRHHGetCustom hasher t key with
  | .error e => .error e
  | .ok none => .ok none
  | .ok (some idx) =>
    match readBucket t.buckets idx with
    | .error e => .error e
    | .ok b => .ok (some (idx, b.val))

/-- A hasher sending the one-byte keys 1, 2, 4, 6, 8 to 15, 23, 30, 22, 23. -/
def hasherJ : Key → Nat
  | [1] => 15
  | [2] => 23
  | [4] => 30
  | [6] => 22
  | [8] => 23
  | _ => 0

/-- The table after `PRHHNew(num_objects = 6, load = 3/4, valsize = 1)` and the
inserts, under `hasherJ`, of key 1 (value 73), 2 (3), 4 (80), 6 (37), 8 (2) and
again 4 (77). -/
def tableJ : Except Fault Table :=
  runFresh hasherJ 200 6 3 4 1
    [.ins [1] [73], .ins [2] [3], .ins [4] [80], .ins [6] [37], .ins [8] [2],
     .ins [4] [77]]

/-- The fault an operation ended with, if any. -/
def faultOf {α : Type} : Except Fault α → Option Fault
  | .error e => some e
  | .ok _ => none

/-- A hasher sending every key to 0. -/
def hasherZero : Key → Nat := fun _ => 0

/-- The table after `PRHHNew(num_objects = 31, load = 1/2, valsize = 0)`
(requested capacity 62) and the inserts of keys 1 and 2 under `hasherZero`. -/
def tableK : Except Fault Table :=
  runFresh hasherZero 200 31 1 2 0 [.ins [1] [], .ins [2] []]

/-- A hasher sending the one-byte key `k` to `2 * k`. -/
def hasherL : Key → Nat
  | [k] => 2 * k
  | _ => 0

/-- The table after `PRHHNew(num_objects = 7, load = 7/8, valsize = 0)`
(capacity 8, `objcnt_high` 7) and the inserts of the keys 0 .. 7 under
`hasherL`. -/
def tableL : Except Fault Table :=
  runFresh hasherL 200 7 7 8 0
    [.ins [0] [], .ins [1] [], .ins [2] [], .ins [3] [], .ins [4] [], .ins [5] [],
     .ins [6] [], .ins [7] []]

/-- An allocator that always fails. -/
def allocNone : Nat → Bool := fun _ => false

/-- A capacity-8 table whose `objcnt` (5) is above `objcnt_high` (4). -/
def tableM : Table := { tableB with objcnt := 5 }

/-- The table after `PRHHNew(num_objects = 45, load = 1/2, valsize = 0)`
(capacity 96, `objcnt_low` 19) and the inserts of the keys 1 .. 17 under
`hasherL`. -/
def tableP : Except Fault Table :=
  runFresh hasherL 400 45 1 2 0
    [.ins [1] [], .ins [2] [], .ins [3] [], .ins [4] [], .ins [5] [], .ins [6] [],
     .ins [7] [], .ins [8] [], .ins [9] [], .ins [10] [], .ins [11] [], .ins [12] [],
     .ins [13] [], .ins [14] [], .ins [15] [], .ins [16] [], .ins [17] []]

/-- The table after `PRHHNew(num_objects = 8, load = 1/2, valsize = 0)`
(capacity 16), the inserts of keys 1, 2, 3, 4 under `hasherZero` (probes 0, 1,
2, 3) and the deletes of keys 2 and 4. -/
def tableQ : Except Fault Table :=
  runFresh hasherZero 200 8 1 2 0
    [.ins [1] [], .ins [2] [], .ins [3] [], .ins [4] [], .del [2], .del [4]]

/-- The table after `PRHHNew(num_objects = 4, load = 1/2, valsize = 0)`, the
insert of key 1 and its delete. -/
def tableR : Except Fault Table :=
  runFresh hasherZero 200 4 1 2 0 [.ins [1] [], .del [1]]

/-- The table after `PRHHNew(num_objects = 4, load = 1/2, valsize = 0)`, the
inserts of keys 1 and 2 under `hasherZero` and the delete of key 1. -/
def tableS : Except Fault Table :=
  runFresh hasherZero 200 4 1 2 0 [.ins [1] [], .ins [2] [], .del [1]]

/-- The tokens of the buckets at probes `0 .. n-1` of hash `h`. -/
def probeTokens (t : Table) (h n : Nat) : List (Option Token) :=
  (List.range n).map (fun j => (t.buckets[hash_with_probe t h j]?).map (fun b : Bucket => b.tok))

/-- The probes `p ≤ longest_probes` at which hash `h` reaches bucket `idx`. -/
def probesReaching (t : Table) (h idx : Nat) : List Nat :=
  (List.range (t.longest_probes + 1)).filter (fun p => hash_with_probe t h p = idx)

/-- The slab `bs'` has the length of `bs` and every bucket that is not EMPTY in
`bs` is not EMPTY in `bs'`. -/
def keepsNonEmpty (bs bs' : List Bucket) : Prop :=
  bs'.length = bs.length ∧
    ∀ (i : Nat) (b : Bucket), bs[i]? = some b → b.tok ≠ Token.empty →
      ∃ b' : Bucket, bs'[i]? = some b' ∧ b'.tok ≠ Token.empty

/-- Bucket `i` of the slab holds a live record. -/
def liveAt (bs : List Bucket) (i : Nat) : Prop :=
  ∃ b : Bucket, bs[i]? = some b ∧ b.tok.isLive = true

/-- Some probe `p ≤ longest_probes` of hash `h` reaches bucket `idx`, and every
bucket at the probes `j < p` of `h` is live. -/
def orderedAt (t : Table) (h idx : Nat) : Prop :=
  ∃ p, p ≤ t.longest_probes ∧ hash_with_probe t h p = idx ∧
    ∀ j, j < p → liveAt t.buckets (hash_with_probe t h j)

/-- Robin Hood ordering of a table: every live record is `orderedAt` its
bucket, under the hash of its key. -/
def robinHoodOrdered (hasher : Key → Nat) (t : Table) : Prop :=
  ∀ (idx : Nat) (b : Bucket) (k : Key), t.buckets[idx]? = some b → b.tok = Token.live k →
    orderedAt t (hasher k % W64) idx

/-- The table `PRHHNew(num_objects = 4, load = 1/2, valsize = 0)` returns:
capacity 8, all buckets EMPTY. -/
def tableZ : Table :=
  { objcnt := 0, objcnt_high := 4, objcnt_low := 1
    large_data_threshold := DEFAULT_LARGE_DATA_THRESHOLD
    capacity_clz := 60, capacity_ms4b := 8, longest_probes := 0, valsize := 0
    stats := List.replicate PROBE_STATS_SIZE 0
    buckets := List.replicate 8 (zeroBucket 0) }

/-- The inserts of the one-byte keys `1 .. n`, each with an empty value. -/
def insertsUpTo (n : Nat) : List Op :=
  (List.range n).map (fun i => Op.ins [i + 1] [])

/-- The table after `PRHHNew(num_objects = 4, load = 1/2, valsize = 0)` and the
inserts of the keys 1 .. 11 under `hasherZero`, all returning `true`. -/
def tableT : Except Fault Table :=
  runFresh hasherZero 200 4 1 2 0 (insertsUpTo 11)

/-- Some live bucket of the slab stores `key`. -/
def keyIn (bs : List Bucket) (key : Key) : Prop :=
  ∃ (i : Nat) (b : Bucket), bs[i]? = some b ∧ b.tok = Token.live key

/-- Every live bucket is the bucket of hash 0 at some probe `p ≤ 64`, and the
slab has at most `PRHHCapacity` buckets. -/
def zeroHashShape (t : Table) : Prop :=
  t.buckets.length ≤ PRHHCapacity t ∧
    ∀ (i : Nat) (b : Bucket), t.buckets[i]? = some b → b.tok.isLive = true →
      ∃ p, p ≤ 64 ∧ hash_with_probe t 0 p = i

/-- What a re-insertion routine `pd` has to guarantee for the resize lemmas. -/
def keepsKeys (pd : Table → Bucket → Except Fault Table) : Prop :=
  ∀ (t : Table) (b : Bucket) (t' : Table), pd t b = .ok t' → zeroHashShape t →
    zeroHashShape t' ∧ (∀ k, keyIn t.buckets k → keyIn t'.buckets k) ∧
      (∀ k, b.tok = Token.live k → keyIn t'.buckets k)

/-- The table of `PRHHNew(num_objects = 4096, load = 1/2, valsize = 0)`:
capacity 8192 (`capacity_clz` 50, `capacity_ms4b` 8). -/
def tableW : Table :=
  match PRHHNew allocAll 4096 1 2 0 with
  | .ok (some t) => t
  | _ => tableZ

/-- The table of `tableP` (capacity 96: `capacity_clz` 57, `capacity_ms4b` 12;
`objcnt` 17, `objcnt_low` 19). -/
def tableU : Table :=
  match tableP with
  | .ok t => t
  | .error _ => tableZ

/-- The value `(uint64_t)(num_objects / load)` that `PRHHNew` computes, with
`load` the `double` nearest to `load_num / load_den`: the `double` quotient,
rounded to nearest, then truncated. -/
def requestedCapacity (num_objects load_num load_den : Nat) : Except Fault Nat :=
  dblToU64 (dblDiv (u64ToDbl (num_objects % W64)) (dblRound load_num load_den))

/-- Count consistency of a table: `objcnt` is the number of live buckets
(modulo `2^64`), and the slab is the calloc-ed one for the capacity. -/
def countOK (t : Table) : Prop :=
  t.objcnt = liveCount t.buckets % W64 ∧
    t.buckets.length = slabLen (bucket_size t) ((bucket_size t * PRHHCapacity t) % W64)

/-- A re-insertion routine that keeps count consistency and adds exactly the
record it is given: for every property `P` of live records, the number of
buckets with `P` grows by one if the record has `P`, and not otherwise. -/
def countsAdd (pd : Table → Bucket → Except Fault Table) : Prop :=
  ∀ (t : Table) (b : Bucket) (t1 : Table), b.tok.isLive = true → countOK t →
    pd t b = .ok t1 →
    countOK t1 ∧ ∀ P : Bucket → Bool, (∀ x, P x = true → x.tok.isLive = true) →
      List.countP P t1.buckets = List.countP P t.buckets + (if P b = true then 1 else 0)

/-- The tables reached from a table of `PRHHNew` by calls of `PRHHInsertCustom`,
`PRHHUpsertCustom` and `PRHHDeleteCustom` that return, whatever they return and
whatever the allocator answers. -/
inductive reachedByOps (hasher : Key → Nat) : Table → Prop where
  | fresh (alloc : Nat → Bool) (num_objects load_num load_den valsize : Nat) (t : Table) :
      PRHHNew alloc num_objects load_num load_den valsize = .ok (some t) →
      reachedByOps hasher t
  | insert (alloc : Nat → Bool) (fuel : Nat) (t : Table) (key : Key) (val : Val) (t' : Table)
      (r : Bool) :
      reachedByOps hasher t →
      PRHHInsertCustom hasher alloc fuel t key val = .ok (t', r) →
      reachedByOps hasher t'
  | upsert (alloc : Nat → Bool) (fuel : Nat) (t : Table) (key : Key) (t' : Table)
      (out : UpsertOut) :
      reachedByOps hasher t →
      PRHHUpsertCustom hasher alloc fuel t key = .ok (t', out) →
      reachedByOps hasher t'
  | delete (alloc : Nat → Bool) (fuel : Nat) (t : Table) (key : Key) (t' : Table)
      (r : Option Nat) :
      reachedByOps hasher t →
      PRHHDeleteCustom hasher alloc fuel t key = .ok (t', r) →
      reachedByOps hasher t'

/-- Successive `PRHHInsertCustom` calls of key and value pairs; the flag says
whether every call returned `true`. -/
def insertPairs (hasher : Key → Nat) (alloc : Nat → Bool) (fuel : Nat) :
    List (Key × Val) → Table → Except Fault (Table × Bool)
  | [], t => .ok (t, true)
  | kv :: kvs, t =>
    match PRHHInsertCustom hasher alloc fuel t kv.1 kv.2 with
    | .error e => .error e
    | .ok (t1, true) => insertPairs hasher alloc fuel kvs t1
    | .ok (t1, false) => .ok (t1, false)

/-- The callbacks `PRHHIterate` is to make on a slab: one per live bucket, in
bucket order, with the key bytes, the value slot, the key length and
`valsize`. -/
def liveCalls (valsize : Nat) (bs : List Bucket) : List (Key × Val × Nat × Nat) :=
  bs.filterMap (fun b =>
    match b.tok with
    | .live k => some (k, b.val, k.length, valsize)
    | _ => none)

/-- The table of `tableL`: capacity 8 with eight live records. -/
def tableFull : Table :=
  match tableL with
  | .ok t => t
  | .error _ => tableZ

/-- The byte size `PRHHSizeUp` asks the allocator for on table `t`. -/
def sizeUpRequest (t : Table) : Except Fault Nat :=
  match sizeUpShape t with
  | .error e => .error e
  | .ok (nclz, nms4b) => .ok ((bucket_size t * PRHHCapacityInternal nclz nms4b) % W64)

/-- The allocator refuses the request a `PRHHSizeUp` of table `t` would make:
a walk on `t` that passes probe 64 gets no new slab. -/
def quietAt (alloc : Nat → Bool) (t : Table) : Prop :=
  ∀ n, sizeUpRequest t = .ok n → alloc n = false

/-- The fields a walk does not write: the shape, the value size, the
large-data threshold, the two watermarks, and the slab length. -/
def sameFrame (t t' : Table) : Prop :=
  t'.capacity_clz = t.capacity_clz ∧ t'.capacity_ms4b = t.capacity_ms4b ∧
    t'.valsize = t.valsize ∧ t'.large_data_threshold = t.large_data_threshold ∧
    t'.objcnt_high = t.objcnt_high ∧ t'.objcnt_low = t.objcnt_low ∧
    t'.buckets.length = t.buckets.length

/-- An allocator that grants exactly the requests of `k` bytes. -/
def allocOnly (k : Nat) : Nat → Bool := fun n => n == k

/-- A hasher sending the one-byte key `k` to `k % 3`. -/
def hasherM : Key → Nat
  | [k] => k % 3
  | _ => 0

/-- The table after `PRHHNew(num_objects = 45, load = 1/2, valsize = 0)`
(capacity 96, `objcnt_low` 19) and the inserts of the keys 1 .. 17 under
`hasherM` (three hash values), all returning `true`. -/
def tableV : Except Fault Table :=
  runFresh hasherM 400 45 1 2 0 (insertsUpTo 17)

/-- The table of `tableP`, which is `tableU`, as rebuilt by the `PRHHSizeDown`
that `PRHHDeleteCustom` starts with (48 buckets), every allocation granted. -/
def tableU48 : Table :=
  match PRHHSizeDown hasherL allocAll 400 tableU with
  | .ok (t, _) => t
  | .error _ => tableZ

/-- The allocator gives no slab to a walk of a `PRHHInsertCustom` or
`PRHHUpsertCustom` call on `t`: when the call starts with `PRHHSizeUp`
(`objcnt > objcnt_high`), the request a `PRHHSizeUp` of the resized table would
make is refused; otherwise the request a `PRHHSizeUp` of `t` would make is
refused. The `PRHHSizeUp` at the start of the call may be granted. -/
def walkQuiet (alloc : Nat → Bool) (t : Table) : Prop :=
  if t.objcnt > t.objcnt_high then
    ∀ c m, sizeUpShape t = .ok (c, m) →
      quietAt alloc { t with capacity_clz := c, capacity_ms4b := m }
  else quietAt alloc t

/-- The tables reached from a table of `PRHHNew` by `PRHHInsertCustom` and
`PRHHUpsertCustom` calls that return, whatever they return, each served by an
allocator of its own that gives no slab to the walks of the call (`walkQuiet`);
the resize at the start of a call may replace the slab. -/
inductive reachedByQuietInserts (hasher : Key → Nat) : Table → Prop where
  | fresh (alloc : Nat → Bool) (num_objects load_num load_den valsize : Nat) (t : Table) :
      PRHHNew alloc num_objects load_num load_den valsize = .ok (some t) →
      reachedByQuietInserts hasher t
  | insert (alloc : Nat → Bool) (fuel : Nat) (t : Table) (key : Key) (val : Val) (t' : Table)
      (r : Bool) :
      reachedByQuietInserts hasher t →
      walkQuiet alloc t →
      PRHHInsertCustom hasher alloc fuel t key val = .ok (t', r) →
      reachedByQuietInserts hasher t'
  | upsert (alloc : Nat → Bool) (fuel : Nat) (t : Table) (key : Key) (t' : Table)
      (out : UpsertOut) :
      reachedByQuietInserts hasher t →
      walkQuiet alloc t →
      PRHHUpsertCustom hasher alloc fuel t key = .ok (t', out) →
      reachedByQuietInserts hasher t'

instance quietAtDecidable (alloc : Nat → Bool) (t : Table) : Decidable (quietAt alloc t) :=
  match h : sizeUpRequest t with
  | .ok n =>
    if ha : alloc n = false then
      isTrue (fun m hm => by rw [h] at hm; cases hm; exact ha)
    else isFalse (fun hq => ha (hq n h))
  | .error _ => isTrue (fun m hm => by rw [h] at hm; cases hm)

instance walkQuietDecidable (alloc : Nat → Bool) (t : Table) : Decidable (walkQuiet alloc t) :=
  if htrig : t.objcnt > t.objcnt_high then
    match h : sizeUpShape t with
    | .ok (c, m) =>
      if hq : quietAt alloc { t with capacity_clz := c, capacity_ms4b := m } then
        isTrue (by
          unfold walkQuiet
          rw [if_pos htrig]
          intro c1 m1 h1
          rw [h] at h1
          cases h1
          exact hq)
      else
        isFalse (fun hw => by
          unfold walkQuiet at hw
          rw [if_pos htrig] at hw
          exact hq (hw c m h))
    | .error _ =>
      isTrue (by
        unfold walkQuiet
        rw [if_pos htrig]
        intro c1 m1 h1
        rw [h] at h1
        cases h1)
  else
    if hq : quietAt alloc t then
      isTrue (by unfold walkQuiet; rw [if_neg htrig]; exact hq)
    else isFalse (fun hw => by unfold walkQuiet at hw; rw [if_neg htrig] at hw; exact hq hw)

/-- The table `PRHHNew(num_objects = 1, load = 1/8, valsize = 0)` returns:
capacity 8, `objcnt_high` 1. -/
def tableY0 : Table :=
  match PRHHNew allocAll 1 1 8 0 with
  | .ok (some t) => t
  | _ => tableZ

/-- The table `tableY0` after the insert of key 1 under `hasherZero`. -/
def tableY1 : Table :=
  match PRHHInsertCustom hasherZero allocNone 50 tableY0 [1] [] with
  | .ok (t, _) => t
  | .error _ => tableZ

/-- The table `tableY1` after the insert of key 2 under `hasherZero`
(`objcnt` 2, `objcnt_high` 1). -/
def tableY2 : Table :=
  match PRHHInsertCustom hasherZero allocNone 50 tableY1 [2] [] with
  | .ok (t, _) => t
  | .error _ => tableZ

/-- The table `tableY2` after the insert of key 3 under `hasherZero`, served by
the allocator that grants only the 128 bytes of a 16-bucket slab: the call
starts with a `PRHHSizeUp` from 8 to 16 buckets. -/
def tableY3 : Table :=
  match PRHHInsertCustom hasherZero (allocOnly 128) 50 tableY2 [3] [] with
  | .ok (t, _) => t
  | .error _ => tableZ

/-! ## Theorems -/

theorem searchLoop_sound (t : Table) (key : Key) (h : Nat) :
    ∀ (n probe idx : Nat), searchLoop t key h n probe = .ok (some idx) →
      ∃ b, t.buckets[idx]? = some b ∧ b.tok = Token.live key := by
  intro n
  induction n with
  | zero => intro probe idx hs; simp [searchLoop] at hs
  | succ n ih =>
    intro probe idx hs
    unfold searchLoop at hs
    simp only [readBucket] at hs
    cases hb : t.buckets[hash_with_probe t h probe]? with
    | none => simp [hb] at hs
    | some b =>
      simp only [hb] at hs
      cases htok : b.tok with
      | empty => simp [htok] at hs
      | tombstone =>
        simp only [htok] at hs
        exact ih _ _ hs
      | live k =>
        simp only [htok] at hs
        by_cases hk : k = key
        · simp only [hk, if_true] at hs
          have hidx : hash_with_probe t h probe = idx := by
            simpa using hs
          subst hidx
          exact ⟨b, hb, by rw [htok, hk]⟩
        · simp only [hk, if_false] at hs
          exact ih _ _ hs

/-- C1: the round trip fails on the code. On a table fresh from
`PRHHNew(4, 1/2, 0)`, after inserting the four distinct keys 1, 2, 3, 4 (hashes
38, 23, 7, 39), every insert returning `true`, `PRHHGetCustom` of key 1
returns `NULL`. -/
theorem C1_round_trip_lost_key :
    (match tableA with
      | .ok t => PRHHGetCustom hasherA t [1]
      | .error e => .error e) = .ok none := by
  decide

/-- C2: no spurious hits. For every table state and query key, if
`PRHHGetCustom` returns the slot of bucket `idx`, that bucket is in the slab,
is live, and its stored key is the query key (same length, same bytes); hence
when no live bucket of the slab stores the key, `PRHHGetCustom` returns no
slot. -/
theorem C2_no_spurious_hit (hasher : Key → Nat) (t : Table) (key : Key) :
    (∀ idx, PRHHGetCustom hasher t key = .ok (some idx) →
      ∃ b, t.buckets[idx]? = some b ∧ b.tok = Token.live key) ∧
    ((∀ b ∈ t.buckets, b.tok ≠ Token.live key) →
      ∀ idx, PRHHGetCustom hasher t key ≠ .ok (some idx)) := by
  have h1 : ∀ idx, PRHHGetCustom hasher t key = .ok (some idx) →
      ∃ b, t.buckets[idx]? = some b ∧ b.tok = Token.live key := by
    intro idx hs
    exact searchLoop_sound t key _ _ _ idx hs
  refine ⟨h1, ?_⟩
  intro hno idx hs
  obtain ⟨b, hb, hlive⟩ := h1 idx hs
  exact hno b (List.getElem?_mem hb) hlive

/-- Witness for C2 on `tableB`: key 1 is found in bucket 3, which stores
key 1, and the absent key 2 is not found. -/
theorem C2_no_spurious_hit_witness :
    (∃ b, tableB.buckets[3]? = some b ∧ b.tok = Token.live [1]) ∧
    (∀ idx, PRHHGetCustom hasherA tableB [2] ≠ .ok (some idx)) :=
  ⟨(C2_no_spurious_hit hasherA tableB [1]).1 3 (by decide),
   (C2_no_spurious_hit hasherA tableB [2]).2 (by decide)⟩

/-- C3: inserting a key that is present adds a second record. On `tableC`
`PRHHGetCustom` finds key 1 (bucket 4) and `objcnt` is 5; `PRHHInsertCustom` of
key 1 returns `true` and leaves `objcnt` at 6. -/
theorem C3_present_key_inserted_again :
    (match tableC with
      | .ok t =>
        match PRHHGetCustom hasherC t [1], PRHHInsertCustom hasherC allocAll 200 t [1] [70] with
        | .ok slot, .ok (t1, ok) => .ok (slot, t.objcnt, ok, t1.objcnt)
        | _, _ => .error .abort
      | .error e => .error e)
      = (.ok (some 4, 5, true, 6) : Except Fault (Option Nat × Nat × Bool × Nat)) := by
  decide

/-- C4: delete then get still hits. On `tableD` `PRHHDeleteCustom` of key 1
returns the slot of bucket 7, and the `PRHHGetCustom` of key 1 that follows
returns the slot of bucket 2. -/
theorem C4_get_after_delete_hits :
    (match tableD with
      | .ok t =>
        match PRHHDeleteCustom hasherD allocAll 200 t [1] with
        | .ok (t1, slot) =>
          match PRHHGetCustom hasherD t1 [1] with
          | .ok again => .ok (slot, again)
          | .error e => .error e
        | .error e => .error e
      | .error e => .error e)
      = (.ok (some 7, some 2) : Except Fault (Option Nat × Option Nat)) := by
  decide

/-- C5: a delete loses another key. On `tableE` `PRHHGetCustom` finds key 1 in
bucket 2; `PRHHDeleteCustom` of key 5 returns a slot (bucket 2, after two
back-shift moves) and afterwards `PRHHGetCustom` of key 1 returns `NULL`. -/
theorem C5_delete_loses_other_key :
    (match tableE with
      | .ok t =>
        match PRHHGetCustom hasherE t [1], PRHHDeleteCustom hasherE allocAll 200 t [5] with
        | .ok before, .ok (t1, slot) =>
          match PRHHGetCustom hasherE t1 [1] with
          | .ok after => .ok (before, slot, after)
          | .error e => .error e
        | _, _ => .error .abort
      | .error e => .error e)
      = (.ok (some 2, some 2, none) : Except Fault (Option Nat × Option Nat × Option Nat)) := by
  decide

/-- C8: upsert twice in a row, both calls not duplicates. On `tableF`
(`objcnt` 5) the first `PRHHUpsertCustom` of key 2 returns `true` with
`is_duplicate = false` and `objcnt` 6; the second returns `true` with
`is_duplicate = false` again and `objcnt` 7. -/
theorem C8_second_upsert_not_duplicate :
    (match tableF with
      | .ok t =>
        match PRHHUpsertCustom hasherF allocAll 200 t [2] with
        | .ok (t1, o1) =>
          match PRHHUpsertCustom hasherF allocAll 200 t1 [2] with
          | .ok (t2, o2) => .ok (o1.ok, o1.is_duplicate, t1.objcnt, o2.ok, o2.is_duplicate, t2.objcnt)
          | .error e => .error e
        | .error e => .error e
      | .error e => .error e)
      = (.ok (true, false, 6, true, false, 7) :
          Except Fault (Bool × Bool × Nat × Bool × Bool × Nat)) := by
  decide

/-- C9: the slot upsert returns is not the one get returns. On `tableG`
`PRHHUpsertCustom` of key 5 returns `true` with `is_duplicate = true` and the
slot of bucket 7, and the `PRHHGetCustom` of key 5 that follows returns
`NULL`. -/
theorem C9_upsert_slot_not_get_slot :
    (match tableG with
      | .ok t =>
        match PRHHUpsertCustom hasherG allocAll 200 t [5] with
        | .ok (t1, o) =>
          match PRHHGetCustom hasherG t1 [5] with
          | .ok slot => .ok (o, slot)
          | .error e => .error e
        | .error e => .error e
      | .error e => .error e)
      = (.ok (⟨true, some 7, true⟩, none) : Except Fault (UpsertOut × Option Nat)) := by
  decide

/-- Delete calls that do not all succeed. On `tableA` (four distinct keys
inserted) the `PRHHDeleteCustom` of key 1 returns `NULL`, those of keys 2, 3, 4
return their slots, and the table is left with `objcnt = 1` and one live
bucket: key 1 is not deleted. -/
theorem objcnt_after_delete_calls :
    (match tableA with
      | .ok t =>
        match deleteKeys hasherA allocAll 200 [[1], [2], [3], [4]] t with
        | .ok (t1, slots) => .ok (slots, t1.objcnt, liveCount t1.buckets)
        | .error e => .error e
      | .error e => .error e)
      = (.ok ([none, some 11, some 4, some 3], 1, 1) :
          Except Fault (List (Option Nat) × Nat × Nat)) := by
  decide

/-- C10: a size-up changes the value a key is found with. On `tableJ`
`PRHHGetCustom` of key 4 exposes bucket 0 with value 77; `PRHHSizeUp` returns
`true`, and afterwards `PRHHGetCustom` of key 4 exposes bucket 16 with
value 80. -/
theorem C10_size_up_changes_found_value :
    (match tableJ with
      | .ok t =>
        match getValue hasherJ t [4], PRHHSizeUp hasherJ allocAll 200 t with
        | .ok before, .ok (t1, ok) =>
          match getValue hasherJ t1 [4] with
          | .ok after => .ok (before, ok, after)
          | .error e => .error e
        | _, _ => .error .abort
      | .error e => .error e)
      = (.ok (some (0, [77]), true, some (16, [80])) :
          Except Fault (Option (Nat × Val) × Bool × Option (Nat × Val))) := by
  decide

/-- C11: two live buckets hold equal keys. On `tableC`, where `PRHHGetCustom`
finds key 1, the `PRHHInsertCustom` of key 1 returns `true` and leaves two live
buckets that store key 1. -/
theorem C11_two_live_copies :
    (match tableC with
      | .ok t =>
        match PRHHGetCustom hasherC t [1], PRHHInsertCustom hasherC allocAll 200 t [1] [70] with
        | .ok slot, .ok (t1, ok) => .ok (slot, keyCopies t.buckets [1], ok, keyCopies t1.buckets [1])
        | _, _ => .error .abort
      | .error e => .error e)
      = (.ok (some 4, 1, true, 2) : Except Fault (Option Nat × Nat × Bool × Nat)) := by
  decide

/-- Iteration after delete calls that do not all succeed. On `tableA`, after
`PRHHDeleteCustom` of keys 1, 2, 3, 4 (the first returns `NULL`), `PRHHIterate`
makes one callback, for the one live bucket left, that of key 1. -/
theorem iterate_after_delete_calls :
    (match tableA with
      | .ok t =>
        match deleteKeys hasherA allocAll 200 [[1], [2], [3], [4]] t with
        | .ok (t1, _) => PRHHIterate t1
        | .error e => .error e
      | .error e => .error e)
      = (.ok [([1], [], 1, 0)] : Except Fault (List (Key × Val × Nat × Nat))) := by
  decide

/-- C20: the histogram differs from the probes `findprobe` computes. On
`tableC` `stats[0..5)` is 1, 0, 2, 1, 1 while the live records at probes
0, 1, 2, 3, 4 (by `findprobe`) number 2, 1, 2, 0, 0. -/
theorem C20_histogram_mismatch :
    (match tableC with
      | .ok t => .ok (t.stats.take 5, (List.range 5).map (probeHistogram hasherC t), t.objcnt)
      | .error e => .error e)
      = (.ok ([1, 0, 2, 1, 1], [2, 1, 2, 0, 0], 5) :
          Except Fault (List Nat × List Nat × Nat)) := by
  decide

/-- C13: `capacity_ms4b` leaves `[8, 15]` and the defensive check is reached.
`PRHHNew(31, 1/2, 0)` stores `capacity_clz = 58`, `capacity_ms4b = 16`; on
`tableK` (that table with two colliding keys) `PRHHDeleteCustom` of key 2 stops
at `op_assert(false, "Unknown capacity_ms4b")`. -/
theorem C13_ms4b_sixteen :
    (match tableK with
      | .ok t =>
        .ok (t.capacity_clz, t.capacity_ms4b, PRHHCapacity t,
          faultOf (PRHHDeleteCustom hasherZero allocAll 200 t [2]))
      | .error e => .error e)
      = (.ok (58, 16, 64, some .abort) :
          Except Fault (Nat × Nat × Nat × Option Fault)) := by
  decide

/-- C15, counterexample: the table fills completely. On `tableL`
(`PRHHNew(7, 0.875)`, capacity 8, `objcnt_high` 7), after eight inserts that
all returned `true`, `objcnt` is 8 and `PRHHCapacity` is 8, with eight live
buckets: `objcnt` is not strictly below the capacity. -/
theorem C15_objcnt_reaches_capacity :
    (match tableL with
      | .ok t => .ok (t.objcnt, t.objcnt_high, PRHHCapacity t, liveCount t.buckets)
      | .error e => .error e)
      = (.ok (8, 7, 8, 8) : Except Fault (Nat × Nat × Nat × Nat)) := by
  decide
theorem probe_offset_small (p : Nat) (hp : p ≤ 64) : probe_offset p = 2 * p * p := by
  have h1 : p * p ≤ 64 * 64 := Nat.mul_le_mul hp hp
  have h2 : p * p * 2 < 2 ^ 31 := by norm_num; omega
  have h3 : p * p * 2 < 2 ^ 32 := by norm_num; omega
  unfold probe_offset
  simp only [Nat.mod_eq_of_lt h3, h2, if_true]
  ring

theorem hash_with_probe_eq (t : Table) (h p : Nat) :
    hash_with_probe t h p =
      (((h + probe_offset p) % 2 ^ 64 % 2 ^ (64 - t.capacity_clz)) * t.capacity_ms4b % 2 ^ 64) / 16 := by
  unfold hash_with_probe probe_mask W64
  rw [Nat.and_pow_two_sub_one_eq_mod, Nat.shiftRight_eq_div_pow]

theorem scaled_lt (x n m : Nat) (hn : 4 ≤ n) (hm : 0 < m) :
    (x % 2 ^ n) * m / 16 < 2 ^ (n - 4) * m := by
  have hx : x % 2 ^ n < 2 ^ n := Nat.mod_lt _ (by positivity)
  have hpow : 2 ^ n = 2 ^ (n - 4) * 16 := by
    rw [show (16 : Nat) = 2 ^ 4 by norm_num, ← Nat.pow_add]
    congr 1; omega
  rw [Nat.div_lt_iff_lt_mul (by norm_num)]
  calc (x % 2 ^ n) * m < 2 ^ n * m := Nat.mul_lt_mul_of_pos_right hx hm
    _ = 2 ^ (n - 4) * m * 16 := by rw [hpow]; ring

/-- C14: index range. For every hash `h`, every probe `p ≤ 64`, every
`capacity_clz` in `[4, 60]` and `capacity_ms4b` in `[8, 15]`,
`hash_with_probe` is `(((h + 2*p*p) mod 2^64) & ((1 << (64 - clz)) - 1)) * ms4b >> 4`,
the multiplication stays below `2^64`, the capacity is
`(1 << (64 - clz - 4)) * ms4b`, and the index is strictly below the
capacity. -/
theorem C14_index_in_range (t : Table) (h p : Nat) (hp : p ≤ 64)
    (hclz : 4 ≤ t.capacity_clz ∧ t.capacity_clz ≤ 60)
    (hms : 8 ≤ t.capacity_ms4b ∧ t.capacity_ms4b ≤ 15) :
    hash_with_probe t h p
        = ((((h + 2 * p * p) % 2 ^ 64) &&& (2 ^ (64 - t.capacity_clz) - 1))
            * t.capacity_ms4b) >>> 4 ∧
      (((h + 2 * p * p) % 2 ^ 64) &&& (2 ^ (64 - t.capacity_clz) - 1))
          * t.capacity_ms4b < 2 ^ 64 ∧
      PRHHCapacity t = 2 ^ (64 - t.capacity_clz - 4) * t.capacity_ms4b ∧
      hash_with_probe t h p < PRHHCapacity t := by
  obtain ⟨hc1, hc2⟩ := hclz
  obtain ⟨hm1, hm2⟩ := hms
  have hn4 : 4 ≤ 64 - t.capacity_clz := by omega
  have hn60 : 64 - t.capacity_clz ≤ 60 := by omega
  have hmod : (h + 2 * p * p) % 2 ^ 64 % 2 ^ (64 - t.capacity_clz) < 2 ^ (64 - t.capacity_clz) :=
    Nat.mod_lt _ (by positivity)
  have hpow60 : 2 ^ (64 - t.capacity_clz) ≤ 2 ^ 60 := Nat.pow_le_pow_right (by norm_num) hn60
  have hmul : (h + 2 * p * p) % 2 ^ 64 % 2 ^ (64 - t.capacity_clz) * t.capacity_ms4b < 2 ^ 64 := by
    calc (h + 2 * p * p) % 2 ^ 64 % 2 ^ (64 - t.capacity_clz) * t.capacity_ms4b
        < 2 ^ (64 - t.capacity_clz) * 16 :=
          Nat.mul_lt_mul_of_lt_of_le hmod (by omega) (by norm_num)
      _ ≤ 2 ^ 60 * 16 := Nat.mul_le_mul_right _ hpow60
      _ = 2 ^ 64 := by norm_num
  have hcap : PRHHCapacity t = 2 ^ (64 - t.capacity_clz - 4) * t.capacity_ms4b := by
    unfold PRHHCapacity PRHHCapacityInternal W64
    apply Nat.mod_eq_of_lt
    have : 2 ^ (64 - t.capacity_clz - 4) ≤ 2 ^ 56 := Nat.pow_le_pow_right (by norm_num) (by omega)
    calc 2 ^ (64 - t.capacity_clz - 4) * t.capacity_ms4b ≤ 2 ^ 56 * 15 := Nat.mul_le_mul this hm2
      _ < 2 ^ 64 := by norm_num
  have heq : hash_with_probe t h p
      = ((h + 2 * p * p) % 2 ^ 64 % 2 ^ (64 - t.capacity_clz)) * t.capacity_ms4b / 16 := by
    rw [hash_with_probe_eq, probe_offset_small p hp, Nat.mod_eq_of_lt hmul]
  refine ⟨?_, ?_, hcap, ?_⟩
  · rw [heq, Nat.and_pow_two_sub_one_eq_mod, Nat.shiftRight_eq_div_pow]
  · rw [Nat.and_pow_two_sub_one_eq_mod]; exact hmul
  · rw [heq, hcap]
    exact scaled_lt _ _ _ hn4 (by omega)

/-- Witness for C14 on `tableB` (`capacity_clz = 60`, `capacity_ms4b = 8`),
hash 38, probe 3. -/
theorem C14_index_in_range_witness :
    hash_with_probe tableB 38 3
        = ((((38 + 2 * 3 * 3) % 2 ^ 64) &&& (2 ^ (64 - tableB.capacity_clz) - 1))
            * tableB.capacity_ms4b) >>> 4 ∧
      (((38 + 2 * 3 * 3) % 2 ^ 64) &&& (2 ^ (64 - tableB.capacity_clz) - 1))
          * tableB.capacity_ms4b < 2 ^ 64 ∧
      PRHHCapacity tableB = 2 ^ (64 - tableB.capacity_clz - 4) * tableB.capacity_ms4b ∧
      hash_with_probe tableB 38 3 < PRHHCapacity tableB :=
  C14_index_in_range tableB 38 3 (by decide) (by decide) (by decide)

/-- C16: allocation failure is atomic. If `objcnt > objcnt_high` on entry,
`PRHHSizeUp` gets as far as choosing the new `(clz, ms4b)`, and the allocation
of the new slab fails, then `PRHHInsertCustom` and `PRHHUpsertCustom` return
`false` and the table (every field and every bucket) is the one before the
call. -/
theorem C16_alloc_failure_atomic (hasher : Key → Nat) (alloc : Nat → Bool) (fuel : Nat)
    (t : Table) (key : Key) (val : Val) (nclz nms4b : Nat)
    (hhigh : t.objcnt > t.objcnt_high)
    (hshape : sizeUpShape t = .ok (nclz, nms4b))
    (hfail : alloc ((bucket_size t * PRHHCapacityInternal nclz nms4b) % W64) = false) :
    PRHHInsertCustom hasher alloc fuel t key val = .ok (t, false) ∧
    PRHHUpsertCustom hasher alloc fuel t key = .ok (t, ⟨false, none, false⟩) := by
  have hsize : PRHHSizeUp hasher alloc fuel t = .ok (t, false) := by
    simp [PRHHSizeUp, sizeUpWith, hshape, resizeTo, hfail]
  constructor
  · simp [PRHHInsertCustom, hhigh, hsize]
  · simp [PRHHUpsertCustom, hhigh, hsize]

/-- Witness for C16 on `tableM` with the allocator that always fails. -/
theorem C16_alloc_failure_atomic_witness :
    PRHHInsertCustom hasherA allocNone 10 tableM [7] [] = .ok (tableM, false) ∧
    PRHHUpsertCustom hasherA allocNone 10 tableM [7] = .ok (tableM, ⟨false, none, false⟩) :=
  C16_alloc_failure_atomic hasherA allocNone 10 tableM [7] [] 59 8
    (by decide) (by decide) (by decide)

theorem sameBytes_iff (a b : Key) : sameBytes a b = true ↔ a = b := by
  induction a generalizing b with
  | nil => cases b <;> simp [sameBytes]
  | cons x xs ih =>
    cases b with
    | nil => simp [sameBytes]
    | cons y ys => simp [sameBytes, ih]

theorem searchLoop_eq_ref (t : Table) (key : Key) (h : Nat) :
    ∀ (n p : Nat), searchLoop t key h n p = lookupRefScan t key h (List.range' p n) := by
  intro n
  induction n with
  | zero => intro p; simp [searchLoop, lookupRefScan]
  | succ n ih =>
    intro p
    rw [List.range'_succ]
    unfold searchLoop lookupRefScan
    dsimp only
    cases hb : readBucket t.buckets (hash_with_probe t h p) with
    | error e => rfl
    | ok b =>
      simp only []
      cases htok : b.tok with
      | empty => rfl
      | tombstone => simp only []; exact ih (p + 1)
      | live k =>
        simp only []
        by_cases hk : k = key
        · subst hk
          simp [(sameBytes_iff k k).2 rfl]
        · have hsb : ¬ (k.length = key.length ∧ sameBytes k key = true) := by
            intro hh; exact hk ((sameBytes_iff k key).1 hh.2)
          simp only [hk, hsb, if_false]
          exact ih (p + 1)

/-- C18: the lookup algorithm. `PRHHSearchIdx` equals the reference lookup of
the spec (`lookupRef`): scan `p = 0 .. longest_probes` with `h = hasher(key)`,
miss at the first EMPTY bucket, skip TOMBSTONE buckets, hit at the first live
bucket whose stored length and bytes equal the key, miss when the scan
ends. -/
theorem C18_lookup_refines_reference (hasher : Key → Nat) (t : Table) (key : Key) :
    PRHHSearchIdx hasher t key = lookupRef hasher t key := by
  unfold PRHHSearchIdx lookupRef
  rw [searchLoop_eq_ref, List.range_eq_range']

theorem bitLength_le (fuel x : Nat) : bitLength fuel x ≤ fuel := by
  induction fuel generalizing x with
  | zero => simp [bitLength]
  | succ n ih =>
    unfold bitLength
    split
    · omega
    · have := ih (x / 2); omega

theorem bitLength_bounds (fuel x : Nat) (hx : x < 2 ^ fuel) (h0 : 0 < x) :
    2 ^ (bitLength fuel x - 1) ≤ x ∧ x < 2 ^ bitLength fuel x := by
  induction fuel generalizing x with
  | zero => simp at hx; omega
  | succ n ih =>
    unfold bitLength
    rw [if_neg (by omega)]
    by_cases h2 : x / 2 = 0
    · have hx1 : x = 1 := by omega
      subst hx1
      cases n with
      | zero => simp [bitLength]
      | succ m => simp [bitLength]
    · have hlt : x / 2 < 2 ^ n := by
        rw [Nat.pow_succ] at hx; omega
      obtain ⟨h1, h3⟩ := ih (x / 2) hlt (by omega)
      have hpos : 0 < bitLength n (x / 2) := by
        cases n with
        | zero => simp at hlt; omega
        | succ m => unfold bitLength; rw [if_neg h2]; omega
      constructor
      · simp only [Nat.add_sub_cancel]
        have : 2 ^ bitLength n (x / 2) = 2 ^ (bitLength n (x / 2) - 1) * 2 := by
          rw [← Nat.pow_succ]; congr 1; omega
        rw [this]; omega
      · rw [Nat.pow_succ]; omega

theorem ceil_mul_least (c d : Nat) (hd : 0 < d) :
    c ≤ d * round_up_div c d ∧ ∀ m, d ∣ m → c ≤ m → d * round_up_div c d ≤ m := by
  unfold round_up_div
  constructor
  · have h1 := Nat.div_add_mod (c + d - 1) d
    have h2 := Nat.mod_lt (c + d - 1) hd
    omega
  · rintro m ⟨k, rfl⟩ hcm
    apply Nat.mul_le_mul_left
    rw [Nat.div_le_iff_le_mul_add_pred hd]
    have : c ≤ k * d := by rw [Nat.mul_comm]; exact hcm
    omega

theorem masked_scaled_lt (t : Table) (x : Nat)
    (hclz : 4 ≤ t.capacity_clz ∧ t.capacity_clz ≤ 60)
    (hms : 8 ≤ t.capacity_ms4b ∧ t.capacity_ms4b ≤ 15) :
    ((x &&& probe_mask t.capacity_clz) * t.capacity_ms4b % W64) >>> 4 < PRHHCapacity t := by
  obtain ⟨hc1, hc2⟩ := hclz
  obtain ⟨hm1, hm2⟩ := hms
  have hmod : x % 2 ^ (64 - t.capacity_clz) < 2 ^ (64 - t.capacity_clz) :=
    Nat.mod_lt _ (by positivity)
  have hpow60 : 2 ^ (64 - t.capacity_clz) ≤ 2 ^ 60 :=
    Nat.pow_le_pow_right (by norm_num) (by omega)
  have hmul : x % 2 ^ (64 - t.capacity_clz) * t.capacity_ms4b < 2 ^ 64 := by
    calc x % 2 ^ (64 - t.capacity_clz) * t.capacity_ms4b
        < 2 ^ (64 - t.capacity_clz) * 16 :=
          Nat.mul_lt_mul_of_lt_of_le hmod (by omega) (by norm_num)
      _ ≤ 2 ^ 60 * 16 := Nat.mul_le_mul_right _ hpow60
      _ = 2 ^ 64 := by norm_num
  have hcap : PRHHCapacity t = 2 ^ (64 - t.capacity_clz - 4) * t.capacity_ms4b := by
    unfold PRHHCapacity PRHHCapacityInternal W64
    apply Nat.mod_eq_of_lt
    have : 2 ^ (64 - t.capacity_clz - 4) ≤ 2 ^ 56 := Nat.pow_le_pow_right (by norm_num) (by omega)
    calc 2 ^ (64 - t.capacity_clz - 4) * t.capacity_ms4b ≤ 2 ^ 56 * 15 := Nat.mul_le_mul this hm2
      _ < 2 ^ 64 := by norm_num
  unfold probe_mask W64
  rw [Nat.and_pow_two_sub_one_eq_mod, Nat.shiftRight_eq_div_pow, Nat.mod_eq_of_lt hmul, hcap]
  exact scaled_lt _ _ _ (by omega) (by omega)

theorem readBucket_ok (bs : List Bucket) (idx : Nat) (h : idx < bs.length) :
    ∃ b, readBucket bs idx = .ok b ∧ bs[idx]? = some b := by
  unfold readBucket
  rw [List.getElem?_eq_getElem h]
  exact ⟨_, rfl, rfl⟩

theorem searchLoop_total (t : Table) (key : Key) (h : Nat)
    (hr : ∀ p, hash_with_probe t h p < t.buckets.length) :
    ∀ (n p : Nat), ∃ r, searchLoop t key h n p = .ok r := by
  intro n
  induction n with
  | zero => intro p; exact ⟨none, rfl⟩
  | succ n ih =>
    intro p
    unfold searchLoop
    dsimp only
    obtain ⟨b, hb, _⟩ := readBucket_ok _ _ (hr p)
    rw [hb]
    dsimp only
    cases htok : b.tok with
    | empty => exact ⟨none, rfl⟩
    | tombstone => exact ih _
    | live k =>
      dsimp only
      by_cases hk : k = key
      · rw [if_pos hk]; exact ⟨_, rfl⟩
      · rw [if_neg hk]; exact ih _

theorem searchLoop_probe (t : Table) (key : Key) (h : Nat) :
    ∀ (n p idx : Nat), searchLoop t key h n p = .ok (some idx) →
      ∃ q, p ≤ q ∧ q < p + n ∧ hash_with_probe t h q = idx := by
  intro n
  induction n with
  | zero => intro p idx hs; simp [searchLoop] at hs
  | succ n ih =>
    intro p idx hs
    unfold searchLoop at hs
    simp only [readBucket] at hs
    cases hb : t.buckets[hash_with_probe t h p]? with
    | none => simp [hb] at hs
    | some b =>
      simp only [hb] at hs
      cases htok : b.tok with
      | empty => simp [htok] at hs
      | tombstone =>
        simp only [htok] at hs
        obtain ⟨q, h1, h2, h3⟩ := ih _ _ hs
        exact ⟨q, by omega, by omega, h3⟩
      | live k =>
        simp only [htok] at hs
        by_cases hk : k = key
        · simp only [hk, if_true] at hs
          have hidx : hash_with_probe t h p = idx := by simpa using hs
          exact ⟨p, le_refl _, by omega, hidx⟩
        · simp only [hk, if_false] at hs
          obtain ⟨q, h1, h2, h3⟩ := ih _ _ hs
          exact ⟨q, by omega, by omega, h3⟩

theorem findprobeScan_finds (t : Table) (h idx : Nat) :
    ∀ (n i q : Nat), i ≤ q → q < i + n → hash_with_probe t h q = idx →
      ∃ r, findprobeScan t h idx n i = some r ∧ r ≤ q := by
  intro n
  induction n with
  | zero => intro i q h1 h2 _; omega
  | succ n ih =>
    intro i q h1 h2 h3
    unfold findprobeScan
    by_cases hi : hash_with_probe t h i = idx
    · rw [if_pos hi]; exact ⟨i, rfl, h1⟩
    · rw [if_neg hi]
      have hne : i ≠ q := by rintro rfl; exact hi h3
      exact ih (i + 1) q (by omega) (by omega) h3

theorem candidateScan_total (hasher : Key → Nat) (t : Table) (idx premod_idx probe : Nat)
    (hr : ∀ c, candidateIdx t premod_idx c probe < t.buckets.length) :
    ∀ (n c : Nat), ∃ r, candidateScan hasher t idx premod_idx probe n c = .ok r ∧
      ∀ ci, r = some ci → ci < t.buckets.length := by
  intro n
  induction n with
  | zero => intro c; exact ⟨none, rfl, by simp⟩
  | succ n ih =>
    intro c
    unfold candidateScan
    dsimp only
    obtain ⟨b, hb, _⟩ := readBucket_ok _ _ (hr c)
    rw [hb]
    dsimp only
    cases htok : b.tok with
    | empty => exact ih _
    | tombstone => exact ih _
    | live k =>
      dsimp only
      split
      · exact ⟨_, rfl, by intro ci hci; cases hci; exact hr c⟩
      · exact ih _

theorem backShiftScan_total (hasher : Key → Nat) (t : Table) (idx premod_idx candidates : Nat)
    (hr : ∀ c p, candidateIdx t premod_idx c p < t.buckets.length) :
    ∀ (start : Nat), ∃ r, backShiftScan hasher t idx premod_idx candidates start = .ok r ∧
      ∀ probe ci, r = some (probe, ci) →
        1 ≤ probe ∧ probe ≤ start ∧ ci < t.buckets.length := by
  intro start
  induction start with
  | zero => exact ⟨none, rfl, by simp⟩
  | succ n ih =>
    unfold backShiftScan
    obtain ⟨r, hr1, hr2⟩ := candidateScan_total hasher t idx premod_idx (n + 1)
      (fun c => hr c (n + 1)) candidates 0
    rw [hr1]
    cases r with
    | none =>
      dsimp only
      obtain ⟨r2, h1, h2⟩ := ih
      refine ⟨r2, h1, ?_⟩
      intro probe ci hpc
      obtain ⟨a, b, c⟩ := h2 probe ci hpc
      exact ⟨a, by omega, c⟩
    | some ci =>
      dsimp only
      refine ⟨_, rfl, ?_⟩
      intro probe ci2 hpc
      simp only [Option.some.injEq, Prod.mk.injEq] at hpc
      obtain ⟨h1, h2⟩ := hpc
      subst h1; subst h2
      exact ⟨by omega, le_refl _, hr2 _ rfl⟩

theorem shrinkLongest_ok (lp : Nat) (stats : List Nat) (p : Nat) (hlp : lp < 64) (hp : 1 ≤ lp) :
    ∃ lp1, shrinkLongest lp stats p = .ok lp1 ∧ lp1 < 64 := by
  unfold shrinkLongest
  split
  · rename_i hpe
    unfold statGet PROBE_STATS_SIZE
    rw [if_pos (by omega)]
    dsimp only
    split
    · exact ⟨_, rfl, by omega⟩
    · exact ⟨_, rfl, hlp⟩
  · exact ⟨_, rfl, hlp⟩

theorem backShiftMove_ok (t : Table) (idx ci probe : Nat)
    (hidx : idx < t.buckets.length) (hci : ci < t.buckets.length)
    (hlp : t.longest_probes < 64) (hp : 1 ≤ t.longest_probes) :
    ∃ t1, backShiftMove t idx ci probe = .ok t1 ∧
      t1.capacity_clz = t.capacity_clz ∧ t1.capacity_ms4b = t.capacity_ms4b ∧
      t1.objcnt = t.objcnt ∧ t1.buckets.length = t.buckets.length ∧
      t1.longest_probes < 64 ∧ t1.buckets[ci]? = t.buckets[idx]? := by
  unfold backShiftMove
  dsimp only
  obtain ⟨lp1, h1, h2⟩ := shrinkLongest_ok t.longest_probes
    (if probe < PROBE_STATS_SIZE then
      (if probe + 1 < PROBE_STATS_SIZE
        then t.stats.set (probe + 1) ((t.stats.getD (probe + 1) 0 + 2 ^ 32 - 1) % 2 ^ 32)
        else t.stats).set probe
        (((if probe + 1 < PROBE_STATS_SIZE
          then t.stats.set (probe + 1) ((t.stats.getD (probe + 1) 0 + 2 ^ 32 - 1) % 2 ^ 32)
          else t.stats).getD probe 0 + 1) % 2 ^ 32)
      else (if probe + 1 < PROBE_STATS_SIZE
        then t.stats.set (probe + 1) ((t.stats.getD (probe + 1) 0 + 2 ^ 32 - 1) % 2 ^ 32)
        else t.stats)) (probe + 1) hlp hp
  rw [h1]
  dsimp only
  obtain ⟨b1, hb1, hb1q⟩ := readBucket_ok _ _ hidx
  obtain ⟨b2, hb2, _⟩ := readBucket_ok _ _ hci
  rw [hb1, hb2]
  dsimp only
  refine ⟨_, rfl, rfl, rfl, rfl, by simp, h2, ?_⟩
  dsimp only
  rw [hb1q]
  simp [hci]

theorem backShiftLoop_ok (hasher : Key → Nat) :
    ∀ (record_probe : Nat) (t : Table) (idx : Nat),
      (4 ≤ t.capacity_clz ∧ t.capacity_clz ≤ 60) →
      (8 ≤ t.capacity_ms4b ∧ t.capacity_ms4b ≤ 15) →
      PRHHCapacity t ≤ t.buckets.length →
      idx < t.buckets.length →
      (record_probe ≠ 0 → t.longest_probes < 64) →
      ∃ t1 hole, backShiftLoop hasher record_probe t idx = .ok (t1, hole) ∧
        hole < t1.buckets.length ∧ t1.buckets[hole]? = t.buckets[idx]? ∧
        t1.objcnt = t.objcnt := by
  intro rp
  induction rp with
  | zero =>
    intro t idx _ _ _ hidx _
    exact ⟨t, idx, rfl, hidx, rfl, rfl⟩
  | succ rp ih =>
    intro t idx hclz hms hlen hidx hlp
    have hlp64 := hlp (by omega)
    unfold backShiftLoop
    rw [if_pos hms]
    dsimp only
    have hr : ∀ c p, candidateIdx t (round_up_div (16 * idx % W64) t.capacity_ms4b) c p
        < t.buckets.length := by
      intro c p
      unfold candidateIdx
      exact lt_of_lt_of_le (masked_scaled_lt t _ hclz hms) hlen
    obtain ⟨r, hr1, hr2⟩ := backShiftScan_total hasher t idx
      (round_up_div (16 * idx % W64) t.capacity_ms4b)
      (if (((round_up_div (16 * idx % W64) t.capacity_ms4b + 1) % W64
            &&& probe_mask t.capacity_clz) * t.capacity_ms4b % W64) >>> 4 = idx then 2 else 1)
      hr (t.longest_probes - 1)
    rw [hr1]
    cases r with
    | none => exact ⟨t, idx, rfl, hidx, rfl, rfl⟩
    | some pc =>
      obtain ⟨probe, ci⟩ := pc
      dsimp only
      obtain ⟨hp1, hp2, hci⟩ := hr2 probe ci rfl
      obtain ⟨t1, hm, e1, e2, e3, e4, e5, e6⟩ :=
        backShiftMove_ok t idx ci probe hidx hci hlp64 (by omega)
      rw [hm]
      dsimp only
      have hcap1 : PRHHCapacity t1 = PRHHCapacity t := by
        unfold PRHHCapacity; rw [e1, e2]
      obtain ⟨t2, hole, hl, g1, g2, g3⟩ := ih t1 ci (by rw [e1]; exact hclz)
        (by rw [e2]; exact hms) (by rw [hcap1, e4]; exact hlen) (by rw [e4]; exact hci)
        (fun _ => e5)
      exact ⟨t2, hole, hl, g1, by rw [g2, e6], by rw [g3, e3]⟩

theorem shrinkLongest_first (lp : Nat) (stats : List Nat) (p : Nat) (hlp : lp < 64) :
    ∃ lp1, shrinkLongest lp stats p = .ok lp1 ∧ (p ≠ 0 → lp1 < 64) := by
  unfold shrinkLongest
  split
  · unfold statGet PROBE_STATS_SIZE
    rw [if_pos (by omega)]
    dsimp only
    split
    · exact ⟨_, rfl, by intro h0; omega⟩
    · exact ⟨_, rfl, fun _ => hlp⟩
  · exact ⟨_, rfl, fun _ => hlp⟩

theorem deleteFound_ok (hasher : Key → Nat) (t : Table) (key : Key)
    (hclz : 4 ≤ t.capacity_clz ∧ t.capacity_clz ≤ 60)
    (hms : 8 ≤ t.capacity_ms4b ∧ t.capacity_ms4b ≤ 15)
    (hlp : t.longest_probes < 64)
    (hlen : PRHHCapacity t ≤ t.buckets.length) :
    (PRHHSearchIdx hasher t key = .ok none ∧ deleteFound hasher t key = .ok (t, none)) ∨
    (∃ idx b t1 slot, PRHHSearchIdx hasher t key = .ok (some idx) ∧
      t.buckets[idx]? = some b ∧ b.tok = Token.live key ∧
      deleteFound hasher t key = .ok (t1, some slot) ∧
      t1.buckets[slot]? = some ⟨Token.tombstone, b.val⟩ ∧
      t1.objcnt = (t.objcnt + W64 - 1) % W64) := by
  have hrange : ∀ p, hash_with_probe t (hasher key % W64) p < t.buckets.length := by
    intro p
    unfold hash_with_probe
    exact lt_of_lt_of_le (masked_scaled_lt t _ hclz hms) hlen
  obtain ⟨r, hs⟩ := searchLoop_total t key (hasher key % W64) hrange (t.longest_probes + 1) 0
  have hsearch : PRHHSearchIdx hasher t key = .ok r := hs
  cases r with
  | none =>
    left
    refine ⟨hsearch, ?_⟩
    unfold deleteFound
    rw [hsearch]
  | some idx =>
    right
    obtain ⟨b, hb, htok⟩ := searchLoop_sound t key (hasher key % W64) _ _ _ hs
    obtain ⟨q, hq1, hq2, hq3⟩ := searchLoop_probe t key (hasher key % W64) _ _ _ hs
    have hidx : idx < t.buckets.length := by rw [← hq3]; exact hrange q
    obtain ⟨rp, hfp, hrp⟩ := findprobeScan_finds t (hasher key % W64) idx
      (t.longest_probes + 1) 0 q hq1 hq2 hq3
    have hfind : findprobe hasher t idx = .ok rp := by
      unfold findprobe readBucket
      rw [hb]
      dsimp only
      rw [htok]
      unfold tokenHash
      dsimp only
      rw [hfp]
    have hrp64 : rp < 64 := by omega
    have hshrink := shrinkLongest_first t.longest_probes
        (if rp < PROBE_STATS_SIZE
          then t.stats.set rp ((t.stats.getD rp 0 + 2 ^ 32 - 1) % 2 ^ 32) else t.stats) rp
        hlp
    obtain ⟨lp1, hsh, hlp1⟩ := hshrink
    have hlen1 : PRHHCapacityInternal t.capacity_clz t.capacity_ms4b ≤ t.buckets.length := hlen
    obtain ⟨t1, hole, hbl, g1, g2, g3⟩ := backShiftLoop_ok hasher rp
      { t with objcnt := (t.objcnt + W64 - 1) % W64
               stats := (if rp < PROBE_STATS_SIZE
                 then t.stats.set rp ((t.stats.getD rp 0 + 2 ^ 32 - 1) % 2 ^ 32) else t.stats)
               longest_probes := lp1 }
      idx hclz hms (by unfold PRHHCapacity; exact hlen1) hidx hlp1
    obtain ⟨b1, hb1, hb1q⟩ := readBucket_ok _ _ g1
    have hbb : b1 = b := by
      have : some b1 = some b := by rw [← hb1q, g2]; exact hb
      exact Option.some.inj this
    refine ⟨idx, b, { t1 with buckets := t1.buckets.set hole ⟨.tombstone, b1.val⟩ }, hole,
      hsearch, hb, htok, ?_, ?_, ?_⟩
    · unfold deleteFound
      rw [hsearch]
      dsimp only
      rw [hfind]
      dsimp only
      rw [hsh]
      dsimp only
      rw [hbl]
      dsimp only
      rw [hb1]
    · dsimp only
      rw [hbb]
      simp [g1]
    · exact g3

/-- C6, counterexample: a null result although the lookup finds the key. On
`tableP` (`objcnt` 17, `objcnt_low` 19) `PRHHGetCustom` finds key
1 in bucket 1, and `PRHHDeleteCustom` of key 1 with an allocator that fails
returns `NULL` and leaves the table as it was: the call enters `PRHHSizeDown`,
whose allocation fails. -/
theorem C6_null_although_found :
    (match tableP with
      | .ok t =>
        match PRHHGetCustom hasherL t [1], PRHHDeleteCustom hasherL allocNone 400 t [1] with
        | .ok g, .ok (t1, d) =>
          .ok (t.objcnt, t.objcnt_low, [g, d], decide (t1 = t))
        | .error e, _ => .error e
        | _, .error e => .error e
      | .error e => .error e)
      = (.ok (17, 19, [some 1, none], true) :
          Except Fault (Nat × Nat × List (Option Nat) × Bool)) := by
  decide

/-- C21: `longest_probes` is not the largest populated depth. On `tableQ`
`stats[0..5)` is 1, 1, 0, 0, 0 (largest `p` with `stats[p] > 0` is 1) and
`longest_probes` is 2. -/
theorem C21_longest_probes_not_exact :
    (match tableQ with
      | .ok t => .ok (t.stats.take 5, t.longest_probes)
      | .error e => .error e)
      = (.ok ([1, 1, 0, 0, 0], 2) : Except Fault (List Nat × Nat)) := by
  decide

/-- C22: `longest_probes` leaves `[0, 64]`. On `tableR` (one key inserted and
deleted again) `longest_probes` is 65535, `objcnt` is 0 and `stats[0]` is 0. -/
theorem C22_longest_probes_wraps :
    (match tableR with
      | .ok t => .ok (t.longest_probes, t.objcnt, t.stats.take 1)
      | .error e => .error e)
      = (.ok (65535, 0, [0]) : Except Fault (Nat × Nat × List Nat)) := by
  decide

/-- C23, counterexample: a tombstone between a live record and its home. On
`tableS` key 2 (hash 0) is found in bucket 1, which its hash reaches only at
probe 1 (`longest_probes` is 1), and the bucket at its probe 0 holds the
tombstone. -/
theorem C23_tombstone_before_live :
    (match tableS with
      | .ok t =>
        match PRHHGetCustom hasherZero t [2] with
        | .ok g => .ok (g, t.longest_probes, probesReaching t 0 1, probeTokens t 0 1)
        | .error e => .error e
      | .error e => .error e)
      = (.ok (some 1, 1, [1], [some .tombstone]) :
          Except Fault (Option Nat × Nat × List Nat × List (Option Token))) := by
  decide

/-- C30: a live record behind an EMPTY bucket. On `tableA` (`longest_probes`
3) the buckets at probes 0, 1, 2, 3 of hash 38 hold key 4, key 3, EMPTY and
key 1; probe 3 is the only probe up to `longest_probes` at which hash 38
reaches bucket 12, where key 1 (hash 38) sits; `PRHHGetCustom` misses key 1. -/
theorem C30_live_behind_empty :
    (match tableA with
      | .ok t =>
        match PRHHGetCustom hasherA t [1] with
        | .ok g =>
          .ok (t.longest_probes, probesReaching t 38 (hash_with_probe t 38 3),
            probeTokens t 38 4, g)
        | .error e => .error e
      | .error e => .error e)
      = (.ok (3, [3], [some (.live [4]), some (.live [3]), some .empty, some (.live [1])], none) :
          Except Fault (Nat × List Nat × List (Option Token) × Option Nat)) := by
  decide

/-- C25: the probe `findprobe` returns is not unique and not the placing
probe. On `tableC` (`longest_probes` 4) bucket 1 holds key 2 (hash 2);
`findprobe` returns 0, probes 0 and 4 both reach bucket 1, and the counters
`stats[0..5)` are 1, 0, 2, 1, 1: the record was counted at probe 4. -/
theorem C25_findprobe_not_unique :
    (match tableC with
      | .ok t =>
        match findprobe hasherC t 1 with
        | .ok p =>
          .ok ((t.buckets[1]?).map (fun b : Bucket => b.tok), p, probesReaching t 2 1,
            t.stats.take 5)
        | .error e => .error e
      | .error e => .error e)
      = (.ok (some (.live [2]), 0, [0, 4], [1, 0, 2, 1, 1]) :
          Except Fault (Option Token × Nat × List Nat × List Nat)) := by
  decide

/-- C27: a large-data growth step below 20%. The table of
`PRHHNew(num_objects = 100663296, load = 1/2, valsize = 0)` has
`capacity_clz = 36`, `capacity_ms4b = 12`, capacity 201326592 and a slab of
`2^30` bytes or more; `PRHHSizeUp` picks `clz = 36`, `ms4b = 14`, capacity
234881024, which is 7/6 of the old capacity: `5 * 234881024 < 6 * 201326592`. -/
theorem C27_growth_below_twenty_percent :
    (match PRHHNew allocAll 100663296 1 2 0 with
      | .ok (some t) =>
        match sizeUpShape t with
        | .ok (nclz, nms4b) =>
          .ok ([t.capacity_clz, t.capacity_ms4b, PRHHCapacity t],
            decide (PRHHCapacity t * bucket_size t % W64 ≥ t.large_data_threshold),
            [nclz, nms4b, PRHHCapacityInternal nclz nms4b],
            decide (5 * PRHHCapacityInternal nclz nms4b < 6 * PRHHCapacity t))
        | .error e => .error e
      | .ok none => .error .abort
      | .error e => .error e)
      = (.ok ([36, 12, 201326592], true, [36, 14, 234881024], true) :
          Except Fault (List Nat × Bool × List Nat × Bool)) := by
  decide

theorem scale_preimage (m idx x : Nat) (hm : 8 ≤ m ∧ m ≤ 15) :
    (x * m / 16 = idx ↔
      (x = (16 * idx + m - 1) / m ∨
        (x = (16 * idx + m - 1) / m + 1 ∧ ((16 * idx + m - 1) / m + 1) * m / 16 = idx))) ∧
    ((16 * idx + m - 1) / m) * m / 16 = idx := by
  obtain ⟨h1, h2⟩ := hm
  interval_cases m <;> omega

theorem premod_le_mask (m idx K : Nat) (hm : 8 ≤ m ∧ m ≤ 15) (hidx : idx < K * m) :
    (16 * idx + m - 1) / m < 16 * K := by
  obtain ⟨h1, h2⟩ := hm
  interval_cases m <;> omega

theorem capacity_eq (t : Table)
    (hclz : 4 ≤ t.capacity_clz ∧ t.capacity_clz ≤ 60)
    (hms : 8 ≤ t.capacity_ms4b ∧ t.capacity_ms4b ≤ 15) :
    PRHHCapacity t = 2 ^ (64 - t.capacity_clz - 4) * t.capacity_ms4b ∧
      2 ^ (64 - t.capacity_clz) = 16 * 2 ^ (64 - t.capacity_clz - 4) ∧
      2 ^ (64 - t.capacity_clz - 4) ≤ 2 ^ 56 ∧
      W64 = 2 ^ (64 - t.capacity_clz) * 2 ^ t.capacity_clz := by
  obtain ⟨hc1, hc2⟩ := hclz
  obtain ⟨hm1, hm2⟩ := hms
  have hpow56 : 2 ^ (64 - t.capacity_clz - 4) ≤ 2 ^ 56 :=
    Nat.pow_le_pow_right (by norm_num) (by omega)
  refine ⟨?_, ?_, hpow56, ?_⟩
  · unfold PRHHCapacity PRHHCapacityInternal W64
    apply Nat.mod_eq_of_lt
    calc 2 ^ (64 - t.capacity_clz - 4) * t.capacity_ms4b ≤ 2 ^ 56 * 15 :=
          Nat.mul_le_mul hpow56 hm2
      _ < 2 ^ 64 := by norm_num
  · rw [show (16 : Nat) = 2 ^ 4 by norm_num, ← Nat.pow_add]
    congr 1; omega
  · unfold W64
    rw [← Nat.pow_add]
    congr 1; omega

theorem masked_scale_eq (t : Table) (x : Nat)
    (hclz : 4 ≤ t.capacity_clz ∧ t.capacity_clz ≤ 60)
    (hms : 8 ≤ t.capacity_ms4b ∧ t.capacity_ms4b ≤ 15) :
    ((x &&& probe_mask t.capacity_clz) * t.capacity_ms4b % W64) >>> 4
      = (x % 2 ^ (64 - t.capacity_clz)) * t.capacity_ms4b / 16 := by
  obtain ⟨_, hN, hK, _⟩ := capacity_eq t hclz hms
  have hmod : x % 2 ^ (64 - t.capacity_clz) < 2 ^ (64 - t.capacity_clz) :=
    Nat.mod_lt _ (by positivity)
  have hmul : x % 2 ^ (64 - t.capacity_clz) * t.capacity_ms4b < W64 := by
    unfold W64
    calc x % 2 ^ (64 - t.capacity_clz) * t.capacity_ms4b
        < 2 ^ (64 - t.capacity_clz) * 16 :=
          Nat.mul_lt_mul_of_lt_of_le hmod (by omega) (by norm_num)
      _ ≤ 2 ^ 60 * 16 := Nat.mul_le_mul_right _ (by omega)
      _ = 2 ^ 64 := by norm_num
  unfold probe_mask
  rw [Nat.and_pow_two_sub_one_eq_mod, Nat.shiftRight_eq_div_pow, Nat.mod_eq_of_lt hmul]

theorem sub_add_shuffle (y a b w : Nat) (hab : a ≤ b) (haw : a ≤ w) :
    y + b + (w - a) = y + ((b - a) + w) := by omega

theorem add_sub_shuffle (h a b w : Nat) (hab : a ≤ b) :
    h + a + ((b - a) + w) = h + b + w := by omega

theorem next_probe_candidate (t : Table) (h p premod c : Nat)
    (hclz : 4 ≤ t.capacity_clz ∧ t.capacity_clz ≤ 60)
    (hms : 8 ≤ t.capacity_ms4b ∧ t.capacity_ms4b ≤ 15)
    (hp : p ≤ 63)
    (hc : (h + probe_offset p) % W64 % 2 ^ (64 - t.capacity_clz) = premod + c) :
    hash_with_probe t h (p + 1) = candidateIdx t premod c p := by
  obtain ⟨_, _, _, hW⟩ := capacity_eq t hclz hms
  have hoff : probe_offset p = 2 * p * p := probe_offset_small p (by omega)
  have hoff1 : probe_offset (p + 1) = 2 * (p + 1) * (p + 1) := probe_offset_small _ (by omega)
  have hle : 2 * p * p ≤ 2 * (p + 1) * (p + 1) := by nlinarith
  have hoffW : 2 * p * p ≤ W64 := by
    have h1 : p * p ≤ 63 * 63 := Nat.mul_le_mul hp hp
    have h2 : (2 : Nat) * (63 * 63) ≤ W64 := by unfold W64; norm_num
    calc 2 * p * p = 2 * (p * p) := by ring
      _ ≤ 2 * (63 * 63) := Nat.mul_le_mul_left _ h1
      _ ≤ W64 := h2
  have hdvd : 2 ^ (64 - t.capacity_clz) ∣ W64 := ⟨_, hW⟩
  have key : ((premod + c + probe_offset (p + 1) + (W64 - probe_offset p)) % W64)
        % 2 ^ (64 - t.capacity_clz)
      = ((h + probe_offset (p + 1)) % W64) % 2 ^ (64 - t.capacity_clz) := by
    rw [Nat.mod_mod_of_dvd _ hdvd, Nat.mod_mod_of_dvd _ hdvd, ← hc,
      Nat.mod_mod_of_dvd _ hdvd, hoff, hoff1,
      sub_add_shuffle _ _ _ _ hle hoffW, Nat.mod_add_mod,
      add_sub_shuffle _ _ _ _ hle]
    nth_rewrite 1 [hW]
    rw [Nat.add_mul_mod_self_left]
  unfold hash_with_probe candidateIdx
  rw [masked_scale_eq t _ hclz hms, masked_scale_eq t _ hclz hms, key]

theorem preimage_facts (t : Table) (idx premod : Nat)
    (hclz : 4 ≤ t.capacity_clz ∧ t.capacity_clz ≤ 60)
    (hms : 8 ≤ t.capacity_ms4b ∧ t.capacity_ms4b ≤ 15)
    (hidx : idx < PRHHCapacity t)
    (hpre : premod = round_up_div (16 * idx % W64) t.capacity_ms4b) :
    premod ≤ probe_mask t.capacity_clz ∧
    (∀ x, x ≤ probe_mask t.capacity_clz →
      (((x &&& probe_mask t.capacity_clz) * t.capacity_ms4b % W64) >>> 4 = idx ↔
        (x = premod ∨ (x = premod + 1 ∧
          ((((premod + 1) % W64) &&& probe_mask t.capacity_clz)
            * t.capacity_ms4b % W64) >>> 4 = idx)))) := by
  obtain ⟨hcap, hN, hK, hW⟩ := capacity_eq t hclz hms
  have hm2 := hms.2
  have hmask : probe_mask t.capacity_clz = 2 ^ (64 - t.capacity_clz) - 1 := rfl
  have hN60 : 2 ^ (64 - t.capacity_clz) ≤ 2 ^ 60 :=
    Nat.pow_le_pow_right (by norm_num) (by omega)
  have hNW : 2 ^ (64 - t.capacity_clz) < W64 := by
    unfold W64
    exact lt_of_le_of_lt hN60 (by norm_num)
  rw [hcap] at hidx
  have hidx56 : idx < 2 ^ 56 * 16 := by
    calc idx < 2 ^ (64 - t.capacity_clz - 4) * t.capacity_ms4b := hidx
      _ ≤ 2 ^ 56 * 16 := Nat.mul_le_mul hK (by omega)
  have h16 : 16 * idx % W64 = 16 * idx := by
    apply Nat.mod_eq_of_lt
    unfold W64
    have : (2 : Nat) ^ 56 * 16 * 16 = 2 ^ 64 := by norm_num
    omega
  have hpre2 : premod = (16 * idx + t.capacity_ms4b - 1) / t.capacity_ms4b := by
    rw [hpre, h16]; rfl
  have hpl := premod_le_mask t.capacity_ms4b idx _ hms hidx
  rw [← hpre2, ← hN] at hpl
  have hsc : ∀ x, x ≤ probe_mask t.capacity_clz →
      ((x &&& probe_mask t.capacity_clz) * t.capacity_ms4b % W64) >>> 4
        = x * t.capacity_ms4b / 16 := by
    intro x hx
    rw [hmask] at hx
    rw [masked_scale_eq t x hclz hms, Nat.mod_eq_of_lt (by omega)]
  have hpm : premod ≤ probe_mask t.capacity_clz := by rw [hmask]; omega
  have hchk : ∀ x, x = premod + 1 → x ≤ probe_mask t.capacity_clz →
      ((((premod + 1) % W64) &&& probe_mask t.capacity_clz) * t.capacity_ms4b % W64) >>> 4
        = (premod + 1) * t.capacity_ms4b / 16 := by
    intro x hx hxm
    have hlt : premod + 1 < W64 := by rw [hmask] at hxm; omega
    rw [Nat.mod_eq_of_lt hlt]
    exact hsc _ (by rw [← hx]; exact hxm)
  refine ⟨hpm, ?_⟩
  intro x hx
  rw [hsc x hx]
  have hsp := (scale_preimage t.capacity_ms4b idx x hms).1
  rw [← hpre2] at hsp
  constructor
  · intro hx1
    rcases hsp.mp hx1 with h1 | ⟨h1, h2⟩
    · exact Or.inl h1
    · exact Or.inr ⟨h1, by rw [hchk x h1 hx]; exact h2⟩
  · rintro (h1 | ⟨h1, h2⟩)
    · exact hsp.mpr (Or.inl h1)
    · rw [hchk x h1 hx] at h2
      exact hsp.mpr (Or.inr ⟨h1, h2⟩)

/-- C26: the back-shift candidates are complete. For `capacity_clz` in
`[4, 60]`, `capacity_ms4b` in `[8, 15]`, a bucket index `idx` below the
capacity, a probe `p` in `[1, 63]` and a hash `h` whose probe `p` reaches
`idx`: `premod = round_up_div(16 * idx, ms4b)` is a masked value scaled to
`idx` and the least one; the masked values scaled to `idx` are `premod` and,
exactly when `(((premod + 1) & mask) * ms4b >> 4) == idx`, `premod + 1`; and
the bucket of `h` at probe `p + 1` is
`((premod + c + 2*(p+1)^2 - 2*p^2) & mask) * ms4b >> 4` for one of the scanned
`c` (`c = 0`, or `c < 2` when that test holds). -/
theorem C26_backshift_candidates (t : Table) (h p idx premod : Nat)
    (hclz : 4 ≤ t.capacity_clz ∧ t.capacity_clz ≤ 60)
    (hms : 8 ≤ t.capacity_ms4b ∧ t.capacity_ms4b ≤ 15)
    (hp : 1 ≤ p ∧ p ≤ 63)
    (hidx : idx < PRHHCapacity t)
    (hh : hash_with_probe t h p = idx)
    (hpre : premod = round_up_div (16 * idx % W64) t.capacity_ms4b) :
    (premod ≤ probe_mask t.capacity_clz ∧
      ((premod &&& probe_mask t.capacity_clz) * t.capacity_ms4b % W64) >>> 4 = idx ∧
      ∀ x, x ≤ probe_mask t.capacity_clz →
        ((x &&& probe_mask t.capacity_clz) * t.capacity_ms4b % W64) >>> 4 = idx → premod ≤ x) ∧
    (∀ x, x ≤ probe_mask t.capacity_clz →
      (((x &&& probe_mask t.capacity_clz) * t.capacity_ms4b % W64) >>> 4 = idx ↔
        (x = premod ∨ (x = premod + 1 ∧
          ((((premod + 1) % W64) &&& probe_mask t.capacity_clz)
            * t.capacity_ms4b % W64) >>> 4 = idx)))) ∧
    (∃ c, c < (if ((((premod + 1) % W64) &&& probe_mask t.capacity_clz)
            * t.capacity_ms4b % W64) >>> 4 = idx then 2 else 1) ∧
      hash_with_probe t h (p + 1) = candidateIdx t premod c p) := by
  obtain ⟨hpm, hiff⟩ := preimage_facts t idx premod hclz hms hidx hpre
  refine ⟨⟨hpm, (hiff premod hpm).mpr (Or.inl rfl), ?_⟩, hiff, ?_⟩
  · intro x hx hx1
    rcases (hiff x hx).mp hx1 with h1 | ⟨h1, _⟩
    · exact le_of_eq h1.symm
    · rw [h1]; exact Nat.le_succ _
  · have hxp_le : (h + probe_offset p) % W64 % 2 ^ (64 - t.capacity_clz)
        ≤ probe_mask t.capacity_clz :=
      Nat.le_sub_one_of_lt (Nat.mod_lt _ (by positivity))
    have hS : ((((h + probe_offset p) % W64 % 2 ^ (64 - t.capacity_clz))
        &&& probe_mask t.capacity_clz) * t.capacity_ms4b % W64) >>> 4 = idx := by
      rw [masked_scale_eq t _ hclz hms, Nat.mod_mod, ← hh]
      unfold hash_with_probe
      rw [masked_scale_eq t _ hclz hms]
    rcases (hiff _ hxp_le).mp hS with h1 | ⟨h1, h2⟩
    · refine ⟨0, ?_, next_probe_candidate t h p premod 0 hclz hms hp.2 h1⟩
      by_cases hck : ((((premod + 1) % W64) &&& probe_mask t.capacity_clz)
          * t.capacity_ms4b % W64) >>> 4 = idx
      · rw [if_pos hck]; exact Nat.zero_lt_two
      · rw [if_neg hck]; exact Nat.zero_lt_one
    · refine ⟨1, ?_, next_probe_candidate t h p premod 1 hclz hms hp.2 h1⟩
      rw [if_pos h2]; exact Nat.one_lt_two

/-- Witness for C26 on `tableB` (`clz` 60, `ms4b` 8): hash 38 reaches bucket 4
at probe 1, and `premod` is 8. -/
theorem C26_backshift_candidates_witness :
    (8 ≤ probe_mask tableB.capacity_clz ∧
      ((8 &&& probe_mask tableB.capacity_clz) * tableB.capacity_ms4b % W64) >>> 4 = 4 ∧
      ∀ x, x ≤ probe_mask tableB.capacity_clz →
        ((x &&& probe_mask tableB.capacity_clz) * tableB.capacity_ms4b % W64) >>> 4 = 4 →
          8 ≤ x) ∧
    (∀ x, x ≤ probe_mask tableB.capacity_clz →
      (((x &&& probe_mask tableB.capacity_clz) * tableB.capacity_ms4b % W64) >>> 4 = 4 ↔
        (x = 8 ∨ (x = 8 + 1 ∧
          ((((8 + 1) % W64) &&& probe_mask tableB.capacity_clz)
            * tableB.capacity_ms4b % W64) >>> 4 = 4)))) ∧
    (∃ c, c < (if ((((8 + 1) % W64) &&& probe_mask tableB.capacity_clz)
            * tableB.capacity_ms4b % W64) >>> 4 = 4 then 2 else 1) ∧
      hash_with_probe tableB 38 (1 + 1) = candidateIdx tableB 8 c 1) :=
  C26_backshift_candidates tableB 38 1 4 8 (by decide) (by decide) (by decide) (by decide)
    (by decide) (by decide)

theorem keepsNonEmpty_refl (bs : List Bucket) : keepsNonEmpty bs bs :=
  ⟨rfl, fun _ b hb hne => ⟨b, hb, hne⟩⟩

theorem keepsNonEmpty_trans (a b c : List Bucket) (h1 : keepsNonEmpty a b)
    (h2 : keepsNonEmpty b c) : keepsNonEmpty a c := by
  refine ⟨h2.1.trans h1.1, ?_⟩
  intro i x hx hne
  obtain ⟨y, hy, hyne⟩ := h1.2 i x hx hne
  exact h2.2 i y hy hyne

theorem keepsNonEmpty_set (bs : List Bucket) (i : Nat) (b : Bucket)
    (hb : b.tok ≠ Token.empty) : keepsNonEmpty bs (bs.set i b) := by
  refine ⟨by simp, ?_⟩
  intro j x hx hne
  by_cases hij : i = j
  · subst hij
    have hlt : i < bs.length := by
      by_contra hcon
      rw [List.getElem?_eq_none (by omega)] at hx
      cases hx
    exact ⟨b, by simp [hlt], hb⟩
  · exact ⟨x, by rw [List.getElem?_set_ne hij]; exact hx, hne⟩

theorem keepsNonEmpty_set_same (bs : List Bucket) (i : Nat) (b : Bucket) (v : Val)
    (hb : bs[i]? = some b) : keepsNonEmpty bs (bs.set i ⟨b.tok, v⟩) := by
  refine ⟨by simp, ?_⟩
  intro j x hx hne
  by_cases hij : i = j
  · subst hij
    have hlt : i < bs.length := by
      by_contra hcon
      rw [List.getElem?_eq_none (by omega)] at hx
      cases hx
    have hxb : x = b := by
      rw [hb] at hx; exact (Option.some.inj hx).symm
    exact ⟨⟨b.tok, v⟩, by simp [hlt], by rw [← hxb]; exact hne⟩
  · exact ⟨x, by rw [List.getElem?_set_ne hij]; exact hx, hne⟩

theorem tokenHash_live (hasher : Key → Nat) (tok : Token) (h : Nat)
    (hh : tokenHash hasher tok = .ok h) : tok ≠ Token.empty := by
  intro he
  rw [he] at hh
  simp [tokenHash] at hh

theorem isLive_ne_empty (tok : Token) (h : tok.isLive = true) : tok ≠ Token.empty := by
  intro he
  rw [he] at h
  simp [Token.isLive] at h

theorem resizeTo_refused (pd : Table → Bucket → Except Fault Table) (alloc : Nat → Bool)
    (t : Table) (c m : Nat) (hno : ∀ n, alloc n = false) :
    resizeTo pd alloc t c m = .ok (t, false) := by
  simp [resizeTo, hno]

/-- A resize that reports `false` hands back the table it was given. -/
theorem resizeTo_false (pd : Table → Bucket → Except Fault Table) (alloc : Nat → Bool)
    (t t1 : Table) (c m : Nat) (h : resizeTo pd alloc t c m = .ok (t1, false)) : t1 = t := by
  unfold resizeTo at h
  dsimp only at h
  split at h
  · split at h
    · cases h
    · simp only [Except.ok.injEq, Prod.mk.injEq] at h
      exact absurd h.2 (by simp)
  · simp only [Except.ok.injEq, Prod.mk.injEq] at h
    exact h.1.symm

theorem sizeUpWith_false (pd : Table → Bucket → Except Fault Table) (alloc : Nat → Bool)
    (t t1 : Table) (h : sizeUpWith pd alloc t = .ok (t1, false)) : t1 = t := by
  unfold sizeUpWith at h
  split at h
  · cases h
  · exact resizeTo_false pd alloc t t1 _ _ h

theorem sizeDownWith_false (pd : Table → Bucket → Except Fault Table) (alloc : Nat → Bool)
    (t t1 : Table) (h : sizeDownWith pd alloc t = .ok (t1, false)) : t1 = t := by
  unfold sizeDownWith at h
  split at h
  · cases h
  · exact resizeTo_false pd alloc t t1 _ _ h

/-- The entry step of `PRHHInsertCustom` and `PRHHUpsertCustom`: when it
reports `false` the table is the one on entry. -/
theorem entryUp_false (hasher : Key → Nat) (alloc : Nat → Bool) (fuel : Nat) (t t0 : Table)
    (c : Prop) [Decidable c]
    (h : (if c then PRHHSizeUp hasher alloc fuel t else .ok (t, true)) = .ok (t0, false)) :
    t0 = t := by
  split at h
  · exact sizeUpWith_false _ alloc t t0 h
  · simp only [Except.ok.injEq, Prod.mk.injEq] at h
    exact absurd h.2 (by simp)

/-- The entry step of `PRHHDeleteCustom`: when it reports `false` the table is
the one on entry. -/
theorem entryDown_false (hasher : Key → Nat) (alloc : Nat → Bool) (fuel : Nat) (t t0 : Table)
    (c : Prop) [Decidable c]
    (h : (if c then PRHHSizeDown hasher alloc fuel t else .ok (t, true)) = .ok (t0, false)) :
    t0 = t := by
  split at h
  · exact sizeDownWith_false _ alloc t t0 h
  · simp only [Except.ok.injEq, Prod.mk.injEq] at h
    exact absurd h.2 (by simp)

theorem sizeUpWith_refused (pd : Table → Bucket → Except Fault Table) (alloc : Nat → Bool)
    (t t1 : Table) (s : Bool) (hno : ∀ n, alloc n = false)
    (h : sizeUpWith pd alloc t = .ok (t1, s)) : t1 = t ∧ s = false := by
  unfold sizeUpWith at h
  cases hs : sizeUpShape t with
  | error e => rw [hs] at h; cases h
  | ok cm =>
    obtain ⟨c, m⟩ := cm
    rw [hs] at h
    dsimp only at h
    rw [resizeTo_refused pd alloc t c m hno] at h
    simp only [Except.ok.injEq, Prod.mk.injEq] at h
    exact ⟨h.1.symm, h.2.symm⟩

theorem sizeDownWith_refused (pd : Table → Bucket → Except Fault Table) (alloc : Nat → Bool)
    (t t1 : Table) (s : Bool) (hno : ∀ n, alloc n = false)
    (h : sizeDownWith pd alloc t = .ok (t1, s)) : t1 = t ∧ s = false := by
  unfold sizeDownWith at h
  cases hs : sizeDownShape t with
  | error e => rw [hs] at h; cases h
  | ok cm =>
    obtain ⟨c, m⟩ := cm
    rw [hs] at h
    dsimp only at h
    rw [resizeTo_refused pd alloc t c m hno] at h
    simp only [Except.ok.injEq, Prod.mk.injEq] at h
    exact ⟨h.1.symm, h.2.symm⟩

theorem pushDown_keeps (hasher : Key → Nat) (alloc : Nat → Bool) (hno : ∀ n, alloc n = false) :
    ∀ (fuel : Nat) (t : Table) (cpy : Bucket) (probe : Nat) (avoid : Option Nat) (visit : Nat)
      (visited : List Nat) (resized : Bool) (t' : Table) (r : Bool),
      PRHHUpsertPushDown hasher alloc fuel t cpy probe avoid visit visited resized = .ok (t', r) →
      keepsNonEmpty t.buckets t'.buckets := by
  intro fuel
  induction fuel with
  | zero =>
    intro t cpy probe avoid visit visited resized t' r h
    simp [PRHHUpsertPushDown] at h
  | succ fuel ih =>
    intro t cpy probe avoid visit visited resized t' r h
    rw [PRHHUpsertPushDown] at h
    cases hth : tokenHash hasher cpy.tok with
    | error e => rw [hth] at h; cases h
    | ok hk =>
      have hcpy := tokenHash_live hasher _ _ hth
      rw [hth] at h
      dsimp only at h
      split at h
      · -- probe > PROBE_STATS_SIZE
        split at h
        · cases h
        · rename_i t1 swapped hsz
          obtain ⟨e1, _⟩ := sizeUpWith_refused _ alloc t t1 swapped hno hsz
          rw [e1] at h
          exact ih _ _ _ _ _ _ _ _ _ h
      · split at h
        · exact ih _ _ _ _ _ _ _ _ _ h
        · split at h
          · exact ih _ _ _ _ _ _ _ _ _ h
          · split at h
            · cases h
            · rename_i b hb
              split at h
              · split at h
                · cases h
                · rename_i old_probe hfp
                  split at h
                  · split at h
                    · cases h
                    · split at h
                      · cases h
                      · have := ih _ _ _ _ _ _ _ _ _ h
                        exact keepsNonEmpty_trans _ _ _
                          (keepsNonEmpty_set t.buckets _ cpy hcpy) this
                  · exact ih _ _ _ _ _ _ _ _ _ h
              · simp only [Except.ok.injEq, Prod.mk.injEq] at h
                rw [← h.1]
                exact keepsNonEmpty_set _ _ cpy hcpy

theorem sizeUp_refused (hasher : Key → Nat) (alloc : Nat → Bool) (hno : ∀ n, alloc n = false)
    (fuel : Nat) (t t1 : Table) (s : Bool)
    (h : PRHHSizeUp hasher alloc fuel t = .ok (t1, s)) : t1 = t ∧ s = false :=
  sizeUpWith_refused _ alloc t t1 s hno h

theorem newKey_buckets (hasher : Key → Nat) (alloc : Nat → Bool) (hno : ∀ n, alloc n = false)
    (key : Key) (hashed_key : Nat) :
    ∀ (fuel : Nat) (t : Table) (probe : Nat) (t1 : Table) (res : upsert_result_t) (m ps : Nat),
      PRHHUpsertNewKey hasher alloc key hashed_key fuel t probe = .ok (t1, res, m, ps) →
      t1.buckets = t.buckets := by
  intro fuel
  induction fuel with
  | zero =>
    intro t probe t1 res m ps h
    simp [PRHHUpsertNewKey] at h
  | succ fuel ih =>
    intro t probe t1 res m ps h
    rw [PRHHUpsertNewKey] at h
    split at h
    · split at h
      · cases h
      · rename_i t2 s hsz
        obtain ⟨e1, _⟩ := sizeUp_refused hasher alloc hno fuel t t2 s hsz
        rw [e1] at h
        exact ih _ _ _ _ _ _ h
    · split at h
      · cases h
      · split at h
        · simp only [Except.ok.injEq, Prod.mk.injEq] at h
          rw [← h.1]; rfl
        · split at h
          · cases h
          · simp only [Except.ok.injEq, Prod.mk.injEq] at h
            rw [← h.1]
          · simp only [Except.ok.injEq, Prod.mk.injEq] at h
            rw [← h.1]; rfl
        · split at h
          · simp only [Except.ok.injEq, Prod.mk.injEq] at h
            rw [← h.1]
          · split at h
            · cases h
            · split at h
              · split at h
                · cases h
                · split at h
                  · cases h
                  · simp only [Except.ok.injEq, Prod.mk.injEq] at h
                    rw [← h.1]
              · exact ih _ _ _ _ _ _ h

theorem insert_keeps (hasher : Key → Nat) (alloc : Nat → Bool) (hno : ∀ n, alloc n = false)
    (fuel : Nat) (t : Table) (key : Key) (val : Val) (t' : Table) (r : Bool)
    (h : PRHHInsertCustom hasher alloc fuel t key val = .ok (t', r)) :
    keepsNonEmpty t.buckets t'.buckets := by
  unfold PRHHInsertCustom at h
  split at h
  · cases h
  · rename_i t0 hentry
    simp only [Except.ok.injEq, Prod.mk.injEq] at h
    rw [← h.1, entryUp_false hasher alloc fuel t t0 _ hentry]; exact keepsNonEmpty_refl _
  · rename_i t0 hentry
    have ht0 : t0 = t := by
      split at hentry
      · exact absurd (sizeUp_refused hasher alloc hno fuel t t0 true hentry).2 (by simp)
      · simp only [Except.ok.injEq, Prod.mk.injEq] at hentry
        exact hentry.1.symm
    subst ht0
    split at h
    · cases h
    · rename_i t1 m _ hnk
      have hb := newKey_buckets hasher alloc hno key _ _ _ _ _ _ _ _ hnk
      simp only [Except.ok.injEq, Prod.mk.injEq] at h
      rw [← h.1]
      dsimp only
      rw [hb]
      exact keepsNonEmpty_set _ _ _ (by simp)
    · rename_i t1 m _ hnk
      have hb := newKey_buckets hasher alloc hno key _ _ _ _ _ _ _ _ hnk
      split at h
      · cases h
      · rename_i b hrb
        simp only [Except.ok.injEq, Prod.mk.injEq] at h
        rw [← h.1]
        dsimp only
        have hbq : t1.buckets[m]? = some b := by
          unfold readBucket at hrb
          split at hrb
          · rename_i b0 hb0
            simp only [Except.ok.injEq] at hrb
            rw [hb0, hrb]
          · cases hrb
        rw [← hb]
        exact keepsNonEmpty_set_same _ _ _ _ hbq
    · rename_i t1 m probe hnk
      have hb := newKey_buckets hasher alloc hno key _ _ _ _ _ _ _ _ hnk
      split at h
      · cases h
      · split at h
        · cases h
        · rename_i t2 _ hpd
          simp only [Except.ok.injEq, Prod.mk.injEq] at h
          rw [← h.1]
          have hk := pushDown_keeps hasher alloc hno _ _ _ _ _ _ _ _ _ _ hpd
          dsimp only at hk
          rw [hb] at hk
          exact keepsNonEmpty_trans _ _ _ (keepsNonEmpty_set _ _ _ (by simp)) hk

theorem readBucket_some (bs : List Bucket) (i : Nat) (b : Bucket)
    (h : readBucket bs i = .ok b) : bs[i]? = some b := by
  unfold readBucket at h
  split at h
  · rename_i b0 hb0
    simp only [Except.ok.injEq] at h
    rw [hb0, h]
  · cases h

theorem upsert_keeps (hasher : Key → Nat) (alloc : Nat → Bool) (hno : ∀ n, alloc n = false)
    (fuel : Nat) (t : Table) (key : Key) (t' : Table) (r : UpsertOut)
    (h : PRHHUpsertCustom hasher alloc fuel t key = .ok (t', r)) :
    keepsNonEmpty t.buckets t'.buckets := by
  unfold PRHHUpsertCustom at h
  split at h
  · cases h
  · rename_i t0 hentry
    simp only [Except.ok.injEq, Prod.mk.injEq] at h
    rw [← h.1, entryUp_false hasher alloc fuel t t0 _ hentry]; exact keepsNonEmpty_refl _
  · rename_i t0 hentry
    have ht0 : t0 = t := by
      split at hentry
      · exact absurd (sizeUp_refused hasher alloc hno fuel t t0 true hentry).2 (by simp)
      · simp only [Except.ok.injEq, Prod.mk.injEq] at hentry
        exact hentry.1.symm
    subst ht0
    split at h
    · cases h
    · rename_i t1 m _ hnk
      have hb := newKey_buckets hasher alloc hno key _ _ _ _ _ _ _ _ hnk
      simp only [Except.ok.injEq, Prod.mk.injEq] at h
      rw [← h.1, hb]
      exact keepsNonEmpty_refl _
    · rename_i t1 m _ hnk
      have hb := newKey_buckets hasher alloc hno key _ _ _ _ _ _ _ _ hnk
      split at h
      · cases h
      · simp only [Except.ok.injEq, Prod.mk.injEq] at h
        rw [← h.1]
        dsimp only
        rw [hb]
        exact keepsNonEmpty_set _ _ _ (by simp)
    · rename_i t1 m probe hnk
      have hb := newKey_buckets hasher alloc hno key _ _ _ _ _ _ _ _ hnk
      split at h
      · cases h
      · split at h
        · cases h
        · rename_i t2 hpd
          simp only [Except.ok.injEq, Prod.mk.injEq] at h
          rw [← h.1]
          have hk := pushDown_keeps hasher alloc hno _ _ _ _ _ _ _ _ _ _ hpd
          dsimp only at hk
          rw [hb] at hk
          exact keepsNonEmpty_trans _ _ _ (keepsNonEmpty_set _ _ _ (by simp)) hk
        · rename_i t2 hpd
          have hk := pushDown_keeps hasher alloc hno _ _ _ _ _ _ _ _ _ _ hpd
          dsimp only at hk
          rw [hb] at hk
          split at h
          · cases h
          · simp only [Except.ok.injEq, Prod.mk.injEq] at h
            rw [← h.1]
            exact keepsNonEmpty_trans _ _ _ (keepsNonEmpty_set _ _ _ (by simp)) hk

theorem candidateScan_live (hasher : Key → Nat) (t : Table) (idx premod_idx probe : Nat) :
    ∀ (n c ci : Nat), candidateScan hasher t idx premod_idx probe n c = .ok (some ci) →
      ∃ b : Bucket, t.buckets[ci]? = some b ∧ b.tok ≠ Token.empty := by
  intro n
  induction n with
  | zero => intro c ci h; simp [candidateScan] at h
  | succ n ih =>
    intro c ci h
    rw [candidateScan] at h
    dsimp only at h
    split at h
    · cases h
    · rename_i b hb
      split at h
      · rename_i k hk
        split at h
        · simp only [Except.ok.injEq, Option.some.injEq] at h
          rw [← h]
          exact ⟨b, readBucket_some _ _ _ hb, by rw [hk]; simp⟩
        · exact ih _ _ h
      · exact ih _ _ h

theorem backShiftScan_live (hasher : Key → Nat) (t : Table) (idx premod_idx candidates : Nat) :
    ∀ (start probe ci : Nat),
      backShiftScan hasher t idx premod_idx candidates start = .ok (some (probe, ci)) →
      ∃ b : Bucket, t.buckets[ci]? = some b ∧ b.tok ≠ Token.empty := by
  intro start
  induction start with
  | zero => intro probe ci h; simp [backShiftScan] at h
  | succ n ih =>
    intro probe ci h
    rw [backShiftScan] at h
    split at h
    · cases h
    · rename_i ci0 hcs
      simp only [Except.ok.injEq, Option.some.injEq, Prod.mk.injEq] at h
      rw [← h.2]
      exact candidateScan_live hasher t idx premod_idx _ _ _ _ hcs
    · exact ih _ _ h

theorem backShiftMove_keeps (t : Table) (idx ci probe : Nat) (t1 : Table)
    (h : backShiftMove t idx ci probe = .ok t1)
    (hidx : ∃ b : Bucket, t.buckets[idx]? = some b ∧ b.tok ≠ Token.empty)
    (hci : ∃ b : Bucket, t.buckets[ci]? = some b ∧ b.tok ≠ Token.empty) :
    keepsNonEmpty t.buckets t1.buckets ∧
      ∃ b : Bucket, t1.buckets[ci]? = some b ∧ b.tok ≠ Token.empty := by
  obtain ⟨bi, hbi, hbine⟩ := hidx
  obtain ⟨bc, hbc, hbcne⟩ := hci
  unfold backShiftMove at h
  dsimp only at h
  split at h
  · cases h
  · split at h
    · cases h
    · rename_i tmp htmp
      split at h
      · cases h
      · rename_i c hc
        have e1 : tmp = bi := by
          have := readBucket_some _ _ _ htmp
          rw [hbi] at this; exact (Option.some.inj this).symm
        have e2 : c = bc := by
          have := readBucket_some _ _ _ hc
          rw [hbc] at this; exact (Option.some.inj this).symm
        simp only [Except.ok.injEq] at h
        rw [← h]
        dsimp only
        have hlt : ci < t.buckets.length := by
          by_contra hcon
          rw [List.getElem?_eq_none (by omega)] at hbc
          cases hbc
        refine ⟨keepsNonEmpty_trans _ _ _ (keepsNonEmpty_set _ _ c (by rw [e2]; exact hbcne))
          (keepsNonEmpty_set _ _ tmp (by rw [e1]; exact hbine)), tmp, ?_, by rw [e1]; exact hbine⟩
        simp [hlt]

theorem backShiftLoop_keeps (hasher : Key → Nat) :
    ∀ (record_probe : Nat) (t : Table) (idx : Nat) (t1 : Table) (hole : Nat),
      backShiftLoop hasher record_probe t idx = .ok (t1, hole) →
      (∃ b : Bucket, t.buckets[idx]? = some b ∧ b.tok ≠ Token.empty) →
      keepsNonEmpty t.buckets t1.buckets := by
  intro rp
  induction rp with
  | zero =>
    intro t idx t1 hole h _
    simp only [backShiftLoop, Except.ok.injEq, Prod.mk.injEq] at h
    rw [← h.1]; exact keepsNonEmpty_refl _
  | succ rp ih =>
    intro t idx t1 hole h hidx
    rw [backShiftLoop] at h
    split at h
    · dsimp only at h
      split at h
      · cases h
      · simp only [Except.ok.injEq, Prod.mk.injEq] at h
        rw [← h.1]; exact keepsNonEmpty_refl _
      · rename_i probe ci hscan
        have hci := backShiftScan_live hasher t idx _ _ _ _ _ hscan
        split at h
        · cases h
        · rename_i t2 hmv
          obtain ⟨hk, hhole⟩ := backShiftMove_keeps t idx ci probe t2 hmv hidx hci
          exact keepsNonEmpty_trans _ _ _ hk (ih _ _ _ _ h hhole)
    · cases h

theorem deleteFound_keeps (hasher : Key → Nat) (t : Table) (key : Key) (t' : Table)
    (r : Option Nat) (h : deleteFound hasher t key = .ok (t', r)) :
    keepsNonEmpty t.buckets t'.buckets := by
  unfold deleteFound at h
  split at h
  · cases h
  · simp only [Except.ok.injEq, Prod.mk.injEq] at h
    rw [← h.1]; exact keepsNonEmpty_refl _
  · rename_i idx hs
    obtain ⟨b, hb, htok⟩ := searchLoop_sound t key (hasher key % W64) _ _ _ hs
    split at h
    · cases h
    · dsimp only at h
      split at h
      · cases h
      · split at h
        · cases h
        · rename_i t1 hole hbl
          have hk := backShiftLoop_keeps hasher _ _ _ _ _ hbl ⟨b, hb, by rw [htok]; simp⟩
          dsimp only at hk
          split at h
          · cases h
          · simp only [Except.ok.injEq, Prod.mk.injEq] at h
            rw [← h.1]
            exact keepsNonEmpty_trans _ _ _ hk (keepsNonEmpty_set _ _ _ (by simp))

theorem delete_keeps (hasher : Key → Nat) (alloc : Nat → Bool) (hno : ∀ n, alloc n = false)
    (fuel : Nat) (t : Table) (key : Key) (t' : Table) (r : Option Nat)
    (h : PRHHDeleteCustom hasher alloc fuel t key = .ok (t', r)) :
    keepsNonEmpty t.buckets t'.buckets := by
  unfold PRHHDeleteCustom at h
  split at h
  · cases h
  · rename_i t0 hentry
    simp only [Except.ok.injEq, Prod.mk.injEq] at h
    rw [← h.1, entryDown_false hasher alloc fuel t t0 _ hentry]; exact keepsNonEmpty_refl _
  · rename_i t0 hentry
    have ht0 : t0 = t := by
      split at hentry
      · exact absurd (sizeDownWith_refused _ alloc t t0 true hno hentry).2 (by simp)
      · simp only [Except.ok.injEq, Prod.mk.injEq] at hentry
        exact hentry.1.symm
    subst ht0
    exact deleteFound_keeps hasher _ key t' r h

/-- C24: between two resizes no bucket goes back to EMPTY. The allocator is
consulted by `PRHHSizeUp` and `PRHHSizeDown` only, so with an allocator that
refuses every request a call that returns has run without a resize. For such
a call of `PRHHInsertCustom`, `PRHHUpsertCustom` or `PRHHDeleteCustom` the slab
keeps its length and every bucket whose token was not 0 before the call
(TOMBSTONE or live) has a token that is not 0 after it. The same holds, with
any allocator, for a `PRHHDeleteCustom` that does not enter `PRHHSizeDown`. -/
theorem C24_non_empty_kept (hasher : Key → Nat) (alloc : Nat → Bool) (fuel : Nat)
    (t : Table) (key : Key) (val : Val) (hno : ∀ n, alloc n = false) :
    (∀ t' r, PRHHInsertCustom hasher alloc fuel t key val = .ok (t', r) →
      keepsNonEmpty t.buckets t'.buckets) ∧
    (∀ t' r, PRHHUpsertCustom hasher alloc fuel t key = .ok (t', r) →
      keepsNonEmpty t.buckets t'.buckets) ∧
    (∀ t' r, PRHHDeleteCustom hasher alloc fuel t key = .ok (t', r) →
      keepsNonEmpty t.buckets t'.buckets) ∧
    (∀ (alloc1 : Nat → Bool) t' r, ¬(t.objcnt < t.objcnt_low ∧ t.objcnt > 16) →
      PRHHDeleteCustom hasher alloc1 fuel t key = .ok (t', r) →
      keepsNonEmpty t.buckets t'.buckets) := by
  refine ⟨fun t' r h => insert_keeps hasher alloc hno fuel t key val t' r h,
    fun t' r h => upsert_keeps hasher alloc hno fuel t key t' r h,
    fun t' r h => delete_keeps hasher alloc hno fuel t key t' r h, ?_⟩
  intro alloc1 t' r hcond h
  unfold PRHHDeleteCustom at h
  rw [if_neg hcond] at h
  exact deleteFound_keeps hasher t key t' r h

/-- Witness for C24 on `tableB` with the allocator that always fails; the
insert of key 7 returns `true`. -/
theorem C24_non_empty_kept_witness :
    (∀ n, allocNone n = false) ∧
    (match PRHHInsertCustom hasherA allocNone 10 tableB [7] [] with
      | .ok (_, ok) => ok
      | .error _ => false) = true ∧
    ((∀ t' r, PRHHInsertCustom hasherA allocNone 10 tableB [7] [] = .ok (t', r) →
      keepsNonEmpty tableB.buckets t'.buckets) ∧
    (∀ t' r, PRHHUpsertCustom hasherA allocNone 10 tableB [7] = .ok (t', r) →
      keepsNonEmpty tableB.buckets t'.buckets) ∧
    (∀ t' r, PRHHDeleteCustom hasherA allocNone 10 tableB [7] = .ok (t', r) →
      keepsNonEmpty tableB.buckets t'.buckets) ∧
    (∀ (alloc1 : Nat → Bool) t' r, ¬(tableB.objcnt < tableB.objcnt_low ∧ tableB.objcnt > 16) →
      PRHHDeleteCustom hasherA alloc1 10 tableB [7] = .ok (t', r) →
      keepsNonEmpty tableB.buckets t'.buckets)) :=
  ⟨fun _ => rfl, by decide, C24_non_empty_kept hasherA allocNone 10 tableB [7] [] (fun _ => rfl)⟩

theorem liveAt_set (bs : List Bucket) (i j : Nat) (b : Bucket) (hb : b.tok.isLive = true)
    (h : liveAt bs j) : liveAt (bs.set i b) j := by
  obtain ⟨x, hx, hxl⟩ := h
  by_cases hij : i = j
  · subst hij
    have hlt : i < bs.length := by
      by_contra hcon
      rw [List.getElem?_eq_none (by omega)] at hx
      cases hx
    exact ⟨b, by simp [hlt], hb⟩
  · exact ⟨x, by rw [List.getElem?_set_ne hij]; exact hx, hxl⟩

theorem liveAt_set_self (bs : List Bucket) (i : Nat) (b : Bucket) (hb : b.tok.isLive = true)
    (hlt : i < bs.length) : liveAt (bs.set i b) i :=
  ⟨b, by simp [hlt], hb⟩

theorem hash_with_probe_shape (t t' : Table) (h1 : t'.capacity_clz = t.capacity_clz)
    (h2 : t'.capacity_ms4b = t.capacity_ms4b) (h p : Nat) :
    hash_with_probe t' h p = hash_with_probe t h p := by
  unfold hash_with_probe
  rw [h1, h2]

theorem findprobeScan_sound (t : Table) (h idx : Nat) :
    ∀ (n i r : Nat), findprobeScan t h idx n i = some r →
      hash_with_probe t h r = idx ∧ i ≤ r ∧ r < i + n := by
  intro n
  induction n with
  | zero => intro i r hr; simp [findprobeScan] at hr
  | succ n ih =>
    intro i r hr
    unfold findprobeScan at hr
    split at hr
    · rename_i hm
      simp only [Option.some.injEq] at hr
      rw [← hr]; exact ⟨hm, le_refl _, by omega⟩
    · obtain ⟨a, b, c⟩ := ih _ _ hr
      exact ⟨a, by omega, by omega⟩

theorem findprobe_least (hasher : Key → Nat) (t : Table) (idx op : Nat) (b : Bucket) (k : Key)
    (hb : t.buckets[idx]? = some b) (hk : b.tok = Token.live k)
    (h : findprobe hasher t idx = .ok op) :
    hash_with_probe t (hasher k % W64) op = idx ∧ op ≤ t.longest_probes ∧
      ∀ q, q ≤ t.longest_probes → hash_with_probe t (hasher k % W64) q = idx → op ≤ q := by
  unfold findprobe readBucket at h
  rw [hb] at h
  dsimp only at h
  rw [hk] at h
  unfold tokenHash at h
  dsimp only at h
  split at h
  · rename_i i hi
    simp only [Except.ok.injEq] at h
    subst h
    obtain ⟨h1, _, h3⟩ := findprobeScan_sound t _ idx _ _ _ hi
    refine ⟨h1, by omega, ?_⟩
    intro q hq hqm
    obtain ⟨r, hr, hrq⟩ := findprobeScan_finds t (hasher k % W64) idx
      (t.longest_probes + 1) 0 q (Nat.zero_le _) (by omega) hqm
    rw [hi] at hr
    simp only [Option.some.injEq] at hr
    omega
  · cases h

theorem orderedAt_mono (t t' : Table) (h idx : Nat)
    (h1 : t'.capacity_clz = t.capacity_clz) (h2 : t'.capacity_ms4b = t.capacity_ms4b)
    (hlp : t.longest_probes ≤ t'.longest_probes)
    (hlive : ∀ i, liveAt t.buckets i → liveAt t'.buckets i)
    (ho : orderedAt t h idx) : orderedAt t' h idx := by
  obtain ⟨p, hp, hm, hj⟩ := ho
  refine ⟨p, le_trans hp hlp, ?_, ?_⟩
  · rw [hash_with_probe_shape t t' h1 h2]; exact hm
  · intro j hjp
    rw [hash_with_probe_shape t t' h1 h2]
    exact hlive _ (hj j hjp)

theorem tokenHash_ok (hasher : Key → Nat) (tok : Token) (h : Nat)
    (hh : tokenHash hasher tok = .ok h) :
    ∃ k, tok = Token.live k ∧ h = hasher k % W64 := by
  cases tok with
  | empty => simp [tokenHash] at hh
  | tombstone => simp [tokenHash] at hh
  | live k =>
    simp only [tokenHash, Except.ok.injEq] at hh
    exact ⟨k, rfl, hh.symm⟩

theorem readBucket_lt (bs : List Bucket) (i : Nat) (b : Bucket)
    (h : readBucket bs i = .ok b) : i < bs.length := by
  have := readBucket_some bs i b h
  by_contra hcon
  rw [List.getElem?_eq_none (by omega)] at this
  cases this

/-- Writing the live record `c` (key `kc`) into bucket `i` keeps the ordering,
when `c` is ordered at `i` in the new table and nothing else changes but
`longest_probes` growing. -/
theorem ordered_write (hasher : Key → Nat) (t t' : Table) (i : Nat) (c : Bucket) (kc : Key)
    (h1 : t'.capacity_clz = t.capacity_clz) (h2 : t'.capacity_ms4b = t.capacity_ms4b)
    (hlp : t.longest_probes ≤ t'.longest_probes)
    (hbk : t'.buckets = t.buckets.set i c) (hc : c.tok = Token.live kc)
    (hnew : orderedAt t' (hasher kc % W64) i)
    (hrho : robinHoodOrdered hasher t) : robinHoodOrdered hasher t' := by
  intro idx b k hb hk
  have hclive : c.tok.isLive = true := by rw [hc]; rfl
  by_cases hi : i = idx
  · subst hi
    rw [hbk] at hb
    have hlt : i < t.buckets.length := by
      by_contra hcon
      rw [List.getElem?_eq_none (by simp; omega)] at hb
      cases hb
    have hbc : b = c := by
      simp [hlt] at hb; exact hb.symm
    rw [hbc, hc] at hk
    cases hk
    exact hnew
  · rw [hbk, List.getElem?_set_ne hi] at hb
    refine orderedAt_mono t t' _ idx h1 h2 hlp ?_ (hrho idx b k hb hk)
    intro j hj
    rw [hbk]
    exact liveAt_set _ _ _ _ hclive hj

theorem visitedHit_live (bs : List Bucket) (visit : Nat) (visited : List Nat) (idx : Nat)
    (hlen : visited.length = VISIT_IDX_CACHE)
    (hv : ∀ i x, i < visit → visited[i]? = some x → liveAt bs x)
    (hhit : visitedHit visit visited idx = true) : liveAt bs idx := by
  unfold visitedHit at hhit
  split at hhit
  · rename_i hlt
    have hmem : idx ∈ visited.take visit := by simpa using hhit
    obtain ⟨i, hi, hget⟩ := List.getElem_of_mem hmem
    have hi2 : i < visit := by
      have := hi
      simp only [List.length_take] at this
      omega
    refine hv i idx hi2 ?_
    rw [List.getElem_take] at hget
    rw [List.getElem?_eq_getElem, hget]
  · rename_i hge
    have hmem : idx ∈ (List.range (VISIT_IDX_CACHE - 1)).map
        (fun j => visited.getD ((visit + 1 + j) % VISIT_IDX_CACHE) 0) := by simpa using hhit
    obtain ⟨j, _, hj⟩ := List.mem_map.mp hmem
    have hlt : (visit + 1 + j) % VISIT_IDX_CACHE < visited.length := by
      rw [hlen]; exact Nat.mod_lt _ (by unfold VISIT_IDX_CACHE; omega)
    refine hv ((visit + 1 + j) % VISIT_IDX_CACHE) idx ?_ ?_
    · have : (visit + 1 + j) % VISIT_IDX_CACHE < VISIT_IDX_CACHE :=
        Nat.mod_lt _ (by unfold VISIT_IDX_CACHE; omega)
      omega
    · rw [← hj, List.getD_eq_getElem?_getD, List.getElem?_eq_getElem hlt]
      rfl

theorem dupScan_live (t : Table) (key : Key) (h : Nat) :
    ∀ (n p dup : Nat), dupScan t key h n p = .ok (some dup) →
      ∃ b : Bucket, t.buckets[dup]? = some b ∧ b.tok = Token.live key := by
  intro n
  induction n with
  | zero => intro p dup hd; simp [dupScan] at hd
  | succ n ih =>
    intro p dup hd
    rw [dupScan] at hd
    split at hd
    · cases hd
    · rename_i b hb
      split at hd
      · rename_i k hk
        split at hd
        · rename_i hkk
          simp only [Except.ok.injEq, Option.some.injEq] at hd
          rw [← hd]
          exact ⟨b, readBucket_some _ _ _ hb, by rw [hk, hkk]⟩
        · exact ih _ _ hd
      · exact ih _ _ hd

theorem ordered_same_buckets (hasher : Key → Nat) (t t1 : Table)
    (hb : t1.buckets = t.buckets) (h1 : t1.capacity_clz = t.capacity_clz)
    (h2 : t1.capacity_ms4b = t.capacity_ms4b) (hlp : t.longest_probes ≤ t1.longest_probes)
    (hrho : robinHoodOrdered hasher t) : robinHoodOrdered hasher t1 := by
  intro idx b k hbk hk
  rw [hb] at hbk
  exact orderedAt_mono t t1 _ idx h1 h2 hlp (fun i hi => by rw [hb]; exact hi)
    (hrho idx b k hbk hk)

/-- The table after the new key is written into bucket `m`, found at probe `p`
behind live buckets only. -/
theorem ordered_place (hasher : Key → Nat) (t1 : Table) (m : Nat) (c : Bucket) (key : Key)
    (hc : c.tok = Token.live key) (hrho : robinHoodOrdered hasher t1)
    (hp : ∃ p, p ≤ t1.longest_probes ∧ hash_with_probe t1 (hasher key % W64) p = m ∧
      ∀ j, j < p → liveAt t1.buckets (hash_with_probe t1 (hasher key % W64) j)) :
    robinHoodOrdered hasher { t1 with buckets := t1.buckets.set m c } := by
  have hclive : c.tok.isLive = true := by rw [hc]; rfl
  refine ordered_write hasher t1 _ m c key rfl rfl (le_refl _) rfl hc ?_ hrho
  obtain ⟨p, hp1, hp2, hp3⟩ := hp
  exact ⟨p, hp1, hp2, fun j hj => liveAt_set _ _ _ _ hclive (hp3 j hj)⟩

theorem new_ordered (hasher : Key → Nat) (alloc : Nat → Bool)
    (num_objects load_num load_den valsize : Nat) (t : Table)
    (h : PRHHNew alloc num_objects load_num load_den valsize = .ok (some t)) :
    robinHoodOrdered hasher t ∧ t.longest_probes ≤ 64 := by
  simp only [PRHHNew] at h
  repeat' split at h
  all_goals first
    | (cases h; done)
    | (simp only [Except.ok.injEq, Option.some.injEq] at h
       subst h
       refine ⟨?_, Nat.zero_le _⟩
       intro idx b k hb hk
       have hmem := List.getElem?_mem hb
       rw [List.mem_replicate] at hmem
       rw [hmem.2] at hk
       cases hk)

set_option maxRecDepth 100000 in
/-- On `tableT` (capacity 64, 11 live records, `longest_probes` 13, allocation
never failing) the `PRHHInsertCustom` of key 12, which hashes to 0 like the
eleven keys before it, has not returned after 300 loop iterations of
`PRHHUpsertNewKey` and `PRHHUpsertPushDown`. -/
theorem twelfth_insert_out_of_fuel :
    (match tableT with
      | .ok t =>
        .ok (PRHHCapacity t, t.longest_probes, liveCount t.buckets,
          faultOf (PRHHInsertCustom hasherZero allocAll 300 t [12] []))
      | .error e => .error e)
      = (.ok (64, 13, 11, some .fuel) : Except Fault (Nat × Nat × Nat × Option Fault)) := by
  decide

theorem keyIn_set_ne (bs : List Bucket) (i : Nat) (c : Bucket) (k : Key)
    (h : ∃ (j : Nat) (b : Bucket), j ≠ i ∧ bs[j]? = some b ∧ b.tok = Token.live k) :
    keyIn (bs.set i c) k := by
  obtain ⟨j, b, hji, hb, hk⟩ := h
  exact ⟨j, b, by rw [List.getElem?_set_ne (Ne.symm hji)]; exact hb, hk⟩

theorem keyIn_set_self (bs : List Bucket) (i : Nat) (c : Bucket) (k : Key)
    (hlt : i < bs.length) (hc : c.tok = Token.live k) : keyIn (bs.set i c) k :=
  ⟨i, c, by simp [hlt], hc⟩

/-- Writing `c` into a bucket that is not live loses no key. -/
theorem keyIn_set_free (bs : List Bucket) (i : Nat) (c x : Bucket) (k : Key)
    (hx : bs[i]? = some x) (hxl : x.tok.isLive = false) (h : keyIn bs k) :
    keyIn (bs.set i c) k := by
  obtain ⟨j, b, hb, hk⟩ := h
  refine keyIn_set_ne bs i c k ⟨j, b, ?_, hb, hk⟩
  rintro rfl
  rw [hx] at hb
  have : x = b := Option.some.inj hb
  rw [this, hk] at hxl
  simp [Token.isLive] at hxl

/-- Swapping `c` in for the resident record `x` keeps every key but the one of
`x`. -/
theorem keyIn_set_swap (bs : List Bucket) (i : Nat) (c x : Bucket) (k : Key)
    (hx : bs[i]? = some x) (h : keyIn bs k) :
    keyIn (bs.set i c) k ∨ x.tok = Token.live k := by
  obtain ⟨j, b, hb, hk⟩ := h
  by_cases hji : j = i
  · subst hji
    rw [hx] at hb
    have : x = b := Option.some.inj hb
    right; rw [this]; exact hk
  · left; exact keyIn_set_ne bs i c k ⟨j, b, hji, hb, hk⟩

theorem tokenHash_zero (tok : Token) (h : Nat) (hh : tokenHash hasherZero tok = .ok h) :
    h = 0 ∧ ∃ k, tok = Token.live k := by
  obtain ⟨k, hk, he⟩ := tokenHash_ok hasherZero tok h hh
  exact ⟨by rw [he]; rfl, k, hk⟩

/-- The shape survives a write of a live record into the bucket of hash 0 at a
probe `p ≤ 64`, whatever happens to the counters. -/
theorem zeroHashShape_write (t t' : Table) (probe : Nat) (c : Bucket)
    (h1 : t'.capacity_clz = t.capacity_clz) (h2 : t'.capacity_ms4b = t.capacity_ms4b)
    (hbk : t'.buckets = t.buckets.set (hash_with_probe t 0 probe) c)
    (hp : probe ≤ 64) (hz : zeroHashShape t) : zeroHashShape t' := by
  obtain ⟨hl, hi⟩ := hz
  have hcap : PRHHCapacity t' = PRHHCapacity t := by
    unfold PRHHCapacity; rw [h1, h2]
  refine ⟨by rw [hbk, hcap]; simpa using hl, ?_⟩
  intro i b hb hlive
  by_cases hidx : hash_with_probe t 0 probe = i
  · exact ⟨probe, hp, by rw [hash_with_probe_shape t t' h1 h2]; exact hidx⟩
  · rw [hbk, List.getElem?_set_ne hidx] at hb
    obtain ⟨p, hp1, hp2⟩ := hi i b hb hlive
    exact ⟨p, hp1, by rw [hash_with_probe_shape t t' h1 h2]; exact hp2⟩

theorem zeroHashShape_same (t t' : Table)
    (h1 : t'.capacity_clz = t.capacity_clz) (h2 : t'.capacity_ms4b = t.capacity_ms4b)
    (hbk : t'.buckets = t.buckets) (hz : zeroHashShape t) : zeroHashShape t' := by
  obtain ⟨hl, hi⟩ := hz
  have hcap : PRHHCapacity t' = PRHHCapacity t := by
    unfold PRHHCapacity; rw [h1, h2]
  refine ⟨by rw [hbk, hcap]; exact hl, ?_⟩
  intro i b hb hlive
  rw [hbk] at hb
  obtain ⟨p, hp1, hp2⟩ := hi i b hb hlive
  exact ⟨p, hp1, by rw [hash_with_probe_shape t t' h1 h2]; exact hp2⟩

theorem rehashLoop_keeps (pd : Table → Bucket → Except Fault Table) (hpd : keepsKeys pd) :
    ∀ (bs : List Bucket) (n : Nat) (t0 t1 : Table), rehashLoop pd bs n t0 = .ok t1 →
      zeroHashShape t0 →
      zeroHashShape t1 ∧ (∀ k, keyIn t0.buckets k → keyIn t1.buckets k) ∧
        (∀ (i : Nat) (b : Bucket) (k : Key), i < n → bs[i]? = some b → b.tok = Token.live k →
          keyIn t1.buckets k) := by
  intro bs
  induction bs with
  | nil =>
    intro n t0 t1 h hz
    cases n with
    | zero =>
      simp only [rehashLoop, Except.ok.injEq] at h
      subst h
      exact ⟨hz, fun k hk => hk, fun i b k hi => absurd hi (Nat.not_lt_zero _)⟩
    | succ n => simp [rehashLoop] at h
  | cons x rest ih =>
    intro n t0 t1 h hz
    cases n with
    | zero =>
      simp only [rehashLoop, Except.ok.injEq] at h
      subst h
      exact ⟨hz, fun k hk => hk, fun i b k hi => absurd hi (Nat.not_lt_zero _)⟩
    | succ n =>
      rw [rehashLoop] at h
      split at h
      · rename_i hlive
        split at h
        · cases h
        · rename_i t2 hpd2
          obtain ⟨hz2, hk2, hb2⟩ := hpd t0 x t2 hpd2 hz
          obtain ⟨hz1, hk1, hr1⟩ := ih n t2 t1 h hz2
          refine ⟨hz1, fun k hk => hk1 k (hk2 k hk), ?_⟩
          intro i b k hi hb hbk
          cases i with
          | zero =>
            simp only [List.getElem?_cons_zero, Option.some.injEq] at hb
            subst hb
            exact hk1 k (hb2 k hbk)
          | succ i =>
            simp only [List.getElem?_cons_succ] at hb
            exact hr1 i b k (by omega) hb hbk
      · rename_i hlive
        obtain ⟨hz1, hk1, hr1⟩ := ih n t0 t1 h hz
        refine ⟨hz1, hk1, ?_⟩
        intro i b k hi hb hbk
        cases i with
        | zero =>
          simp only [List.getElem?_cons_zero, Option.some.injEq] at hb
          subst hb
          rw [hbk] at hlive
          simp [Token.isLive] at hlive
        | succ i =>
          simp only [List.getElem?_cons_succ] at hb
          exact hr1 i b k (by omega) hb hbk

theorem resizeTo_keeps (pd : Table → Bucket → Except Fault Table) (hpd : keepsKeys pd)
    (alloc : Nat → Bool) (t : Table) (nclz nms4b : Nat) (t1 : Table) (s : Bool)
    (h : resizeTo pd alloc t nclz nms4b = .ok (t1, s)) (hz : zeroHashShape t) :
    zeroHashShape t1 ∧ (∀ k, keyIn t.buckets k → keyIn t1.buckets k) := by
  unfold resizeTo at h
  dsimp only at h
  split at h
  · split at h
    · cases h
    · rename_i t2 hre
      simp only [Except.ok.injEq, Prod.mk.injEq] at h
      obtain ⟨h, _⟩ := h
      subst h
      have hz0 : zeroHashShape
          { t with
            objcnt := 0
            objcnt_high := (PRHHCapacityInternal nclz nms4b * 8 % W64) / 10
            objcnt_low := (PRHHCapacityInternal nclz nms4b * 2 % W64) / 10
            capacity_clz := nclz
            capacity_ms4b := nms4b
            longest_probes := 0
            stats := List.replicate PROBE_STATS_SIZE 0
            buckets := List.replicate
              (slabLen (bucket_size t) ((bucket_size t * PRHHCapacityInternal nclz nms4b) % W64))
              (zeroBucket t.valsize) } := by
        constructor
        · show (List.replicate _ _).length ≤ PRHHCapacityInternal nclz nms4b
          rw [List.length_replicate]
          unfold slabLen
          apply Nat.div_le_of_le_mul
          exact Nat.mod_le _ _
        · intro i b hb hlive
          have hmem := List.getElem?_mem hb
          dsimp only at hmem
          rw [List.mem_replicate] at hmem
          rw [hmem.2] at hlive
          simp [zeroBucket, Token.isLive] at hlive
      obtain ⟨hz1, _, hr1⟩ := rehashLoop_keeps pd hpd _ _ _ _ hre hz0
      refine ⟨hz1, ?_⟩
      rintro k ⟨i, b, hb, hbk⟩
      have hlt : i < t.buckets.length := by
        by_contra hcon
        rw [List.getElem?_eq_none (by omega)] at hb
        cases hb
      exact hr1 i b k (lt_of_lt_of_le hlt hz.1) hb hbk
  · simp only [Except.ok.injEq, Prod.mk.injEq] at h
    rw [← h.1]
    exact ⟨hz, fun k hk => hk⟩

theorem sizeUpWith_keeps (pd : Table → Bucket → Except Fault Table) (hpd : keepsKeys pd)
    (alloc : Nat → Bool) (t t1 : Table) (s : Bool)
    (h : sizeUpWith pd alloc t = .ok (t1, s)) (hz : zeroHashShape t) :
    zeroHashShape t1 ∧ (∀ k, keyIn t.buckets k → keyIn t1.buckets k) := by
  unfold sizeUpWith at h
  split at h
  · cases h
  · exact resizeTo_keeps pd hpd alloc t _ _ t1 s h hz

theorem pushDown_keepsKeys (alloc : Nat → Bool) :
    ∀ (fuel : Nat) (t : Table) (cpy : Bucket) (probe : Nat) (avoid : Option Nat) (visit : Nat)
      (visited : List Nat) (resized : Bool) (t' : Table) (r : Bool),
      PRHHUpsertPushDown hasherZero alloc fuel t cpy probe avoid visit visited resized
        = .ok (t', r) →
      zeroHashShape t →
      zeroHashShape t' ∧ (∀ k, keyIn t.buckets k → keyIn t'.buckets k) ∧
        (∀ k, cpy.tok = Token.live k → keyIn t'.buckets k) := by
  intro fuel
  induction fuel with
  | zero =>
    intro t cpy probe avoid visit visited resized t' r h
    simp [PRHHUpsertPushDown] at h
  | succ fuel ih =>
    intro t cpy probe avoid visit visited resized t' r h hz
    rw [PRHHUpsertPushDown] at h
    cases hth : tokenHash hasherZero cpy.tok with
    | error e => rw [hth] at h; cases h
    | ok hk =>
      obtain ⟨hk0, kc, hkc⟩ := tokenHash_zero _ _ hth
      subst hk0
      rw [hth] at h
      dsimp only at h
      split at h
      · -- probe > PROBE_STATS_SIZE: resize, then restart
        split at h
        · cases h
        · rename_i t1 swapped hsz
          have hpd : keepsKeys (fun t1 b =>
              match PRHHUpsertPushDown hasherZero alloc fuel t1 b 0 none 0
                (List.replicate VISIT_IDX_CACHE 0) false with
              | .error e => .error e
              | .ok r => .ok r.1) := by
            intro t2 b t3 hp hz2
            dsimp only at hp
            split at hp
            · cases hp
            · rename_i r2 hr2
              simp only [Except.ok.injEq] at hp
              subst hp
              exact ih _ _ _ _ _ _ _ _ _ hr2 hz2
          obtain ⟨hz1, hk1⟩ := sizeUpWith_keeps _ hpd alloc t t1 swapped hsz hz
          obtain ⟨a, b, c⟩ := ih _ _ _ _ _ _ _ _ _ h hz1
          exact ⟨a, fun k hk => b k (hk1 k hk), c⟩
      · rename_i hprobe
        have hp64 : probe ≤ 64 := by unfold PROBE_STATS_SIZE at hprobe; omega
        split at h
        · exact ih _ _ _ _ _ _ _ _ _ h hz
        · split at h
          · exact ih _ _ _ _ _ _ _ _ _ h hz
          · split at h
            · cases h
            · rename_i b hb
              have hbq := readBucket_some _ _ _ hb
              have hidxlt := readBucket_lt _ _ _ hb
              split at h
              · -- a live bucket
                split at h
                · cases h
                · split at h
                  · split at h
                    · cases h
                    · split at h
                      · cases h
                      · obtain ⟨a, b1, c⟩ := ih _ _ _ _ _ _ _ _ _ h
                          (zeroHashShape_write t _ probe cpy rfl rfl rfl hp64 hz)
                        refine ⟨a, ?_, ?_⟩
                        · intro k hk
                          rcases keyIn_set_swap t.buckets _ cpy b k hbq hk with h1 | h1
                          · exact b1 k h1
                          · exact c k h1
                        · intro k hk
                          exact b1 k (keyIn_set_self _ _ _ k hidxlt hk)
                  · exact ih _ _ _ _ _ _ _ _ _ h hz
              · -- an EMPTY or TOMBSTONE bucket
                rename_i hnl
                simp only [Except.ok.injEq, Prod.mk.injEq] at h
                obtain ⟨h, _⟩ := h
                subst h
                refine ⟨zeroHashShape_write t _ probe cpy rfl rfl rfl hp64 hz, ?_, ?_⟩
                · intro k hk
                  exact keyIn_set_free _ _ cpy b k hbq (by simpa using hnl) hk
                · intro k hk
                  exact keyIn_set_self _ _ _ k hidxlt hk

theorem rehashPushDown_keeps (alloc : Nat → Bool) (fuel : Nat) :
    keepsKeys (rehashPushDown hasherZero alloc fuel) := by
  intro t b t' hp hz
  unfold rehashPushDown at hp
  split at hp
  · cases hp
  · rename_i r hr
    simp only [Except.ok.injEq] at hp
    subst hp
    exact pushDown_keepsKeys alloc _ _ _ _ _ _ _ _ _ _ hr hz

theorem sizeUp_keeps (alloc : Nat → Bool) (fuel : Nat) (t t1 : Table) (s : Bool)
    (h : PRHHSizeUp hasherZero alloc fuel t = .ok (t1, s)) (hz : zeroHashShape t) :
    zeroHashShape t1 ∧ (∀ k, keyIn t.buckets k → keyIn t1.buckets k) :=
  sizeUpWith_keeps _ (rehashPushDown_keeps alloc fuel) alloc t t1 s h hz

theorem newKey_keepsKeys (alloc : Nat → Bool) (key : Key) :
    ∀ (fuel : Nat) (t : Table) (probe : Nat) (t1 : Table) (res : upsert_result_t) (m ps : Nat),
      PRHHUpsertNewKey hasherZero alloc key 0 fuel t probe = .ok (t1, res, m, ps) →
      zeroHashShape t →
      zeroHashShape t1 ∧ (∀ k, keyIn t.buckets k → keyIn t1.buckets k) ∧
      (∃ x : Bucket, t1.buckets[m]? = some x ∧
        (res = upsert_result_t.UPSERT_EMPTY → x.tok.isLive = false)) ∧
      (res = upsert_result_t.UPSERT_DUP → keyIn t1.buckets key) ∧
      (res ≠ upsert_result_t.UPSERT_DUP → ∃ p, p ≤ 64 ∧ hash_with_probe t1 0 p = m) := by
  intro fuel
  induction fuel with
  | zero =>
    intro t probe t1 res m ps h
    simp [PRHHUpsertNewKey] at h
  | succ fuel ih =>
    intro t probe t1 res m ps h hz
    rw [PRHHUpsertNewKey] at h
    split at h
    · split at h
      · cases h
      · rename_i t2 s hsz
        obtain ⟨hz2, hk2⟩ := sizeUp_keeps alloc fuel t t2 s hsz hz
        obtain ⟨a, b, c⟩ := ih _ _ _ _ _ _ h hz2
        exact ⟨a, fun k hk => b k (hk2 k hk), c⟩
    · rename_i hprobe
      have hp64 : probe ≤ 64 := by unfold PROBE_STATS_SIZE at hprobe; omega
      have hplace : zeroHashShape (IncreaseProbeStat t probe) :=
        zeroHashShape_same t _ rfl rfl rfl hz
      split at h
      · cases h
      · rename_i b hb
        have hbq := readBucket_some _ _ _ hb
        split at h
        · -- EMPTY
          rename_i hbe
          simp only [Except.ok.injEq, Prod.mk.injEq] at h
          obtain ⟨e1, e2, e3, _⟩ := h
          subst e1; subst e2; subst e3
          refine ⟨hplace, fun k hk => hk, ⟨b, hbq, fun _ => by rw [hbe]; rfl⟩, ?_, ?_⟩
          · intro hc; cases hc
          · intro _; exact ⟨probe, hp64, rfl⟩
        · -- TOMBSTONE
          rename_i hbt
          split at h
          · cases h
          · rename_i dup hdup
            simp only [Except.ok.injEq, Prod.mk.injEq] at h
            obtain ⟨e1, e2, e3, _⟩ := h
            subst e1; subst e2; subst e3
            obtain ⟨bd, hbd, hbdk⟩ := dupScan_live t key 0 _ _ _ hdup
            refine ⟨hz, fun k hk => hk, ⟨bd, hbd, fun hc => by cases hc⟩, ?_, ?_⟩
            · intro _; exact ⟨_, bd, hbd, hbdk⟩
            · intro hc; exact absurd rfl hc
          · simp only [Except.ok.injEq, Prod.mk.injEq] at h
            obtain ⟨e1, e2, e3, _⟩ := h
            subst e1; subst e2; subst e3
            refine ⟨hplace, fun k hk => hk, ⟨b, hbq, fun _ => by rw [hbt]; rfl⟩, ?_, ?_⟩
            · intro hc; cases hc
            · intro _; exact ⟨probe, hp64, rfl⟩
        · -- live
          rename_i k hk
          split at h
          · rename_i hkk
            simp only [Except.ok.injEq, Prod.mk.injEq] at h
            obtain ⟨e1, e2, e3, _⟩ := h
            subst e1; subst e2; subst e3
            refine ⟨hz, fun k hk => hk, ⟨b, hbq, fun hc => by cases hc⟩, ?_, ?_⟩
            · intro _; exact ⟨_, b, hbq, by rw [hk, hkk]⟩
            · intro hc; exact absurd rfl hc
          · split at h
            · cases h
            · split at h
              · split at h
                · cases h
                · split at h
                  · cases h
                  · simp only [Except.ok.injEq, Prod.mk.injEq] at h
                    obtain ⟨e1, e2, e3, _⟩ := h
                    subst e1; subst e2; subst e3
                    refine ⟨zeroHashShape_same t _ rfl rfl rfl hz, fun k hk => hk,
                      ⟨b, hbq, fun hc => by cases hc⟩, ?_, ?_⟩
                    · intro hc; cases hc
                    · intro _; exact ⟨probe, hp64, rfl⟩
              · exact ih _ _ _ _ _ _ h hz

theorem keyIn_set_sametok (bs : List Bucket) (i : Nat) (b : Bucket) (v : Val) (k : Key)
    (hb : bs[i]? = some b) (h : keyIn bs k) : keyIn (bs.set i ⟨b.tok, v⟩) k := by
  obtain ⟨j, x, hx, hxk⟩ := h
  by_cases hji : j = i
  · subst hji
    rw [hb] at hx
    have hbx : b = x := Option.some.inj hx
    have hlt : j < bs.length := by
      by_contra hcon
      rw [List.getElem?_eq_none (by omega)] at hb
      cases hb
    exact keyIn_set_self bs j _ k hlt (by rw [hbx]; exact hxk)
  · exact keyIn_set_ne bs i _ k ⟨j, x, hji, hx, hxk⟩

theorem zeroHashShape_sametok (t : Table) (i : Nat) (b : Bucket) (v : Val)
    (hb : t.buckets[i]? = some b) (hz : zeroHashShape t) :
    zeroHashShape { t with buckets := t.buckets.set i ⟨b.tok, v⟩ } := by
  obtain ⟨hl, hi⟩ := hz
  refine ⟨by show (t.buckets.set i _).length ≤ PRHHCapacity t; simpa using hl, ?_⟩
  intro j x hx hlive
  have hx2 : (t.buckets.set i ⟨b.tok, v⟩)[j]? = some x := hx
  by_cases hij : i = j
  · subst hij
    have hlt : i < t.buckets.length := by
      by_contra hcon
      rw [List.getElem?_eq_none (by omega)] at hb
      cases hb
    simp [hlt] at hx2
    rw [← hx2] at hlive
    exact hi i b hb hlive
  · rw [List.getElem?_set_ne hij] at hx2
    exact hi j x hx2 hlive

theorem insert_keepsKeys (alloc : Nat → Bool) (fuel : Nat) (t : Table) (key : Key) (val : Val)
    (t' : Table) (h : PRHHInsertCustom hasherZero alloc fuel t key val = .ok (t', true))
    (hz : zeroHashShape t) :
    zeroHashShape t' ∧ (∀ k, keyIn t.buckets k → keyIn t'.buckets k) ∧
      keyIn t'.buckets key := by
  unfold PRHHInsertCustom at h
  split at h
  · cases h
  · simp at h
  · rename_i t0 hentry
    have h0 : zeroHashShape t0 ∧ (∀ k, keyIn t.buckets k → keyIn t0.buckets k) := by
      split at hentry
      · exact sizeUp_keeps alloc fuel t t0 true hentry hz
      · simp only [Except.ok.injEq, Prod.mk.injEq] at hentry
        rw [← hentry.1]
        exact ⟨hz, fun k hk => hk⟩
    obtain ⟨hz0, hk0⟩ := h0
    have hzero : hasherZero key % W64 = 0 := rfl
    rw [hzero] at h
    split at h
    · cases h
    · -- UPSERT_EMPTY
      rename_i t1 m _ hnk
      obtain ⟨hz1, hk1, ⟨x, hx, hxe⟩, _, hp⟩ := newKey_keepsKeys alloc key _ _ _ _ _ _ _ hnk hz0
      obtain ⟨p, hp1, hp2⟩ := hp (by simp)
      have hlt : m < t1.buckets.length := by
        by_contra hcon
        rw [List.getElem?_eq_none (by omega)] at hx
        cases hx
      simp only [Except.ok.injEq, Prod.mk.injEq] at h
      rw [← h.1]
      refine ⟨zeroHashShape_write t1 _ p _ rfl rfl (by rw [hp2]) hp1 hz1, ?_, ?_⟩
      · intro k hk
        exact keyIn_set_free _ _ _ x k hx (hxe rfl) (hk1 k (hk0 k hk))
      · exact keyIn_set_self _ _ _ key hlt rfl
    · -- UPSERT_DUP
      rename_i t1 m _ hnk
      obtain ⟨hz1, hk1, _, hdup, _⟩ := newKey_keepsKeys alloc key _ _ _ _ _ _ _ hnk hz0
      split at h
      · cases h
      · rename_i b hrb
        have hbq := readBucket_some _ _ _ hrb
        simp only [Except.ok.injEq, Prod.mk.injEq] at h
        rw [← h.1]
        refine ⟨zeroHashShape_sametok t1 m b _ hbq hz1, ?_, ?_⟩
        · intro k hk
          exact keyIn_set_sametok _ _ _ _ k hbq (hk1 k (hk0 k hk))
        · exact keyIn_set_sametok _ _ _ _ key hbq (hdup rfl)
    · -- UPSERT_PUSHDOWN
      rename_i t1 m probe hnk
      obtain ⟨hz1, hk1, ⟨x, hx, _⟩, _, hp⟩ := newKey_keepsKeys alloc key _ _ _ _ _ _ _ hnk hz0
      obtain ⟨p, hp1, hp2⟩ := hp (by simp)
      have hlt : m < t1.buckets.length := by
        by_contra hcon
        rw [List.getElem?_eq_none (by omega)] at hx
        cases hx
      split at h
      · cases h
      · rename_i cpy hrb
        have hbq := readBucket_some _ _ _ hrb
        split at h
        · cases h
        · rename_i t2 _ hpd
          simp only [Except.ok.injEq, Prod.mk.injEq] at h
          rw [← h.1]
          obtain ⟨a, b, c⟩ := pushDown_keepsKeys alloc _ _ _ _ _ _ _ _ _ _ hpd
            (zeroHashShape_write t1 _ p _ rfl rfl (by rw [hp2]) hp1 hz1)
          refine ⟨a, ?_, ?_⟩
          · intro k hk
            rcases keyIn_set_swap t1.buckets m ⟨Token.live key, val.take t1.valsize⟩ cpy k hbq
              (hk1 k (hk0 k hk)) with h1 | h1
            · exact b k h1
            · exact c k h1
          · exact b key (keyIn_set_self _ _ _ key hlt rfl)

/-- Under `zeroHashShape` the slab has room for at most 65 distinct keys: one
per probe `0 .. 64` of hash 0. -/
theorem zeroHashShape_room (t : Table) (hz : zeroHashShape t) (ks : List Key)
    (hnd : ks.Nodup) (hall : ∀ k, k ∈ ks → keyIn t.buckets k) : ks.length ≤ 65 := by
  classical
  let g : Key → Nat := fun k =>
    if h : keyIn t.buckets k then Classical.choose h else 0
  have hg : ∀ k, k ∈ ks → ∃ b : Bucket, t.buckets[g k]? = some b ∧ b.tok = Token.live k := by
    intro k hk
    have h := hall k hk
    have hgk : g k = Classical.choose h := by
      show (if h : keyIn t.buckets k then Classical.choose h else 0) = _
      rw [dif_pos h]
    rw [hgk]
    exact Classical.choose_spec h
  have hinj : ∀ a, a ∈ ks → ∀ b, b ∈ ks → g a = g b → a = b := by
    intro a ha b hb hab
    obtain ⟨x, hx, hxa⟩ := hg a ha
    obtain ⟨y, hy, hyb⟩ := hg b hb
    rw [hab, hy] at hx
    have hxy : y = x := Option.some.inj hx
    rw [hxy, hxa] at hyb
    exact Token.live.inj hyb
  have hnd2 : (ks.map g).Nodup := List.Nodup.map_on hinj hnd
  have hsub : ks.map g ⊆ (List.range 65).map (fun p => hash_with_probe t 0 p) := by
    intro i hi
    obtain ⟨k, hk, hki⟩ := List.mem_map.mp hi
    obtain ⟨x, hx, hxk⟩ := hg k hk
    obtain ⟨p, hp, hpi⟩ := hz.2 (g k) x hx (by rw [hxk]; rfl)
    rw [← hki]
    exact List.mem_map.mpr ⟨p, List.mem_range.mpr (by omega), hpi⟩
  have hlen := (List.subperm_of_subset hnd2 hsub).length_le
  simpa using hlen

theorem runInserts_keys (alloc : Nat → Bool) (fuel : Nat) :
    ∀ (ks : List Key) (t t' : Table),
      runOps hasherZero alloc fuel (ks.map (fun k => Op.ins k [])) t = .ok t' →
      zeroHashShape t →
      zeroHashShape t' ∧ (∀ k, k ∈ ks → keyIn t'.buckets k) ∧
        (∀ k, keyIn t.buckets k → keyIn t'.buckets k) := by
  intro ks
  induction ks with
  | nil =>
    intro t t' h hz
    simp only [List.map_nil, runOps, Except.ok.injEq] at h
    subst h
    refine ⟨hz, ?_, fun k hk => hk⟩
    intro k hk
    cases hk
  | cons k rest ih =>
    intro t t' h hz
    rw [List.map_cons, runOps] at h
    split at h
    · rename_i t1 hins
      obtain ⟨hz1, hk1, hkey⟩ := insert_keepsKeys alloc fuel t k [] t1 hins hz
      obtain ⟨a, b, c⟩ := ih t1 t' h hz1
      refine ⟨a, ?_, fun x hx => c x (hk1 x hx)⟩
      intro x hx
      rcases List.mem_cons.mp hx with h1 | h1
      · rw [h1]; exact c k hkey
      · exact b x h1
    · cases h
    · cases h

theorem zeroHashShape_tableZ : zeroHashShape tableZ := by
  refine ⟨by decide, ?_⟩
  intro i b hb hlive
  have hmem := List.getElem?_mem hb
  have hb0 : b = zeroBucket 0 := (List.mem_replicate.mp hmem).2
  rw [hb0] at hlive
  simp [zeroBucket, Token.isLive] at hlive

/-- The 66-insert statement of C29. -/
theorem sixtySix_never_return (fuel : Nat) (t : Table) :
    runFresh hasherZero fuel 4 1 2 0 (insertsUpTo 66) ≠ .ok t := by
  intro h
  have hnew : PRHHNew allocAll 4 1 2 0 = .ok (some tableZ) := by decide
  unfold runFresh at h
  rw [hnew] at h
  dsimp only at h
  have hops : insertsUpTo 66
      = ((List.range 66).map (fun i => [i + 1])).map (fun k => Op.ins k []) := by
    unfold insertsUpTo
    rw [List.map_map]
    rfl
  rw [hops] at h
  obtain ⟨hz, hall, _⟩ := runInserts_keys allocAll fuel _ _ _ h zeroHashShape_tableZ
  have hnd : ((List.range 66).map (fun i => ([i + 1] : Key))).Nodup := by
    apply List.Nodup.map _ (List.nodup_range 66)
    intro a b hab
    simpa using hab
  have := zeroHashShape_room t hz _ hnd hall
  simp at this

/-- C29: inserts that do not return although allocation never fails. With
`hasherZero` (every key hashes to 0) on the table of `PRHHNew(4, 1/2, 0)`:
for every bound on the loop iterations, the 66 inserts of the keys 1 .. 66 do
not all return `true` (a slab holds at most one record per probe `0 .. 64` of a
hash, and no resize changes that); and on `tableT`, after the eleven inserts of
the keys 1 .. 11 have returned `true` (capacity 64, `longest_probes` 13, 11
live records), the insert of key 12 has not returned after 300 loop iterations
of `PRHHUpsertNewKey` and `PRHHUpsertPushDown`. -/
theorem C29_insert_does_not_return :
    (∀ (fuel : Nat) (t : Table),
      runFresh hasherZero fuel 4 1 2 0 (insertsUpTo 66) ≠ .ok t) ∧
    (match tableT with
      | .ok t =>
        .ok (PRHHCapacity t, t.longest_probes, liveCount t.buckets,
          faultOf (PRHHInsertCustom hasherZero allocAll 300 t [12] []))
      | .error e => .error e)
      = (.ok (64, 13, 11, some .fuel) : Except Fault (Nat × Nat × Nat × Option Fault)) :=
  ⟨sixtySix_never_return, twelfth_insert_out_of_fuel⟩

theorem scaled_mask_period :
    ∀ n, n < 65 → 14 ≤ n → ∀ m, m < 16 → 8 ≤ m →
      (2 ^ n * m) % 18446744073709551616 = 0 ∨
        (131072 ≤ (2 ^ n * m) % 18446744073709551616 ∧
          (2 ^ n * m) % 18446744073709551616 ≤ 17293822569102704640) := by
  decide

/-- Scaled values `A` and `B` that differ by `D` up to a multiple of the scaled
period `C` fall into different blocks of 16 after the reduction modulo
`2^64`. -/
theorem floors_differ (A B C D : Nat) (hD : 16 ≤ D ∧ D ≤ 122880)
    (hc : C % 18446744073709551616 = 0 ∨
      (131072 ≤ C % 18446744073709551616 ∧ C % 18446744073709551616 ≤ 17293822569102704640))
    (h : B = A + D ∨ B + C = A + D) :
    (A % 18446744073709551616) / 16 ≠ (B % 18446744073709551616) / 16 := by
  omega

theorem probe_injective_lt (t : Table) (h p q : Nat)
    (hms : 8 ≤ t.capacity_ms4b ∧ t.capacity_ms4b ≤ 15)
    (hclz : 14 ≤ 64 - t.capacity_clz) (hpq : p < q) (hq : q ≤ 64) :
    hash_with_probe t h p ≠ hash_with_probe t h q := by
  have hn64 : 64 - t.capacity_clz ≤ 64 := Nat.sub_le _ _
  have hN : 2 ^ 14 ≤ 2 ^ (64 - t.capacity_clz) := Nat.pow_le_pow_right (by norm_num) hclz
  have hdvd : 2 ^ (64 - t.capacity_clz) ∣ 2 ^ 64 := Nat.pow_dvd_pow 2 hn64
  have hNpos : 0 < 2 ^ (64 - t.capacity_clz) := by positivity
  rw [hash_with_probe_eq, hash_with_probe_eq, probe_offset_small p (by omega),
    probe_offset_small q hq, Nat.mod_mod_of_dvd _ hdvd, Nat.mod_mod_of_dvd _ hdvd]
  -- the gap between the two offsets
  obtain ⟨d, hd⟩ : ∃ d, 2 * q * q = 2 * p * p + d := ⟨2 * q * q - 2 * p * p, by
    have : 2 * p * p ≤ 2 * q * q := by nlinarith
    omega⟩
  have hd2 : 2 ≤ d := by nlinarith
  have hd8192 : d ≤ 8192 := by
    have : q * q ≤ 64 * 64 := Nat.mul_le_mul hq hq
    nlinarith
  have hX : (h + 2 * p * p) % 2 ^ (64 - t.capacity_clz) < 2 ^ (64 - t.capacity_clz) :=
    Nat.mod_lt _ hNpos
  have hX1 : (h + 2 * q * q) % 2 ^ (64 - t.capacity_clz)
      = ((h + 2 * p * p) % 2 ^ (64 - t.capacity_clz) + d) % 2 ^ (64 - t.capacity_clz) := by
    rw [hd, Nat.mod_add_mod, Nat.add_assoc]
  have hcase : (h + 2 * q * q) % 2 ^ (64 - t.capacity_clz)
        = (h + 2 * p * p) % 2 ^ (64 - t.capacity_clz) + d ∨
      (h + 2 * q * q) % 2 ^ (64 - t.capacity_clz) + 2 ^ (64 - t.capacity_clz)
        = (h + 2 * p * p) % 2 ^ (64 - t.capacity_clz) + d := by
    rw [hX1]
    by_cases hlt : (h + 2 * p * p) % 2 ^ (64 - t.capacity_clz) + d < 2 ^ (64 - t.capacity_clz)
    · left; exact Nat.mod_eq_of_lt hlt
    · right
      rw [Nat.mod_eq_sub_mod (by omega), Nat.mod_eq_of_lt (by omega)]
      omega
  have hD : 16 ≤ d * t.capacity_ms4b ∧ d * t.capacity_ms4b ≤ 122880 := by
    constructor
    · calc 16 = 2 * 8 := by norm_num
        _ ≤ d * t.capacity_ms4b := Nat.mul_le_mul hd2 hms.1
    · calc d * t.capacity_ms4b ≤ 8192 * 15 := Nat.mul_le_mul hd8192 hms.2
        _ = 122880 := by norm_num
  have hc := scaled_mask_period (64 - t.capacity_clz) (by omega) hclz t.capacity_ms4b
    (by omega) hms.1
  refine floors_differ _ _ (2 ^ (64 - t.capacity_clz) * t.capacity_ms4b)
    (d * t.capacity_ms4b) hD hc ?_
  rcases hcase with h1 | h1
  · left; rw [h1]; ring
  · right
    rw [← Nat.add_mul, h1]; ring

/-- C31: the probe sequence is injective on large tables. For every
`capacity_ms4b` in `[8, 15]`, every `capacity_clz` with `64 - clz ≥ 14`, every
hash `h` and every two distinct probes `p`, `q` in `[0, 64]`,
`hash_with_probe(h, p) ≠ hash_with_probe(h, q)`. -/
theorem C31_probe_injective (t : Table) (h p q : Nat)
    (hms : 8 ≤ t.capacity_ms4b ∧ t.capacity_ms4b ≤ 15)
    (hclz : 14 ≤ 64 - t.capacity_clz)
    (hp : p ≤ 64) (hq : q ≤ 64) (hpq : p ≠ q) :
    hash_with_probe t h p ≠ hash_with_probe t h q := by
  rcases Nat.lt_or_gt_of_ne hpq with h1 | h1
  · exact probe_injective_lt t h p q hms hclz h1 hq
  · exact fun e => probe_injective_lt t h q p hms hclz h1 hp e.symm

/-- The arithmetic of one size-down step: with `2 * K * m` buckets
(`m` in `[8, 15]`, `K ≤ 2^57`) and more than 16 objects but fewer than a fifth
of the capacity, halving to `K * 8` (old `m ≤ 11`) or `K * 12` buckets leaves
between 4/11 and 1/2 of the capacity and keeps the object count within the new
upper bound, itself below the new capacity. -/
theorem size_down_arith (K m objcnt : Nat) (hK : K ≤ 144115188075855872)
    (hm : 8 ≤ m ∧ m ≤ 15)
    (htrig : objcnt < ((2 * K * m % 18446744073709551616) * 2 % 18446744073709551616) / 10
      ∧ objcnt > 16) :
    2 * K * m % 18446744073709551616 > 16 ∧
    4 * (2 * K * m % 18446744073709551616)
      ≤ 11 * (K * (if m ≤ 11 then 8 else 12) % 18446744073709551616) ∧
    2 * (K * (if m ≤ 11 then 8 else 12) % 18446744073709551616)
      ≤ 2 * K * m % 18446744073709551616 ∧
    objcnt ≤ ((K * (if m ≤ 11 then 8 else 12) % 18446744073709551616) * 8
      % 18446744073709551616) / 10 ∧
    ((K * (if m ≤ 11 then 8 else 12) % 18446744073709551616) * 8
      % 18446744073709551616) / 10 < K * (if m ≤ 11 then 8 else 12) % 18446744073709551616 := by
  obtain ⟨hm1, hm2⟩ := hm
  interval_cases m <;> simp (disch := omega) only [Nat.reduceLeDiff, if_true, if_false,
    Nat.mod_eq_of_lt] at htrig ⊢ <;> omega

/-- The shape `PRHHSizeDown` picks when the capacity exceeds 16: `clz + 1`, and
`ms4b` 8 for an old `ms4b` of 8..11, 12 for 12..15. -/
theorem sizeDownShape_eq (t : Table) (hclz : t.capacity_clz ≤ 59)
    (hms : 8 ≤ t.capacity_ms4b ∧ t.capacity_ms4b ≤ 15) (hcap : PRHHCapacity t > 16) :
    sizeDownShape t
      = .ok (t.capacity_clz + 1, if t.capacity_ms4b ≤ 11 then 8 else 12) := by
  obtain ⟨hm1, hm2⟩ := hms
  have hmod : (t.capacity_clz + 1) % 256 = t.capacity_clz + 1 := by omega
  have h8 : t.capacity_ms4b = 8 ∨ t.capacity_ms4b = 9 ∨ t.capacity_ms4b = 10 ∨
      t.capacity_ms4b = 11 ∨ t.capacity_ms4b = 12 ∨ t.capacity_ms4b = 13 ∨
      t.capacity_ms4b = 14 ∨ t.capacity_ms4b = 15 := by omega
  unfold sizeDownShape
  rw [if_pos hcap, hmod]
  rcases h8 with h | h | h | h | h | h | h | h <;> rw [h] <;> rfl

/-- Witness for C31 on `tableW` (`capacity_clz` 50, `capacity_ms4b` 8) with the
hash `2^64 - 1` and the probes 0 and 64. -/
theorem C31_probe_injective_witness :
    (8 ≤ tableW.capacity_ms4b ∧ tableW.capacity_ms4b ≤ 15) ∧
      14 ≤ 64 - tableW.capacity_clz ∧
      hash_with_probe tableW 18446744073709551615 0
        ≠ hash_with_probe tableW 18446744073709551615 64 :=
  ⟨by decide, by decide,
    C31_probe_injective tableW 18446744073709551615 0 64 (by decide) (by decide)
      (by decide) (by decide) (by decide)⟩

/-- Size-down on `tableU`, then the next insert: `PRHHDeleteCustom` of key 1
shrinks the table from 96 to 48 buckets (`capacity_clz` 58, `capacity_ms4b` 12,
`objcnt_high` 38) and leaves 16 objects; the following `PRHHInsertCustom` of
key 1 keeps the capacity at 48. The lists hold capacity, `objcnt` and
`objcnt_high` after the delete and after the insert. -/
theorem size_down_then_insert :
    (match PRHHDeleteCustom hasherL allocAll 400 tableU [1] with
      | .ok (t1, r) =>
        (match PRHHInsertCustom hasherL allocAll 400 t1 [1] [] with
          | .ok (t2, b) =>
            .ok ([PRHHCapacity t1, t1.objcnt, t1.objcnt_high, t1.capacity_clz,
                  t1.capacity_ms4b],
                 [PRHHCapacity t2, t2.objcnt, t2.objcnt_high], r, b)
          | .error e => .error e)
      | .error e => .error e)
      = (.ok ([48, 16, 38, 58, 12], [48, 17, 38], some 1, true) :
          Except Fault (List Nat × List Nat × Option Nat × Bool)) := by
  decide

theorem bitLen_bounds (fuel x : Nat) (h0 : 0 < x) (hx : x < 2 ^ (32 * fuel)) :
    2 ^ (bitLen fuel x - 1) ≤ x ∧ x < 2 ^ bitLen fuel x := by
  induction fuel generalizing x with
  | zero => simp at hx; omega
  | succ n ih =>
    unfold bitLen
    split
    · rename_i h32
      exact bitLength_bounds 32 x h32 h0
    · rename_i h32
      have hq0 : 0 < x / 2 ^ 32 := Nat.div_pos (by omega) (by positivity)
      have hqlt : x / 2 ^ 32 < 2 ^ (32 * n) := by
        rw [Nat.div_lt_iff_lt_mul (by positivity), ← Nat.pow_add]
        rw [show 32 * n + 32 = 32 * (n + 1) by ring]
        exact hx
      obtain ⟨h1, h2⟩ := ih (x / 2 ^ 32) hq0 hqlt
      have hL : 0 < bitLen n (x / 2 ^ 32) := by
        by_contra hc
        have : bitLen n (x / 2 ^ 32) = 0 := by omega
        rw [this] at h2
        simp at h2
        omega
      have hdm := Nat.div_add_mod x (2 ^ 32)
      have hml := Nat.mod_lt x (show 0 < 2 ^ 32 by positivity)
      constructor
      · rw [show bitLen n (x / 2 ^ 32) + 32 - 1 = 32 + (bitLen n (x / 2 ^ 32) - 1) by omega,
          Nat.pow_add]
        calc 2 ^ 32 * 2 ^ (bitLen n (x / 2 ^ 32) - 1) ≤ 2 ^ 32 * (x / 2 ^ 32) :=
              Nat.mul_le_mul_left _ h1
          _ ≤ x := by omega
      · rw [Nat.add_comm, Nat.pow_add]
        calc x < 2 ^ 32 * (x / 2 ^ 32 + 1) := by rw [Nat.mul_add]; omega
          _ ≤ 2 ^ 32 * 2 ^ bitLen n (x / 2 ^ 32) := Nat.mul_le_mul_left _ h2

theorem bitLen_self (x : Nat) (h0 : 0 < x) :
    2 ^ (bitLen x x - 1) ≤ x ∧ x < 2 ^ bitLen x x := by
  apply bitLen_bounds x x h0
  calc x < 2 ^ x := Nat.lt_two_pow x
    _ ≤ 2 ^ (32 * x) := Nat.pow_le_pow_right (by norm_num) (by omega)

theorem roundHalfEven_le (n d T : Nat) (hd : 0 < d) (h : n ≤ T * d) :
    roundHalfEven n d ≤ T := by
  unfold roundHalfEven
  have hq : n / d ≤ T := by
    rw [Nat.div_le_iff_le_mul_add_pred hd]
    have : T * d = d * T := Nat.mul_comm _ _
    omega
  have hdm := Nat.div_add_mod n d
  split
  · rename_i hc
    by_contra hcon
    have hqT : n / d = T := by omega
    rw [hqT] at hdm
    have : d * T = T * d := Nat.mul_comm _ _
    have hr0 : n % d = 0 := by omega
    rw [hr0] at hc
    omega
  · exact hq

theorem dblRound_den_pos (a b : Nat) : 0 < (dblRound a b).2 := by
  unfold dblRound
  split
  · norm_num
  · dsimp only; positivity

/-- Rounding to the nearest `double` does not cross a power of two: a fraction
of at most `2^k` rounds to at most `2^k`. -/
theorem dblRound_le (a b k : Nat) (hb : 0 < b) (h : a ≤ b * 2 ^ k) :
    (dblRound a b).1 ≤ 2 ^ k * (dblRound a b).2 := by
  unfold dblRound
  split
  · simp
  · rename_i hab
    have ha : 0 < a := by omega
    dsimp only
    obtain ⟨ha1, ha2⟩ := bitLen_self a ha
    obtain ⟨hb1, hb2⟩ := bitLen_self b hb
    generalize bitLen a a = la at ha1 ha2 ⊢
    generalize bitLen b b = lb at hb1 hb2 ⊢
    generalize hkk : (if b * 2 ^ (la - lb) ≤ a * 2 ^ (lb - la) then 52 + lb else 53 + lb) = kk
    have hkk52 : 52 + lb ≤ kk := by rw [← hkk]; split <;> omega
    -- `la ≤ lb + k`
    have hla : la ≤ lb + k := by
      by_contra hc
      have h1 : 2 ^ (lb + k) ≤ 2 ^ (la - 1) := Nat.pow_le_pow_right (by norm_num) (by omega)
      have h2 : b * 2 ^ k < 2 ^ lb * 2 ^ k := Nat.mul_lt_mul_of_pos_right hb2 (by positivity)
      rw [← Nat.pow_add] at h2
      omega
    have hdown : la - kk ≤ k + min (kk - la) 1074 := by omega
    generalize min (kk - la) 1074 = up at hdown ⊢
    generalize la - kk = down at hdown ⊢
    have hT : roundHalfEven (a * 2 ^ up) (b * 2 ^ down) ≤ 2 ^ (k + up - down) := by
      apply roundHalfEven_le _ _ _ (by positivity)
      calc a * 2 ^ up ≤ b * 2 ^ k * 2 ^ up := Nat.mul_le_mul_right _ h
        _ = 2 ^ (k + up - down) * (b * 2 ^ down) := by
          have : 2 ^ k * 2 ^ up = 2 ^ (k + up - down) * 2 ^ down := by
            rw [← Nat.pow_add, ← Nat.pow_add]; congr 1; omega
          calc b * 2 ^ k * 2 ^ up = b * (2 ^ k * 2 ^ up) := by ring
            _ = b * (2 ^ (k + up - down) * 2 ^ down) := by rw [this]
            _ = 2 ^ (k + up - down) * (b * 2 ^ down) := by ring
    calc roundHalfEven (a * 2 ^ up) (b * 2 ^ down) * 2 ^ down
        ≤ 2 ^ (k + up - down) * 2 ^ down := Nat.mul_le_mul_right _ hT
      _ = 2 ^ k * 2 ^ up := by
          rw [← Nat.pow_add, ← Nat.pow_add]; congr 1; omega

/-- The conversion `(uint64_t)(capacity * load)` of `PRHHNew` is defined: for a
capacity of at most `2^60` and a load below 1 the product is at most `2^60`. -/
theorem high_defined (capacity : Nat) (load : Nat × Nat) (hc : capacity ≤ 2 ^ 60)
    (hl : load.1 < load.2) :
    ∃ high, dblToU64 (dblMul (u64ToDbl capacity) load) = .ok high := by
  have h1 : (u64ToDbl capacity).1 ≤ 2 ^ 60 * (u64ToDbl capacity).2 := by
    unfold u64ToDbl
    exact dblRound_le capacity 1 60 (by norm_num) (by omega)
  have hp1 : 0 < (u64ToDbl capacity).2 := dblRound_den_pos _ _
  have h2 : (dblMul (u64ToDbl capacity) load).1 ≤ 2 ^ 60 * (dblMul (u64ToDbl capacity) load).2 := by
    unfold dblMul
    apply dblRound_le _ _ 60 (Nat.mul_pos hp1 (by omega))
    calc (u64ToDbl capacity).1 * load.1 ≤ (2 ^ 60 * (u64ToDbl capacity).2) * load.2 :=
          Nat.mul_le_mul h1 (by omega)
      _ = (u64ToDbl capacity).2 * load.2 * 2 ^ 60 := by ring
  have hp2 : 0 < (dblMul (u64ToDbl capacity) load).2 := dblRound_den_pos _ _
  have h3 : (dblMul (u64ToDbl capacity) load).1 / (dblMul (u64ToDbl capacity) load).2 ≤ 2 ^ 60 := by
    rw [Nat.div_le_iff_le_mul_add_pred hp2]
    have := Nat.mul_comm (2 ^ 60) (dblMul (u64ToDbl capacity) load).2
    omega
  have hlt : (dblMul (u64ToDbl capacity) load).1 / (dblMul (u64ToDbl capacity) load).2 < W64 := by
    unfold W64
    have : (2:Nat) ^ 60 < 2 ^ 64 := by norm_num
    omega
  exact ⟨_, by unfold dblToU64; rw [if_pos hlt]⟩

theorem new_capacity_facts (alloc : Nat → Bool) (num_objects load_num load_den valsize r : Nat)
    (hreq : requestedCapacity num_objects load_num load_den = .ok r) (hr : r < 2 ^ 60) :
    2 ^ (64 - clzl (max 8 r) - 1) ≤ max 8 r ∧
      max 8 r < 2 ^ (64 - clzl (max 8 r)) ∧
      (∀ t : Table, PRHHNew alloc num_objects load_num load_den valsize = .ok (some t) →
        PRHHCapacity t = 2 ^ (64 - t.capacity_clz - 4) * t.capacity_ms4b ∧
        2 ^ (64 - clzl (max 8 r) - 4) ∣ PRHHCapacity t ∧
        max 8 r ≤ PRHHCapacity t ∧
        (∀ m, 2 ^ (64 - clzl (max 8 r) - 4) ∣ m → max 8 r ≤ m → PRHHCapacity t ≤ m) ∧
        8 ≤ PRHHCapacity t) ∧
      (0 < (dblRound load_num load_den).1 →
        (dblRound load_num load_den).1 < (dblRound load_num load_den).2 →
        (∀ n, alloc n = true) →
        ∃ t : Table, PRHHNew alloc num_objects load_num load_den valsize = .ok (some t)) := by
  unfold requestedCapacity at hreq
  have hcap : (if r < 8 then 8 else r) = max 8 r := by split <;> omega
  set c := max 8 r with hcdef
  have hc8 : 8 ≤ c := by omega
  have hc60 : c < 2 ^ 60 := by
    have : (8:Nat) < 2 ^ 60 := by norm_num
    omega
  have hc64 : c < 2 ^ 64 := lt_trans hc60 (by norm_num)
  obtain ⟨hb1, hb2⟩ := bitLength_bounds 64 c hc64 (by omega)
  have hble := bitLength_le 64 c
  have hmsb : 64 - clzl c = bitLength 64 c := by unfold clzl; omega
  have hm4 : 4 ≤ bitLength 64 c := by
    by_contra hcon
    have : 2 ^ bitLength 64 c ≤ 2 ^ 3 := Nat.pow_le_pow_right (by norm_num) (by omega)
    omega
  have hm60 : bitLength 64 c ≤ 60 := by
    by_contra hcon
    have : 2 ^ 60 ≤ 2 ^ (bitLength 64 c - 1) := Nat.pow_le_pow_right (by norm_num) (by omega)
    omega
  set b := bitLength 64 c with hbdef
  have hdpos : 0 < 2 ^ (b - 4) := by positivity
  obtain ⟨hce1, hce2⟩ := ceil_mul_least c (2 ^ (b - 4)) hdpos
  have hsplit : 2 ^ b = 2 ^ (b - 4) * 16 := by
    rw [show (16:Nat) = 2 ^ 4 by norm_num, ← Nat.pow_add]; congr 1; omega
  have hms16 : round_up_div c (2 ^ (b - 4)) ≤ 16 := by
    have := hce2 (2 ^ b) ⟨16, hsplit⟩ (by omega)
    rw [hsplit] at this
    exact Nat.le_of_mul_le_mul_left this hdpos
  have hpw : 2 ^ b ≤ 2 ^ 60 := Nat.pow_le_pow_right (by norm_num) hm60
  have hprod : 2 ^ (b - 4) * round_up_div c (2 ^ (b - 4)) ≤ 2 ^ b := by
    rw [hsplit]; exact Nat.mul_le_mul_left _ hms16
  have e2 : round_up_div c (2 ^ (b - 4)) % 2 ^ 32 = round_up_div c (2 ^ (b - 4)) :=
    Nat.mod_eq_of_lt (by omega)
  have e4 : round_up_div c (2 ^ (b - 4)) * 2 ^ (b - 4) % W64
      = round_up_div c (2 ^ (b - 4)) * 2 ^ (b - 4) := by
    apply Nat.mod_eq_of_lt; unfold W64
    have : (2:Nat) ^ 60 < 2 ^ 64 := by norm_num
    rw [Nat.mul_comm]; omega
  refine ⟨by rw [hmsb]; exact hb1, by rw [hmsb]; exact hb2, ?_, ?_⟩
  · intro t hnew
    unfold PRHHNew at hnew
    simp only [hreq, hcap, hmsb, e2, e4] at hnew
    split at hnew
    · split at hnew
      · split at hnew
        · split at hnew
          · cases hnew
          · simp only [Except.ok.injEq, Option.some.injEq] at hnew
            subst hnew
            simp only [PRHHCapacity, PRHHCapacityInternal, hmsb]
            have e1 : clzl c % 256 = 64 - b := by
              unfold clzl; rw [Nat.mod_eq_of_lt (by omega)]
            have e5 : round_up_div c (2 ^ (b - 4)) % 256 = round_up_div c (2 ^ (b - 4)) :=
              Nat.mod_eq_of_lt (by omega)
            rw [e1, e5]
            have e3 : 64 - (64 - b) - 4 = b - 4 := by omega
            rw [e3]
            have e6 : 2 ^ (b - 4) * round_up_div c (2 ^ (b - 4)) % W64
                = 2 ^ (b - 4) * round_up_div c (2 ^ (b - 4)) := by
              rw [Nat.mul_comm]; exact e4
            rw [e6]
            exact ⟨rfl, Dvd.intro _ rfl, hce1, hce2, by omega⟩
        · simp at hnew
      · simp at hnew
    · simp at hnew
  · intro h1 h2 ha
    obtain ⟨high, hhigh⟩ := high_defined (round_up_div c (2 ^ (b - 4)) * 2 ^ (b - 4))
      (dblRound load_num load_den) (by rw [Nat.mul_comm]; omega) h2
    unfold PRHHNew
    simp only [hreq, hcap, hmsb, e2, e4, hhigh, h1, h2, ha, and_self, if_true]
    exact ⟨_, rfl⟩

/-- C12, counterexample: the quotient `num_objects / load` is a `double`.
`PRHHNew(num_objects = 7, load = 0.28)` stores capacity 24 (`clz` 59, `ms4b`
12, `objcnt_high` 6) although `floor(7 / (28/100)) = 25`: the `double` quotient
is just below 25 and is truncated. `PRHHNew(num_objects = 1, load = 0.1)` stores
capacity 10 although the `double` nearest to 0.1 is above 1/10 and the exact
quotient by it has integer part 9, for which the least multiple would be 9:
the `double` quotient rounds up to 10. -/
theorem C12_capacity_below_quotient :
    (match PRHHNew allocAll 7 28 100 0 with
      | .ok (some t) => [PRHHCapacity t, t.capacity_clz, t.capacity_ms4b, t.objcnt_high]
      | _ => []) = [24, 59, 12, 6] ∧
    max 8 (7 * 100 / 28) = 25 ∧
    (match PRHHNew allocAll 1 1 10 0 with
      | .ok (some t) => [PRHHCapacity t, t.capacity_clz, t.capacity_ms4b, t.objcnt_high]
      | _ => []) = [10, 60, 10, 1] ∧
    max 8 (1 * (dblRound 1 10).2 / (dblRound 1 10).1) = 9 := by
  decide

/-- C12, amended: initial capacity. Let `r` be the value
`(uint64_t)(num_objects / load)` as the code computes it (`double` quotient,
rounded to nearest, truncated) and `c = max(8, r)`, below `2^60`, with
`msb = 64 - clz(c)` (so `2^(msb-1) ≤ c < 2^msb`). Every table that `PRHHNew`
returns has `PRHHCapacity = (1 << (64 - clz - 4)) * ms4b`, and this is the least
multiple of `2^(msb-4)` that is at least `c`; it is at least `c` and at least 8.
With a load in `(0, 1)` and an allocator that succeeds, `PRHHNew` does return a
table. -/
theorem C12_initial_capacity (alloc : Nat → Bool)
    (num_objects load_num load_den valsize r : Nat)
    (hreq : requestedCapacity num_objects load_num load_den = .ok r) (hr : r < 2 ^ 60) :
    2 ^ (64 - clzl (max 8 r) - 1) ≤ max 8 r ∧
      max 8 r < 2 ^ (64 - clzl (max 8 r)) ∧
      (∀ t : Table, PRHHNew alloc num_objects load_num load_den valsize = .ok (some t) →
        PRHHCapacity t = 2 ^ (64 - t.capacity_clz - 4) * t.capacity_ms4b ∧
        2 ^ (64 - clzl (max 8 r) - 4) ∣ PRHHCapacity t ∧
        max 8 r ≤ PRHHCapacity t ∧
        (∀ m, 2 ^ (64 - clzl (max 8 r) - 4) ∣ m → max 8 r ≤ m → PRHHCapacity t ≤ m) ∧
        8 ≤ PRHHCapacity t) ∧
      (0 < (dblRound load_num load_den).1 →
        (dblRound load_num load_den).1 < (dblRound load_num load_den).2 →
        (∀ n, alloc n = true) →
        ∃ t : Table, PRHHNew alloc num_objects load_num load_den valsize = .ok (some t)) :=
  new_capacity_facts alloc num_objects load_num load_den valsize r hreq hr

/-- Witness for C12: `PRHHNew(num_objects = 7, load = 0.28)` asks for 24 buckets
(`msb = 5`). -/
theorem C12_initial_capacity_witness :
    requestedCapacity 7 28 100 = .ok 24 ∧ 24 < 2 ^ 60 ∧
    (2 ^ (64 - clzl (max 8 24) - 1) ≤ max 8 24 ∧
      max 8 24 < 2 ^ (64 - clzl (max 8 24)) ∧
      (∀ t : Table, PRHHNew allocAll 7 28 100 0 = .ok (some t) →
        PRHHCapacity t = 2 ^ (64 - t.capacity_clz - 4) * t.capacity_ms4b ∧
        2 ^ (64 - clzl (max 8 24) - 4) ∣ PRHHCapacity t ∧
        max 8 24 ≤ PRHHCapacity t ∧
        (∀ m, 2 ^ (64 - clzl (max 8 24) - 4) ∣ m → max 8 24 ≤ m → PRHHCapacity t ≤ m) ∧
        8 ≤ PRHHCapacity t) ∧
      (0 < (dblRound 28 100).1 →
        (dblRound 28 100).1 < (dblRound 28 100).2 →
        (∀ n, allocAll n = true) →
        ∃ t : Table, PRHHNew allocAll 7 28 100 0 = .ok (some t))) :=
  ⟨by decide, by decide, C12_initial_capacity allocAll 7 28 100 0 24 (by decide) (by decide)⟩

theorem liveCount_eq_countP (bs : List Bucket) :
    liveCount bs = List.countP (fun b => b.tok.isLive) bs := by
  unfold liveCount
  rw [List.countP_eq_length_filter]

theorem countP_set (P : Bucket → Bool) :
    ∀ (bs : List Bucket) (i : Nat) (b old : Bucket), bs[i]? = some old →
      List.countP P (bs.set i b) + (if P old = true then 1 else 0)
        = List.countP P bs + (if P b = true then 1 else 0) := by
  intro bs
  induction bs with
  | nil => intro i b old h; simp at h
  | cons x xs ih =>
    intro i b old h
    cases i with
    | zero =>
      simp only [List.getElem?_cons_zero, Option.some.injEq] at h
      subst h
      simp only [List.set_cons_zero, List.countP_cons]
      omega
    | succ j =>
      simp only [List.getElem?_cons_succ] at h
      have := ih j b old h
      simp only [List.set_cons_succ, List.countP_cons]
      omega

theorem countP_replicate_zero (P : Bucket → Bool) (hP : ∀ x, P x = true → x.tok.isLive = true)
    (n v : Nat) : List.countP P (List.replicate n (zeroBucket v)) = 0 := by
  rw [List.countP_eq_zero]
  intro a ha
  rw [List.mem_replicate] at ha
  intro hc
  have := hP a hc
  rw [ha.2] at this
  simp [zeroBucket, Token.isLive] at this

theorem rehashLoop_count (pd : Table → Bucket → Except Fault Table) (hpd : countsAdd pd) :
    ∀ (bs : List Bucket) (n : Nat) (t t' : Table), countOK t →
      rehashLoop pd bs n t = .ok t' →
      countOK t' ∧ ∀ P : Bucket → Bool, (∀ x, P x = true → x.tok.isLive = true) →
        List.countP P t'.buckets = List.countP P t.buckets + List.countP P (bs.take n) := by
  intro bs
  induction bs with
  | nil =>
    intro n t t' hc h
    cases n with
    | zero =>
      simp only [rehashLoop, Except.ok.injEq] at h
      subst h
      exact ⟨hc, fun P _ => by simp⟩
    | succ n => simp [rehashLoop] at h
  | cons b rest ih =>
    intro n t t' hc h
    cases n with
    | zero =>
      simp only [rehashLoop, Except.ok.injEq] at h
      subst h
      exact ⟨hc, fun P _ => by simp⟩
    | succ n =>
      rw [rehashLoop] at h
      split at h
      · rename_i hlive
        split at h
        · cases h
        · rename_i t1 hp
          obtain ⟨hc1, hadd⟩ := hpd t b t1 hlive hc hp
          obtain ⟨hc2, hrest⟩ := ih n t1 t' hc1 h
          refine ⟨hc2, fun P hP => ?_⟩
          rw [hrest P hP, hadd P hP, List.take_succ_cons, List.countP_cons]
          omega
      · rename_i hlive
        obtain ⟨hc2, hrest⟩ := ih n t t' hc h
        refine ⟨hc2, fun P hP => ?_⟩
        rw [hrest P hP, List.take_succ_cons, List.countP_cons]
        have : ¬ (P b = true) := fun hpb => hlive (hP b hpb)
        simp [this]

theorem slab_le_capacity (t : Table) (h : countOK t) : t.buckets.length ≤ PRHHCapacity t := by
  rw [h.2]
  unfold slabLen bucket_size
  have hpos : 0 < 8 + t.valsize := by omega
  calc (8 + t.valsize) * PRHHCapacity t % W64 / (8 + t.valsize)
      ≤ (8 + t.valsize) * PRHHCapacity t / (8 + t.valsize) :=
        Nat.div_le_div_right (Nat.mod_le _ _)
    _ = PRHHCapacity t := Nat.mul_div_cancel_left _ hpos

theorem resizeTo_count (pd : Table → Bucket → Except Fault Table) (hpd : countsAdd pd)
    (alloc : Nat → Bool) (t t1 : Table) (c m : Nat) (s : Bool) (hc : countOK t)
    (h : resizeTo pd alloc t c m = .ok (t1, s)) :
    countOK t1 ∧ ∀ P : Bucket → Bool, (∀ x, P x = true → x.tok.isLive = true) →
      List.countP P t1.buckets = List.countP P t.buckets := by
  unfold resizeTo at h
  dsimp only at h
  split at h
  · split at h
    · cases h
    · rename_i t2 hre
      simp only [Except.ok.injEq, Prod.mk.injEq] at h
      obtain ⟨h1, _⟩ := h
      subst h1
      have hc0 : countOK
          { t with
            objcnt := 0
            objcnt_high := (PRHHCapacityInternal c m * 8 % W64) / 10
            objcnt_low := (PRHHCapacityInternal c m * 2 % W64) / 10
            capacity_clz := c
            capacity_ms4b := m
            longest_probes := 0
            stats := List.replicate PROBE_STATS_SIZE 0
            buckets := List.replicate
              (slabLen (bucket_size t) ((bucket_size t * PRHHCapacityInternal c m) % W64))
              (zeroBucket t.valsize) } := by
        constructor
        · show 0 = liveCount (List.replicate _ _) % W64
          rw [liveCount_eq_countP, countP_replicate_zero _ (fun x hx => hx), Nat.zero_mod]
        · simp only [List.length_replicate]
          rfl
      obtain ⟨hc2, hcnt⟩ := rehashLoop_count pd hpd _ _ _ _ hc0 hre
      refine ⟨hc2, fun P hP => ?_⟩
      rw [hcnt P hP]
      simp only
      rw [countP_replicate_zero P hP, List.take_of_length_le (slab_le_capacity t hc)]
      omega
  · simp only [Except.ok.injEq, Prod.mk.injEq] at h
    rw [← h.1]
    exact ⟨hc, fun _ _ => rfl⟩

theorem sizeUpWith_count (pd : Table → Bucket → Except Fault Table) (hpd : countsAdd pd)
    (alloc : Nat → Bool) (t t1 : Table) (s : Bool) (hc : countOK t)
    (h : sizeUpWith pd alloc t = .ok (t1, s)) :
    countOK t1 ∧ ∀ P : Bucket → Bool, (∀ x, P x = true → x.tok.isLive = true) →
      List.countP P t1.buckets = List.countP P t.buckets := by
  unfold sizeUpWith at h
  split at h
  · cases h
  · exact resizeTo_count pd hpd alloc t t1 _ _ s hc h

theorem sizeDownWith_count (pd : Table → Bucket → Except Fault Table) (hpd : countsAdd pd)
    (alloc : Nat → Bool) (t t1 : Table) (s : Bool) (hc : countOK t)
    (h : sizeDownWith pd alloc t = .ok (t1, s)) :
    countOK t1 ∧ ∀ P : Bucket → Bool, (∀ x, P x = true → x.tok.isLive = true) →
      List.countP P t1.buckets = List.countP P t.buckets := by
  unfold sizeDownWith at h
  split at h
  · cases h
  · exact resizeTo_count pd hpd alloc t t1 _ _ s hc h

theorem countOK_of (t t2 : Table) (hc : countOK t) (hv : t2.valsize = t.valsize)
    (hclz : t2.capacity_clz = t.capacity_clz) (hms : t2.capacity_ms4b = t.capacity_ms4b)
    (hlen : t2.buckets.length = t.buckets.length)
    (hobj : t2.objcnt = liveCount t2.buckets % W64) : countOK t2 := by
  refine ⟨hobj, ?_⟩
  rw [hlen, hc.2]
  unfold bucket_size PRHHCapacity
  rw [hv, hclz, hms]

theorem liveCount_set (bs : List Bucket) (i : Nat) (b old : Bucket) (h : bs[i]? = some old) :
    liveCount (bs.set i b) + (if old.tok.isLive = true then 1 else 0)
      = liveCount bs + (if b.tok.isLive = true then 1 else 0) := by
  rw [liveCount_eq_countP, liveCount_eq_countP]
  exact countP_set (fun b => b.tok.isLive) bs i b old h

theorem readBucket_get (bs : List Bucket) (i : Nat) (b : Bucket)
    (h : readBucket bs i = .ok b) : bs[i]? = some b := by
  unfold readBucket at h
  split at h
  · simp only [Except.ok.injEq] at h
    subst h
    assumption
  · cases h

theorem pushDown_count (hasher : Key → Nat) (alloc : Nat → Bool) :
    ∀ (fuel : Nat) (t : Table) (cpy : Bucket) (probe : Nat) (avoid : Option Nat) (visit : Nat)
      (visited : List Nat) (resized : Bool) (t' : Table) (r : Bool),
      countOK t →
      PRHHUpsertPushDown hasher alloc fuel t cpy probe avoid visit visited resized = .ok (t', r) →
      countOK t' ∧ ∀ P : Bucket → Bool, (∀ x, P x = true → x.tok.isLive = true) →
        List.countP P t'.buckets = List.countP P t.buckets + (if P cpy = true then 1 else 0) := by
  intro fuel
  induction fuel with
  | zero =>
    intro t cpy probe avoid visit visited resized t' r _ h
    simp [PRHHUpsertPushDown] at h
  | succ fuel ih =>
    intro t cpy probe avoid visit visited resized t' r hc h
    rw [PRHHUpsertPushDown] at h
    cases hth : tokenHash hasher cpy.tok with
    | error e => rw [hth] at h; cases h
    | ok hk =>
      have hcpy : cpy.tok.isLive = true := by
        cases htok : cpy.tok with
        | live k => rfl
        | empty => rw [htok] at hth; cases hth
        | tombstone => rw [htok] at hth; cases hth
      rw [hth] at h
      dsimp only at h
      split at h
      · -- probe > PROBE_STATS_SIZE: resize, then restart
        split at h
        · cases h
        · rename_i t1 swapped hsz
          have hpd : countsAdd (fun t1 b =>
              match PRHHUpsertPushDown hasher alloc fuel t1 b 0 none 0
                (List.replicate VISIT_IDX_CACHE 0) false with
              | .error e => .error e
              | .ok r => .ok r.1) := by
            intro t2 b t3 _ hc2 hp
            dsimp only at hp
            split at hp
            · cases hp
            · rename_i r2 hr2
              simp only [Except.ok.injEq] at hp
              subst hp
              exact ih _ _ _ _ _ _ _ _ _ hc2 hr2
          obtain ⟨hc1, hk1⟩ := sizeUpWith_count _ hpd alloc t t1 swapped hc hsz
          obtain ⟨a, b⟩ := ih _ _ _ _ _ _ _ _ _ hc1 h
          exact ⟨a, fun P hP => by rw [b P hP, hk1 P hP]⟩
      · split at h
        · exact ih _ _ _ _ _ _ _ _ _ hc h
        · split at h
          · exact ih _ _ _ _ _ _ _ _ _ hc h
          · split at h
            · cases h
            · rename_i b hb
              have hget := readBucket_get _ _ _ hb
              split at h
              · rename_i hblive
                split at h
                · cases h
                · rename_i old_probe hfp
                  split at h
                  · split at h
                    · cases h
                    · split at h
                      · cases h
                      · rename_i s1 _ s2 _
                        have hc2 : countOK
                            { t with
                              longest_probes :=
                                (if probe > t.longest_probes then probe
                                  else t.longest_probes) % 2 ^ 16
                              stats := s2
                              buckets := t.buckets.set (hash_with_probe t hk probe) cpy } := by
                          refine countOK_of t _ hc ?_ ?_ ?_ ?_ ?_
                          · rfl
                          · rfl
                          · rfl
                          · simp
                          have := liveCount_set t.buckets (hash_with_probe t hk probe) cpy b hget
                          rw [hblive, hcpy] at this
                          simp only [if_true] at this
                          show t.objcnt = liveCount (t.buckets.set _ cpy) % W64
                          rw [hc.1]
                          congr 1
                          omega
                        obtain ⟨a, c⟩ := ih _ _ _ _ _ _ _ _ _ hc2 h
                        refine ⟨a, fun P hP => ?_⟩
                        rw [c P hP]
                        have := countP_set P t.buckets (hash_with_probe t hk probe) cpy b hget
                        simp only at this ⊢
                        omega
                  · exact ih _ _ _ _ _ _ _ _ _ hc h
              · rename_i hblive
                simp only [Except.ok.injEq, Prod.mk.injEq] at h
                obtain ⟨h1, _⟩ := h
                subst h1
                have hl := liveCount_set t.buckets (hash_with_probe t hk probe) cpy b hget
                rw [hcpy] at hl
                simp [hblive] at hl
                constructor
                · refine countOK_of t _ hc ?_ ?_ ?_ ?_ ?_
                  · rfl
                  · rfl
                  · rfl
                  · simp [IncreaseProbeStat]
                  show (t.objcnt + 1) % W64 = liveCount (t.buckets.set _ cpy) % W64
                  rw [hc.1]
                  have : liveCount (t.buckets.set (hash_with_probe t hk probe) cpy)
                      = liveCount t.buckets + 1 := by omega
                  rw [this]
                  simp
                · intro P hP
                  have := countP_set P t.buckets (hash_with_probe t hk probe) cpy b hget
                  have hpb : ¬ (P b = true) := fun hpb => hblive (hP b hpb)
                  simp [hpb] at this
                  simp only [IncreaseProbeStat]
                  omega

theorem rehashPushDown_count (hasher : Key → Nat) (alloc : Nat → Bool) (fuel : Nat) :
    countsAdd (rehashPushDown hasher alloc fuel) := by
  intro t b t1 _ hc hp
  unfold rehashPushDown at hp
  split at hp
  · cases hp
  · rename_i r hr
    simp only [Except.ok.injEq] at hp
    subst hp
    exact pushDown_count hasher alloc _ _ _ _ _ _ _ _ _ _ hc hr

theorem sizeUp_count (hasher : Key → Nat) (alloc : Nat → Bool) (fuel : Nat) (t t1 : Table)
    (s : Bool) (hc : countOK t) (h : PRHHSizeUp hasher alloc fuel t = .ok (t1, s)) :
    countOK t1 ∧ ∀ P : Bucket → Bool, (∀ x, P x = true → x.tok.isLive = true) →
      List.countP P t1.buckets = List.countP P t.buckets :=
  sizeUpWith_count _ (rehashPushDown_count hasher alloc fuel) alloc t t1 s hc h

theorem sizeDown_count (hasher : Key → Nat) (alloc : Nat → Bool) (fuel : Nat) (t t1 : Table)
    (s : Bool) (hc : countOK t) (h : PRHHSizeDown hasher alloc fuel t = .ok (t1, s)) :
    countOK t1 ∧ ∀ P : Bucket → Bool, (∀ x, P x = true → x.tok.isLive = true) →
      List.countP P t1.buckets = List.countP P t.buckets :=
  sizeDownWith_count _ (rehashPushDown_count hasher alloc fuel) alloc t t1 s hc h

theorem succ_mod_W64 (n : Nat) : (n % W64 + 1) % W64 = (n + 1) % W64 := by
  simp

theorem newKey_count (hasher : Key → Nat) (alloc : Nat → Bool) (key : Key) (hashed_key : Nat) :
    ∀ (fuel : Nat) (t : Table) (probe : Nat) (t1 : Table) (res : upsert_result_t) (m ps : Nat),
      countOK t →
      PRHHUpsertNewKey hasher alloc key hashed_key fuel t probe = .ok (t1, res, m, ps) →
      (∀ P : Bucket → Bool, (∀ x, P x = true → x.tok.isLive = true) →
        List.countP P t1.buckets = List.countP P t.buckets) ∧
      t1.buckets.length = slabLen (bucket_size t1) ((bucket_size t1 * PRHHCapacity t1) % W64) ∧
      ∃ b : Bucket, t1.buckets[m]? = some b ∧
        (res = .UPSERT_EMPTY → b.tok.isLive = false ∧
          t1.objcnt = (liveCount t1.buckets + 1) % W64) ∧
        (res = .UPSERT_DUP → b.tok = Token.live key ∧
          t1.objcnt = liveCount t1.buckets % W64) ∧
        (res = .UPSERT_PUSHDOWN → b.tok.isLive = true ∧
          t1.objcnt = liveCount t1.buckets % W64) := by
  intro fuel
  induction fuel with
  | zero =>
    intro t probe t1 res m ps _ h
    simp [PRHHUpsertNewKey] at h
  | succ fuel ih =>
    intro t probe t1 res m ps hc h
    rw [PRHHUpsertNewKey] at h
    split at h
    · split at h
      · cases h
      · rename_i t2 s hsz
        obtain ⟨hc2, hk2⟩ := sizeUp_count hasher alloc fuel t t2 s hc hsz
        obtain ⟨a, b, c⟩ := ih _ _ _ _ _ _ hc2 h
        exact ⟨fun P hP => by rw [a P hP, hk2 P hP], b, c⟩
    · split at h
      · cases h
      · rename_i b hb
        have hget := readBucket_get _ _ _ hb
        have hinc : (IncreaseProbeStat t probe).objcnt
            = (liveCount (IncreaseProbeStat t probe).buckets + 1) % W64 := by
          show (t.objcnt + 1) % W64 = (liveCount t.buckets + 1) % W64
          rw [hc.1, succ_mod_W64]
        split at h
        · rename_i htok
          simp only [Except.ok.injEq, Prod.mk.injEq] at h
          obtain ⟨h1, h2, h3, _⟩ := h
          subst h1; subst h2; subst h3
          refine ⟨fun _ _ => rfl, hc.2, b, hget, fun _ => ⟨by rw [htok]; rfl, hinc⟩,
            (fun hc' => by cases hc'), (fun hc' => by cases hc')⟩
        · rename_i htok
          split at h
          · cases h
          · rename_i dup hdup
            simp only [Except.ok.injEq, Prod.mk.injEq] at h
            obtain ⟨h1, h2, h3, _⟩ := h
            subst h1; subst h2; subst h3
            obtain ⟨bd, hbd, hkd⟩ := dupScan_live t key hashed_key _ _ _ hdup
            refine ⟨fun _ _ => rfl, hc.2, bd, hbd, (fun hc' => by cases hc'),
              fun _ => ⟨hkd, hc.1⟩, (fun hc' => by cases hc')⟩
          · simp only [Except.ok.injEq, Prod.mk.injEq] at h
            obtain ⟨h1, h2, h3, _⟩ := h
            subst h1; subst h2; subst h3
            refine ⟨fun _ _ => rfl, hc.2, b, hget, fun _ => ⟨by rw [htok]; rfl, hinc⟩,
              (fun hc' => by cases hc'), (fun hc' => by cases hc')⟩
        · rename_i k htok
          split at h
          · rename_i hk
            simp only [Except.ok.injEq, Prod.mk.injEq] at h
            obtain ⟨h1, h2, h3, _⟩ := h
            subst h1; subst h2; subst h3
            refine ⟨fun _ _ => rfl, hc.2, b, hget, (fun hc' => by cases hc'),
              fun _ => ⟨by rw [htok, hk], hc.1⟩, (fun hc' => by cases hc')⟩
          · split at h
            · cases h
            · split at h
              · split at h
                · cases h
                · split at h
                  · cases h
                  · simp only [Except.ok.injEq, Prod.mk.injEq] at h
                    obtain ⟨h1, h2, h3, _⟩ := h
                    subst h1; subst h2; subst h3
                    refine ⟨fun _ _ => rfl, hc.2, b, hget, (fun hc' => by cases hc'),
                      (fun hc' => by cases hc'), fun _ => ⟨by rw [htok]; rfl, hc.1⟩⟩
              · exact ih _ _ _ _ _ _ hc h

theorem keyCopies_eq_countP (bs : List Bucket) (key : Key) :
    keyCopies bs key = List.countP (fun b => decide (b.tok = Token.live key)) bs := by
  unfold keyCopies
  rw [List.countP_eq_length_filter]

theorem mod_pred_W64 (n : Nat) (h : 0 < n) : (n % W64 + W64 - 1) % W64 = (n - 1) % W64 := by
  unfold W64
  omega

theorem backShiftMove_count (t t1 : Table) (idx cand probe : Nat) (b0 : Bucket)
    (h : backShiftMove t idx cand probe = .ok t1) (h0 : t.buckets[idx]? = some b0) :
    t1.objcnt = t.objcnt ∧ t1.valsize = t.valsize ∧ t1.capacity_clz = t.capacity_clz ∧
      t1.capacity_ms4b = t.capacity_ms4b ∧ t1.buckets.length = t.buckets.length ∧
      (∀ P : Bucket → Bool, List.countP P t1.buckets = List.countP P t.buckets) ∧
      t1.buckets[cand]? = some b0 := by
  unfold backShiftMove at h
  dsimp only at h
  split at h
  · cases h
  · split at h
    · cases h
    · rename_i tmp htmp
      split at h
      · cases h
      · rename_i c hcand
        simp only [Except.ok.injEq] at h
        subst h
        have htmp' := readBucket_get _ _ _ htmp
        have hcand' := readBucket_get _ _ _ hcand
        rw [h0] at htmp'
        simp only [Option.some.injEq] at htmp'
        subst htmp'
        have hclt : cand < t.buckets.length := by
          by_contra hcon
          rw [List.getElem?_eq_none (by omega)] at hcand'
          cases hcand'
        have hold : (t.buckets.set idx c)[cand]? = some c := by
          by_cases he : idx = cand
          · subst he
            rw [List.getElem?_set_self hclt]
          · rw [List.getElem?_set_ne he]; exact hcand'
        refine ⟨rfl, rfl, rfl, rfl, by simp, fun P => ?_, ?_⟩
        · have e1 := countP_set P t.buckets idx c b0 h0
          have e2 := countP_set P (t.buckets.set idx c) cand b0 c hold
          simp only
          omega
        · simp only
          rw [List.getElem?_set_self (by simp; exact hclt)]

theorem backShiftLoop_count (hasher : Key → Nat) :
    ∀ (record_probe : Nat) (t t1 : Table) (idx hole : Nat) (b0 : Bucket),
      backShiftLoop hasher record_probe t idx = .ok (t1, hole) → t.buckets[idx]? = some b0 →
      t1.objcnt = t.objcnt ∧ t1.valsize = t.valsize ∧ t1.capacity_clz = t.capacity_clz ∧
        t1.capacity_ms4b = t.capacity_ms4b ∧ t1.buckets.length = t.buckets.length ∧
        (∀ P : Bucket → Bool, List.countP P t1.buckets = List.countP P t.buckets) ∧
        t1.buckets[hole]? = some b0 := by
  intro record_probe
  induction record_probe with
  | zero =>
    intro t t1 idx hole b0 h h0
    simp only [backShiftLoop, Except.ok.injEq, Prod.mk.injEq] at h
    obtain ⟨h1, h2⟩ := h
    subst h1; subst h2
    exact ⟨rfl, rfl, rfl, rfl, rfl, fun _ => rfl, h0⟩
  | succ n ih =>
    intro t t1 idx hole b0 h h0
    rw [backShiftLoop] at h
    split at h
    · dsimp only at h
      split at h
      · cases h
      · simp only [Except.ok.injEq, Prod.mk.injEq] at h
        obtain ⟨h1, h2⟩ := h
        subst h1; subst h2
        exact ⟨rfl, rfl, rfl, rfl, rfl, fun _ => rfl, h0⟩
      · rename_i probe cand _
        split at h
        · cases h
        · rename_i t2 hmv
          obtain ⟨a1, a2, a3, a4, a5, a6, a7⟩ := backShiftMove_count t t2 idx cand probe b0 hmv h0
          obtain ⟨b1, b2, b3, b4, b5, b6, b7⟩ := ih t2 t1 cand hole b0 h a7
          exact ⟨by rw [b1, a1], by rw [b2, a2], by rw [b3, a3], by rw [b4, a4], by rw [b5, a5],
            fun P => by rw [b6 P, a6 P], b7⟩
    · cases h

theorem deleteFound_count (hasher : Key → Nat) (t : Table) (key : Key) (t' : Table)
    (r : Option Nat) (hc : countOK t) (h : deleteFound hasher t key = .ok (t', r)) :
    countOK t' ∧ (r = none → t' = t) ∧
      (r ≠ none → ∀ q : Token → Bool, (∀ x, q x = true → x.isLive = true) →
        List.countP (fun b => q b.tok) t'.buckets + (if q (Token.live key) = true then 1 else 0)
          = List.countP (fun b => q b.tok) t.buckets) := by
  unfold deleteFound at h
  split at h
  · cases h
  · simp only [Except.ok.injEq, Prod.mk.injEq] at h
    obtain ⟨h1, h2⟩ := h
    subst h1; subst h2
    exact ⟨hc, fun _ => rfl, fun hn => absurd rfl hn⟩
  · rename_i idx hs
    obtain ⟨b0, hb0, hk0⟩ := searchLoop_sound t key _ _ _ _ hs
    split at h
    · cases h
    · rename_i record_probe _
      dsimp only at h
      split at h
      · cases h
      · rename_i lp _
        split at h
        · cases h
        · rename_i t1 hole hbs
          split at h
          · cases h
          · rename_i b hb
            simp only [Except.ok.injEq, Prod.mk.injEq] at h
            obtain ⟨h1, h2⟩ := h
            subst h1; subst h2
            obtain ⟨a1, a2, a3, a4, a5, a6, a7⟩ :=
              backShiftLoop_count hasher _ _ t1 idx hole b0 hbs hb0
            have hget := readBucket_get _ _ _ hb
            rw [a7] at hget
            simp only [Option.some.injEq] at hget
            subst hget
            have hlive0 : b0.tok.isLive = true := by rw [hk0]; rfl
            have hl : liveCount (t1.buckets.set hole ⟨.tombstone, b0.val⟩) + 1
                = liveCount t1.buckets := by
              have := liveCount_set t1.buckets hole ⟨.tombstone, b0.val⟩ b0 a7
              rw [hlive0] at this
              simpa [Token.isLive] using this
            have hl1 : liveCount t1.buckets = liveCount t.buckets := by
              rw [liveCount_eq_countP, liveCount_eq_countP]; exact a6 _
            have hpos : 0 < liveCount t.buckets := by omega
            refine ⟨?_, (fun hn => by cases hn), fun _ q hq => ?_⟩
            · refine countOK_of t _ hc ?_ ?_ ?_ ?_ ?_
              · exact a2
              · exact a3
              · exact a4
              · simp only [List.length_set]; exact a5
              · show t1.objcnt = liveCount (t1.buckets.set hole ⟨.tombstone, b0.val⟩) % W64
                rw [a1]
                show (t.objcnt + W64 - 1) % W64 = _
                rw [hc.1, mod_pred_W64 _ hpos]
                congr 1
                omega
            · have e := countP_set (fun b => q b.tok) t1.buckets hole ⟨.tombstone, b0.val⟩ b0 a7
              have e6 : List.countP (fun b => q b.tok) t1.buckets
                  = List.countP (fun b => q b.tok) t.buckets := a6 _
              have hqt : q Token.tombstone = false := by
                cases hqq : q Token.tombstone with
                | false => rfl
                | true =>
                  have := hq _ hqq
                  simp [Token.isLive] at this
              dsimp only at e
              rw [hqt, hk0] at e
              simp only [Bool.false_eq_true, if_false, add_zero] at e
              show List.countP (fun b => q b.tok) (t1.buckets.set hole ⟨.tombstone, b0.val⟩) + _ = _
              rw [← e6]
              omega

theorem entryUp_count (hasher : Key → Nat) (alloc : Nat → Bool) (fuel : Nat) (t t0 : Table)
    (s : Bool) (c : Prop) [Decidable c] (hc : countOK t)
    (h : (if c then PRHHSizeUp hasher alloc fuel t else .ok (t, true)) = .ok (t0, s)) :
    countOK t0 ∧ ∀ P : Bucket → Bool, (∀ x, P x = true → x.tok.isLive = true) →
      List.countP P t0.buckets = List.countP P t.buckets := by
  split at h
  · exact sizeUp_count hasher alloc fuel t t0 s hc h
  · simp only [Except.ok.injEq, Prod.mk.injEq] at h
    rw [← h.1]
    exact ⟨hc, fun _ _ => rfl⟩

theorem entryDown_count (hasher : Key → Nat) (alloc : Nat → Bool) (fuel : Nat) (t t0 : Table)
    (s : Bool) (c : Prop) [Decidable c] (hc : countOK t)
    (h : (if c then PRHHSizeDown hasher alloc fuel t else .ok (t, true)) = .ok (t0, s)) :
    countOK t0 ∧ ∀ P : Bucket → Bool, (∀ x, P x = true → x.tok.isLive = true) →
      List.countP P t0.buckets = List.countP P t.buckets := by
  split at h
  · exact sizeDown_count hasher alloc fuel t t0 s hc h
  · simp only [Except.ok.injEq, Prod.mk.injEq] at h
    rw [← h.1]
    exact ⟨hc, fun _ _ => rfl⟩

theorem tokPred_live (q : Token → Bool) (hq : ∀ x, q x = true → x.isLive = true) :
    ∀ x : Bucket, (fun b : Bucket => q b.tok) x = true → x.tok.isLive = true :=
  fun x hx => hq x.tok hx

theorem keyCopies_pos (bs : List Bucket) (key : Key) (m : Nat) (b : Bucket)
    (hb : bs[m]? = some b) (hk : b.tok = Token.live key) : 0 < keyCopies bs key := by
  rw [keyCopies_eq_countP, List.countP_pos_iff]
  exact ⟨b, List.getElem?_mem hb, by simp [hk]⟩

/-- Writing a live record over a bucket that is not live, on a table whose
`objcnt` already counts it. -/
theorem countOK_fill (t1 : Table) (m : Nat) (b nb : Bucket)
    (hslab : t1.buckets.length = slabLen (bucket_size t1) ((bucket_size t1 * PRHHCapacity t1) % W64))
    (hb : t1.buckets[m]? = some b) (hbl : b.tok.isLive = false) (hnl : nb.tok.isLive = true)
    (hobj : t1.objcnt = (liveCount t1.buckets + 1) % W64) :
    countOK { t1 with buckets := t1.buckets.set m nb } := by
  refine ⟨?_, ?_⟩
  · show t1.objcnt = liveCount (t1.buckets.set m nb) % W64
    have := liveCount_set t1.buckets m nb b hb
    rw [hbl, hnl] at this
    simp at this
    rw [hobj, this]
  · show (t1.buckets.set m nb).length = _
    rw [List.length_set]
    exact hslab

/-- Writing a live record over a live one. -/
theorem countOK_over (t1 : Table) (m : Nat) (b nb : Bucket)
    (hslab : t1.buckets.length = slabLen (bucket_size t1) ((bucket_size t1 * PRHHCapacity t1) % W64))
    (hb : t1.buckets[m]? = some b) (hbl : b.tok.isLive = true) (hnl : nb.tok.isLive = true)
    (hobj : t1.objcnt = liveCount t1.buckets % W64) :
    countOK { t1 with buckets := t1.buckets.set m nb } := by
  refine ⟨?_, ?_⟩
  · show t1.objcnt = liveCount (t1.buckets.set m nb) % W64
    have := liveCount_set t1.buckets m nb b hb
    rw [hbl, hnl] at this
    simp at this
    rw [hobj, this]
  · show (t1.buckets.set m nb).length = _
    rw [List.length_set]
    exact hslab

theorem insert_count (hasher : Key → Nat) (alloc : Nat → Bool) (fuel : Nat) (t : Table)
    (key : Key) (val : Val) (t' : Table) (r : Bool) (hc : countOK t)
    (h : PRHHInsertCustom hasher alloc fuel t key val = .ok (t', r)) :
    countOK t' ∧ (r = false → t' = t) ∧
      (r = true →
        (∀ q : Token → Bool, (∀ x, q x = true → x.isLive = true) →
          List.countP (fun b => q b.tok) t'.buckets
            = List.countP (fun b => q b.tok) t.buckets
              + (if q (Token.live key) = true then 1 else 0)) ∨
        (0 < keyCopies t.buckets key ∧
          ∀ q : Token → Bool, (∀ x, q x = true → x.isLive = true) →
            List.countP (fun b => q b.tok) t'.buckets
              = List.countP (fun b => q b.tok) t.buckets)) := by
  unfold PRHHInsertCustom at h
  split at h
  · cases h
  · rename_i t0 hentry
    simp only [Except.ok.injEq, Prod.mk.injEq] at h
    obtain ⟨h1, h2⟩ := h
    subst h1; subst h2
    have := entryUp_false hasher alloc fuel t t0 _ hentry
    subst this
    exact ⟨hc, fun _ => rfl, fun hh => by cases hh⟩
  · rename_i t0 hentry
    obtain ⟨hc0, hk0⟩ := entryUp_count hasher alloc fuel t t0 true _ hc hentry
    split at h
    · cases h
    · -- UPSERT_EMPTY
      rename_i t1 m _ hnk
      obtain ⟨a, hslab, b, hb, hE, _, _⟩ := newKey_count hasher alloc key _ _ _ _ _ _ _ _ hc0 hnk
      obtain ⟨hbl, hobj⟩ := hE rfl
      simp only [Except.ok.injEq, Prod.mk.injEq] at h
      obtain ⟨h1, h2⟩ := h
      subst h1; subst h2
      refine ⟨countOK_fill t1 m b _ hslab hb hbl rfl hobj, (fun hh => by cases hh), fun _ => ?_⟩
      left
      intro q hq
      have e := countP_set (fun b => q b.tok) t1.buckets m ⟨.live key, val.take t1.valsize⟩ b hb
      have hqb : q b.tok = false := by
        cases hqq : q b.tok with
        | false => rfl
        | true => have := hq _ hqq; rw [hbl] at this; cases this
      dsimp only at e
      rw [hqb] at e
      simp only [Bool.false_eq_true, if_false, add_zero] at e
      show List.countP (fun b => q b.tok) (t1.buckets.set m _) = _
      rw [e, a _ (tokPred_live q hq), hk0 _ (tokPred_live q hq)]
    · -- UPSERT_DUP
      rename_i t1 m _ hnk
      obtain ⟨a, hslab, b, hb, _, hD, _⟩ := newKey_count hasher alloc key _ _ _ _ _ _ _ _ hc0 hnk
      obtain ⟨hbk, hobj⟩ := hD rfl
      split at h
      · cases h
      · rename_i b' hb'
        have hg := readBucket_get _ _ _ hb'
        rw [hb] at hg
        simp only [Option.some.injEq] at hg
        subst hg
        simp only [Except.ok.injEq, Prod.mk.injEq] at h
        obtain ⟨h1, h2⟩ := h
        subst h1; subst h2
        have hbl : b.tok.isLive = true := by rw [hbk]; rfl
        refine ⟨countOK_over t1 m b _ hslab hb hbl hbl hobj, (fun hh => by cases hh), fun _ => ?_⟩
        right
        constructor
        · have hpos := keyCopies_pos t1.buckets key m b hb hbk
          rw [keyCopies_eq_countP] at hpos ⊢
          have e1 := a (fun b => decide (b.tok = Token.live key))
            (fun x hx => by simp at hx; rw [hx]; rfl)
          have e2 := hk0 (fun b => decide (b.tok = Token.live key))
            (fun x hx => by simp at hx; rw [hx]; rfl)
          omega
        · intro q hq
          have e := countP_set (fun b => q b.tok) t1.buckets m ⟨b.tok, val.take t1.valsize⟩ b hb
          dsimp only at e
          show List.countP (fun b => q b.tok) (t1.buckets.set m _) = _
          rw [← hk0 _ (tokPred_live q hq), ← a _ (tokPred_live q hq)]
          omega
    · -- UPSERT_PUSHDOWN
      rename_i t1 m probe hnk
      obtain ⟨a, hslab, b, hb, _, _, hP⟩ := newKey_count hasher alloc key _ _ _ _ _ _ _ _ hc0 hnk
      obtain ⟨hbl, hobj⟩ := hP rfl
      split at h
      · cases h
      · rename_i b' hb'
        have hg := readBucket_get _ _ _ hb'
        rw [hb] at hg
        simp only [Option.some.injEq] at hg
        subst hg
        split at h
        · cases h
        · rename_i t2 _ hpd
          simp only [Except.ok.injEq, Prod.mk.injEq] at h
          obtain ⟨h1, h2⟩ := h
          subst h1; subst h2
          have hcw := countOK_over t1 m b ⟨.live key, val.take t1.valsize⟩ hslab hb hbl rfl hobj
          obtain ⟨hc2, hk2⟩ := pushDown_count hasher alloc _ _ _ _ _ _ _ _ _ _ hcw hpd
          refine ⟨hc2, (fun hh => by cases hh), fun _ => ?_⟩
          left
          intro q hq
          have e := countP_set (fun b => q b.tok) t1.buckets m ⟨.live key, val.take t1.valsize⟩ b hb
          have e2 := hk2 _ (tokPred_live q hq)
          dsimp only at e e2
          rw [e2, ← hk0 _ (tokPred_live q hq), ← a _ (tokPred_live q hq)]
          omega

theorem upsert_count (hasher : Key → Nat) (alloc : Nat → Bool) (fuel : Nat) (t : Table)
    (key : Key) (t' : Table) (out : UpsertOut) (hc : countOK t)
    (h : PRHHUpsertCustom hasher alloc fuel t key = .ok (t', out)) :
    countOK t' ∧ (out.ok = false → t' = t) ∧
      (out.ok = true →
        (∀ q : Token → Bool, (∀ x, q x = true → x.isLive = true) →
          List.countP (fun b => q b.tok) t'.buckets
            = List.countP (fun b => q b.tok) t.buckets
              + (if q (Token.live key) = true then 1 else 0)) ∨
        (0 < keyCopies t.buckets key ∧
          ∀ q : Token → Bool, (∀ x, q x = true → x.isLive = true) →
            List.countP (fun b => q b.tok) t'.buckets
              = List.countP (fun b => q b.tok) t.buckets)) := by
  unfold PRHHUpsertCustom at h
  split at h
  · cases h
  · rename_i t0 hentry
    simp only [Except.ok.injEq, Prod.mk.injEq] at h
    obtain ⟨h1, h2⟩ := h
    subst h1; subst h2
    have := entryUp_false hasher alloc fuel t t0 _ hentry
    subst this
    exact ⟨hc, fun _ => rfl, fun hh => by cases hh⟩
  · rename_i t0 hentry
    obtain ⟨hc0, hk0⟩ := entryUp_count hasher alloc fuel t t0 true _ hc hentry
    split at h
    · cases h
    · -- UPSERT_DUP
      rename_i t1 m _ hnk
      obtain ⟨a, hslab, b, hb, _, hD, _⟩ := newKey_count hasher alloc key _ _ _ _ _ _ _ _ hc0 hnk
      obtain ⟨hbk, hobj⟩ := hD rfl
      simp only [Except.ok.injEq, Prod.mk.injEq] at h
      obtain ⟨h1, h2⟩ := h
      subst h1; subst h2
      refine ⟨⟨hobj, hslab⟩, (fun hh => by cases hh), fun _ => ?_⟩
      right
      constructor
      · have hpos := keyCopies_pos _ key m b hb hbk
        rw [keyCopies_eq_countP] at hpos ⊢
        have e1 := a (fun b => decide (b.tok = Token.live key))
          (fun x hx => by simp at hx; rw [hx]; rfl)
        have e2 := hk0 (fun b => decide (b.tok = Token.live key))
          (fun x hx => by simp at hx; rw [hx]; rfl)
        omega
      · intro q hq
        rw [a _ (tokPred_live q hq), hk0 _ (tokPred_live q hq)]
    · -- UPSERT_EMPTY
      rename_i t1 m _ hnk
      obtain ⟨a, hslab, b, hb, hE, _, _⟩ := newKey_count hasher alloc key _ _ _ _ _ _ _ _ hc0 hnk
      obtain ⟨hbl, hobj⟩ := hE rfl
      split at h
      · cases h
      · rename_i b' hb'
        have hg := readBucket_get _ _ _ hb'
        rw [hb] at hg
        simp only [Option.some.injEq] at hg
        subst hg
        simp only [Except.ok.injEq, Prod.mk.injEq] at h
        obtain ⟨h1, h2⟩ := h
        subst h1; subst h2
        refine ⟨countOK_fill t1 m b _ hslab hb hbl rfl hobj, (fun hh => by cases hh), fun _ => ?_⟩
        left
        intro q hq
        have e := countP_set (fun b => q b.tok) t1.buckets m ⟨.live key, b.val⟩ b hb
        have hqb : q b.tok = false := by
          cases hqq : q b.tok with
          | false => rfl
          | true => have := hq _ hqq; rw [hbl] at this; cases this
        dsimp only at e
        rw [hqb] at e
        simp only [Bool.false_eq_true, if_false, add_zero] at e
        show List.countP (fun b => q b.tok) (t1.buckets.set m _) = _
        rw [e, a _ (tokPred_live q hq), hk0 _ (tokPred_live q hq)]
    · -- UPSERT_PUSHDOWN
      rename_i t1 m probe hnk
      obtain ⟨a, hslab, b, hb, _, _, hP⟩ := newKey_count hasher alloc key _ _ _ _ _ _ _ _ hc0 hnk
      obtain ⟨hbl, hobj⟩ := hP rfl
      split at h
      · cases h
      · rename_i b' hb'
        have hg := readBucket_get _ _ _ hb'
        rw [hb] at hg
        simp only [Option.some.injEq] at hg
        subst hg
        have hcw := countOK_over t1 m b ⟨.live key, b.val⟩ hslab hb hbl rfl hobj
        have key_fact : ∀ (t2 : Table) (fl : Bool),
            PRHHUpsertPushDown hasher alloc fuel
              { t1 with buckets := t1.buckets.set m ⟨.live key, b.val⟩ }
              b probe (some m) 0 (List.replicate VISIT_IDX_CACHE 0) false = .ok (t2, fl) →
            countOK t2 ∧ ∀ q : Token → Bool, (∀ x, q x = true → x.isLive = true) →
              List.countP (fun b => q b.tok) t2.buckets
                = List.countP (fun b => q b.tok) t.buckets
                  + (if q (Token.live key) = true then 1 else 0) := by
          intro t2 fl hpd
          obtain ⟨hc2, hk2⟩ := pushDown_count hasher alloc _ _ _ _ _ _ _ _ _ _ hcw hpd
          refine ⟨hc2, fun q hq => ?_⟩
          have e := countP_set (fun b => q b.tok) t1.buckets m ⟨.live key, b.val⟩ b hb
          have e2 := hk2 _ (tokPred_live q hq)
          dsimp only at e e2
          rw [e2, ← hk0 _ (tokPred_live q hq), ← a _ (tokPred_live q hq)]
          omega
        split at h
        · cases h
        · rename_i t2 hpd
          simp only [Except.ok.injEq, Prod.mk.injEq] at h
          obtain ⟨h1, h2⟩ := h
          subst h1; subst h2
          obtain ⟨hc2, hk2⟩ := key_fact _ _ hpd
          exact ⟨hc2, (fun hh => by cases hh), fun _ => Or.inl hk2⟩
        · rename_i t2 hpd
          split at h
          · cases h
          · simp only [Except.ok.injEq, Prod.mk.injEq] at h
            obtain ⟨h1, h2⟩ := h
            subst h1; subst h2
            obtain ⟨hc2, hk2⟩ := key_fact _ _ hpd
            exact ⟨hc2, (fun hh => by cases hh), fun _ => Or.inl hk2⟩

theorem delete_count (hasher : Key → Nat) (alloc : Nat → Bool) (fuel : Nat) (t : Table)
    (key : Key) (t' : Table) (r : Option Nat) (hc : countOK t)
    (h : PRHHDeleteCustom hasher alloc fuel t key = .ok (t', r)) :
    countOK t' ∧
      (r = none → ∀ q : Token → Bool, (∀ x, q x = true → x.isLive = true) →
        List.countP (fun b => q b.tok) t'.buckets = List.countP (fun b => q b.tok) t.buckets) ∧
      (r ≠ none → ∀ q : Token → Bool, (∀ x, q x = true → x.isLive = true) →
        List.countP (fun b => q b.tok) t'.buckets + (if q (Token.live key) = true then 1 else 0)
          = List.countP (fun b => q b.tok) t.buckets) := by
  unfold PRHHDeleteCustom at h
  split at h
  · cases h
  · rename_i t0 hentry
    simp only [Except.ok.injEq, Prod.mk.injEq] at h
    obtain ⟨h1, h2⟩ := h
    subst h1; subst h2
    have := entryDown_false hasher alloc fuel t t0 _ hentry
    subst this
    exact ⟨hc, fun _ _ _ => rfl, fun hh => absurd rfl hh⟩
  · rename_i t0 hentry
    obtain ⟨hc0, hk0⟩ := entryDown_count hasher alloc fuel t t0 true _ hc hentry
    obtain ⟨a, b, c⟩ := deleteFound_count hasher t0 key t' r hc0 h
    refine ⟨a, fun hn q hq => ?_, fun hn q hq => ?_⟩
    · rw [b hn, hk0 _ (tokPred_live q hq)]
    · rw [c hn q hq, hk0 _ (tokPred_live q hq)]

theorem dblToU64_lt (x : Nat × Nat) (r : Nat) (h : dblToU64 x = .ok r) : r < W64 := by
  unfold dblToU64 at h
  split at h
  · simp only [Except.ok.injEq] at h
    rw [← h]; assumption
  · cases h

theorem new_countOK (alloc : Nat → Bool) (num_objects load_num load_den valsize : Nat)
    (t : Table) (h : PRHHNew alloc num_objects load_num load_den valsize = .ok (some t)) :
    countOK t := by
  unfold PRHHNew at h
  dsimp only at h
  split at h
  · split at h
    · cases h
    · rename_i r hr
      have hr64 := dblToU64_lt _ _ hr
      generalize hcdef : (if r < 8 then 8 else r) = c at h
      have hc8 : 8 ≤ c := by rw [← hcdef]; split <;> omega
      have hc64 : c < 2 ^ 64 := by
        rw [← hcdef]; unfold W64 at hr64; split <;> omega
      obtain ⟨hb1, hb2⟩ := bitLength_bounds 64 c hc64 (by omega)
      have hble := bitLength_le 64 c
      have hmsb : 64 - clzl c = bitLength 64 c := by unfold clzl; omega
      have hm4 : 4 ≤ bitLength 64 c := by
        by_contra hcon
        have : 2 ^ bitLength 64 c ≤ 2 ^ 3 := Nat.pow_le_pow_right (by norm_num) (by omega)
        omega
      rw [hmsb] at h
      generalize hbdef : bitLength 64 c = b at h hb1 hb2 hble hmsb hm4
      have hdpos : 0 < 2 ^ (b - 4) := by positivity
      obtain ⟨hce1, hce2⟩ := ceil_mul_least c (2 ^ (b - 4)) hdpos
      have hsplit : 2 ^ b = 2 ^ (b - 4) * 16 := by
        rw [show (16:Nat) = 2 ^ 4 by norm_num, ← Nat.pow_add]; congr 1; omega
      have hms16 : round_up_div c (2 ^ (b - 4)) ≤ 16 := by
        have := hce2 (2 ^ b) ⟨16, hsplit⟩ (by omega)
        rw [hsplit] at this
        exact Nat.le_of_mul_le_mul_left this hdpos
      have e2 : round_up_div c (2 ^ (b - 4)) % 2 ^ 32 = round_up_div c (2 ^ (b - 4)) :=
        Nat.mod_eq_of_lt (by omega)
      rw [e2] at h
      split at h
      · split at h
        · split at h
          · cases h
          · simp only [Except.ok.injEq, Option.some.injEq] at h
            subst h
            constructor
            · show 0 = liveCount (List.replicate _ _) % W64
              rw [liveCount_eq_countP, countP_replicate_zero _ (fun x hx => hx), Nat.zero_mod]
            · simp only [List.length_replicate]
              unfold bucket_size PRHHCapacity PRHHCapacityInternal
              simp only
              have e1 : clzl c % 256 = 64 - b := by
                unfold clzl; rw [Nat.mod_eq_of_lt (by omega)]; omega
              have e5 : round_up_div c (2 ^ (b - 4)) % 256 = round_up_div c (2 ^ (b - 4)) :=
                Nat.mod_eq_of_lt (by omega)
              have e3 : 64 - (64 - b) - 4 = b - 4 := by omega
              rw [e1, e5, e3, Nat.mul_comm (2 ^ (b - 4))]
        · simp at h
      · simp at h
  · cases h

theorem reached_countOK (hasher : Key → Nat) (t : Table) (h : reachedByOps hasher t) :
    countOK t := by
  induction h with
  | fresh alloc n ln ld vs t hnew => exact new_countOK alloc n ln ld vs t hnew
  | insert alloc fuel t key val t' r _ hop ih =>
    exact (insert_count hasher alloc fuel t key val t' r ih hop).1
  | upsert alloc fuel t key t' out _ hop ih =>
    exact (upsert_count hasher alloc fuel t key t' out ih hop).1
  | delete alloc fuel t key t' r _ hop ih =>
    exact (delete_count hasher alloc fuel t key t' r ih hop).1

theorem liveCount_le_length (bs : List Bucket) : liveCount bs ≤ bs.length := by
  unfold liveCount
  exact List.length_filter_le _ _

theorem capacity_lt_W64 (t : Table) : PRHHCapacity t < W64 := by
  unfold PRHHCapacity PRHHCapacityInternal
  exact Nat.mod_lt _ (by unfold W64; positivity)

/-- In a count-consistent table `objcnt` is the number of live buckets, and
this is at most the capacity. -/
theorem countOK_objcnt (t : Table) (h : countOK t) :
    t.objcnt = liveCount t.buckets ∧ liveCount t.buckets ≤ PRHHCapacity t := by
  have h1 := liveCount_le_length t.buckets
  have h2 := slab_le_capacity t h
  have h3 := capacity_lt_W64 t
  refine ⟨?_, by omega⟩
  rw [h.1]
  exact Nat.mod_eq_of_lt (by omega)

theorem insertPairs_count (hasher : Key → Nat) (alloc : Nat → Bool) (fuel : Nat) :
    ∀ (kvs : List (Key × Val)) (t tI : Table), countOK t →
      (∀ k ∈ kvs.map Prod.fst, keyCopies t.buckets k = 0) → (kvs.map Prod.fst).Nodup →
      insertPairs hasher alloc fuel kvs t = .ok (tI, true) →
      countOK tI ∧ ∀ q : Token → Bool, (∀ x, q x = true → x.isLive = true) →
        List.countP (fun b => q b.tok) tI.buckets
          = List.countP (fun b => q b.tok) t.buckets
            + List.countP (fun k => q (Token.live k)) (kvs.map Prod.fst) := by
  intro kvs
  induction kvs with
  | nil =>
    intro t tI hc _ _ h
    simp only [insertPairs, Except.ok.injEq, Prod.mk.injEq] at h
    rw [← h.1]
    exact ⟨hc, fun q _ => by simp⟩
  | cons kv rest ih =>
    intro t tI hc habs hnd h
    rw [insertPairs] at h
    split at h
    · cases h
    · rename_i t1 hins
      obtain ⟨hc1, _, hcase⟩ := insert_count hasher alloc fuel t kv.1 kv.2 t1 true hc hins
      have h0 : keyCopies t.buckets kv.1 = 0 := habs kv.1 (by simp)
      have hadd : ∀ q : Token → Bool, (∀ x, q x = true → x.isLive = true) →
          List.countP (fun b => q b.tok) t1.buckets
            = List.countP (fun b => q b.tok) t.buckets
              + (if q (Token.live kv.1) = true then 1 else 0) := by
        rcases hcase rfl with hl | hr
        · exact hl
        · omega
      simp only [List.map_cons, List.nodup_cons] at hnd
      have habs1 : ∀ k ∈ rest.map Prod.fst, keyCopies t1.buckets k = 0 := by
        intro k hk
        have hne : k ≠ kv.1 := fun he => hnd.1 (he ▸ hk)
        have e := hadd (fun x => decide (x = Token.live k)) (fun x hx => by
          simp at hx; rw [hx]; rfl)
        have e0 := habs k (by simp [hk])
        rw [keyCopies_eq_countP] at e0 ⊢
        rw [e, e0]
        have : ¬ (Token.live kv.1 = Token.live k) := fun hh => by
          injection hh with hh'; exact hne hh'.symm
        simp [this]
      obtain ⟨hcI, hI⟩ := ih t1 tI hc1 habs1 hnd.2 h
      refine ⟨hcI, fun q hq => ?_⟩
      rw [hI q hq, hadd q hq, List.map_cons, List.countP_cons]
      omega
    · simp only [Except.ok.injEq, Prod.mk.injEq] at h
      exact absurd h.2 (by simp)

theorem deleteKeys_count (hasher : Key → Nat) (alloc : Nat → Bool) (fuel : Nat) :
    ∀ (ks : List Key) (t tD : Table) (slots : List (Option Nat)), countOK t →
      deleteKeys hasher alloc fuel ks t = .ok (tD, slots) → (∀ s ∈ slots, s ≠ none) →
      countOK tD ∧ ∀ q : Token → Bool, (∀ x, q x = true → x.isLive = true) →
        List.countP (fun b => q b.tok) tD.buckets
            + List.countP (fun k => q (Token.live k)) ks
          = List.countP (fun b => q b.tok) t.buckets := by
  intro ks
  induction ks with
  | nil =>
    intro t tD slots hc h _
    simp only [deleteKeys, Except.ok.injEq, Prod.mk.injEq] at h
    rw [← h.1]
    exact ⟨hc, fun q _ => by simp⟩
  | cons k rest ih =>
    intro t tD slots hc h hall
    rw [deleteKeys] at h
    split at h
    · cases h
    · rename_i t1 slot hdel
      split at h
      · cases h
      · rename_i t2 slots2 hrest
        simp only [Except.ok.injEq, Prod.mk.injEq] at h
        obtain ⟨h1, h2⟩ := h
        subst h1; subst h2
        obtain ⟨hc1, _, hsome⟩ := delete_count hasher alloc fuel t k t1 slot hc hdel
        have hs : slot ≠ none := hall slot (by simp)
        obtain ⟨hcD, hD⟩ := ih t1 t2 slots2 hc1 hrest (fun s hs' => hall s (by simp [hs']))
        refine ⟨hcD, fun q hq => ?_⟩
        have e1 := hsome hs q hq
        have e2 := hD q hq
        rw [List.countP_cons]
        omega

theorem iterateLoop_calls (valsize : Nat) :
    ∀ (bs : List Bucket) (n : Nat) (calls : List (Key × Val × Nat × Nat)),
      iterateLoop valsize bs n = .ok calls → calls = liveCalls valsize (bs.take n) := by
  intro bs
  induction bs with
  | nil =>
    intro n calls h
    cases n with
    | zero => simp only [iterateLoop, Except.ok.injEq] at h; rw [← h]; rfl
    | succ n => simp [iterateLoop] at h
  | cons b rest ih =>
    intro n calls h
    cases n with
    | zero => simp only [iterateLoop, Except.ok.injEq] at h; rw [← h]; rfl
    | succ n =>
      rw [iterateLoop] at h
      cases hc : iterateLoop valsize rest n with
      | error e => rw [hc] at h; cases h
      | ok c =>
        have hcc := ih n c hc
        rw [hc] at h
        rw [List.take_succ_cons]
        cases htok : b.tok with
        | live k =>
          have h2 : (Except.ok ((k, b.val, k.length, valsize) :: c)
              : Except Fault (List (Key × Val × Nat × Nat))) = Except.ok calls := by
            rw [htok] at h; exact h
          simp only [Except.ok.injEq] at h2
          rw [← h2, hcc]
          simp [liveCalls, htok]
        | empty =>
          have h2 : (Except.ok c : Except Fault (List (Key × Val × Nat × Nat)))
              = Except.ok calls := by
            rw [htok] at h; exact h
          simp only [Except.ok.injEq] at h2
          rw [← h2, hcc]
          simp [liveCalls, htok]
        | tombstone =>
          have h2 : (Except.ok c : Except Fault (List (Key × Val × Nat × Nat)))
              = Except.ok calls := by
            rw [htok] at h; exact h
          simp only [Except.ok.injEq] at h2
          rw [← h2, hcc]
          simp [liveCalls, htok]

theorem iterateLoop_total (valsize : Nat) :
    ∀ (bs : List Bucket) (n : Nat), n ≤ bs.length →
      ∃ calls, iterateLoop valsize bs n = .ok calls := by
  intro bs
  induction bs with
  | nil =>
    intro n hn
    have : n = 0 := by simpa using hn
    subst this
    exact ⟨[], rfl⟩
  | cons b rest ih =>
    intro n hn
    cases n with
    | zero => exact ⟨[], rfl⟩
    | succ n =>
      obtain ⟨c, hc⟩ := ih n (by simpa using hn)
      rw [iterateLoop, hc]
      dsimp only
      cases b.tok with
      | live k => exact ⟨_, rfl⟩
      | empty => exact ⟨_, rfl⟩
      | tombstone => exact ⟨_, rfl⟩

theorem liveCalls_count (valsize : Nat) (q : Token → Bool)
    (hq : ∀ x, q x = true → x.isLive = true) :
    ∀ bs : List Bucket,
      List.countP (fun c => q (Token.live c.1)) (liveCalls valsize bs)
        = List.countP (fun b => q b.tok) bs := by
  intro bs
  induction bs with
  | nil => rfl
  | cons b rest ih =>
    unfold liveCalls at ih ⊢
    rw [List.filterMap_cons, List.countP_cons]
    cases htok : b.tok with
    | live k =>
      simp only [List.countP_cons]
      rw [ih]
    | empty =>
      simp only
      rw [ih]
      have : q Token.empty = false := by
        cases hqq : q Token.empty with
        | false => rfl
        | true => have := hq _ hqq; cases this
      simp [this]
    | tombstone =>
      simp only
      rw [ih]
      have : q Token.tombstone = false := by
        cases hqq : q Token.tombstone with
        | false => rfl
        | true => have := hq _ hqq; cases this
      simp [this]

theorem liveCalls_length (valsize : Nat) (bs : List Bucket) :
    (liveCalls valsize bs).length = liveCount bs := by
  have := liveCalls_count valsize Token.isLive (fun _ h => h) bs
  rw [liveCount_eq_countP, ← this]
  symm
  rw [List.countP_eq_length]
  intro c _
  rfl

/-- `PRHHIterate` on a count-consistent table: the callbacks are those of the
live buckets of the slab, in bucket order, and the call returns whenever the
slab size did not wrap. -/
theorem iterate_calls (t : Table) (hc : countOK t) :
    (∀ calls, PRHHIterate t = .ok calls → calls = liveCalls t.valsize t.buckets) ∧
      (bucket_size t * PRHHCapacity t < W64 →
        PRHHIterate t = .ok (liveCalls t.valsize t.buckets)) := by
  have hle := slab_le_capacity t hc
  constructor
  · intro calls h
    have := iterateLoop_calls t.valsize t.buckets (PRHHCapacity t) calls h
    rw [List.take_of_length_le hle] at this
    exact this
  · intro hfit
    have hlen : t.buckets.length = PRHHCapacity t := by
      rw [hc.2, Nat.mod_eq_of_lt hfit]
      unfold slabLen bucket_size
      exact Nat.mul_div_cancel_left _ (by omega)
    obtain ⟨calls, h⟩ := iterateLoop_total t.valsize t.buckets (PRHHCapacity t) (by omega)
    have := iterateLoop_calls t.valsize t.buckets (PRHHCapacity t) calls h
    rw [List.take_of_length_le hle] at this
    unfold PRHHIterate
    rw [h, this]

theorem reached_runOps (hasher : Key → Nat) (alloc : Nat → Bool) (fuel : Nat) :
    ∀ (ops : List Op) (t t' : Table), reachedByOps hasher t →
      runOps hasher alloc fuel ops t = .ok t' → reachedByOps hasher t' := by
  intro ops
  induction ops with
  | nil =>
    intro t t' hr h
    simp only [runOps, Except.ok.injEq] at h
    rw [← h]; exact hr
  | cons op rest ih =>
    intro t t' hr h
    cases op with
    | ins k v =>
      rw [runOps] at h
      split at h
      · rename_i t1 hop
        exact ih t1 t' (reachedByOps.insert alloc fuel t k v t1 true hr hop) h
      · cases h
      · cases h
    | ups k =>
      rw [runOps] at h
      split at h
      · rename_i t1 vr dup hop
        exact ih t1 t' (reachedByOps.upsert alloc fuel t k t1 _ hr hop) h
      · cases h
      · cases h
    | del k =>
      rw [runOps] at h
      split at h
      · rename_i t1 slot hop
        exact ih t1 t' (reachedByOps.delete alloc fuel t k t1 slot hr hop) h
      · cases h

theorem reached_runFresh (hasher : Key → Nat) (fuel num_objects load_num load_den valsize : Nat)
    (ops : List Op) (t : Table)
    (h : runFresh hasher fuel num_objects load_num load_den valsize ops = .ok t) :
    reachedByOps hasher t := by
  unfold runFresh at h
  split at h
  · rename_i t0 hnew
    exact reached_runOps hasher allocAll fuel ops t0 t
      (reachedByOps.fresh allocAll num_objects load_num load_den valsize t0 hnew) h
  · cases h
  · cases h

theorem keyCopies_le_liveCount (bs : List Bucket) (k : Key) : keyCopies bs k ≤ liveCount bs := by
  rw [keyCopies_eq_countP, liveCount_eq_countP]
  apply List.countP_mono_left
  intro x _ hx
  simp only [decide_eq_true_eq] at hx
  rw [hx]; rfl

theorem countP_live_keys (ks : List Key) :
    List.countP (fun k => (Token.live k).isLive) ks = ks.length := by
  induction ks with
  | nil => rfl
  | cons a as ih => rw [List.countP_cons, ih]; simp [Token.isLive]

theorem countP_key_nodup (k : Key) :
    ∀ ks : List Key, ks.Nodup →
      List.countP (fun x => decide (Token.live x = Token.live k)) ks
        = if k ∈ ks then 1 else 0 := by
  intro ks
  induction ks with
  | nil => intro _; rfl
  | cons a as ih =>
    intro hnd
    rw [List.nodup_cons] at hnd
    rw [List.countP_cons, ih hnd.2]
    by_cases hak : a = k
    · subst hak
      simp [hnd.1]
    · have : ¬ (Token.live a = Token.live k) := fun hh => by
        injection hh with hh'; exact hak hh'
      have hka : ¬ (k = a) := fun hh => hak hh.symm
      simp [this, hka]

/-- The run of the "in particular" part of count consistency: distinct keys
inserted into a table without live buckets are each in exactly one live bucket,
and deletes of all of them that each return a slot leave no live bucket. -/
theorem distinct_run (hasher : Key → Nat) (t : Table) (hc : countOK t)
    (h0 : liveCount t.buckets = 0) (alloc : Nat → Bool) (fuel : Nat) (kvs : List (Key × Val))
    (tI : Table) (hnd : (kvs.map Prod.fst).Nodup)
    (hI : insertPairs hasher alloc fuel kvs t = .ok (tI, true)) :
    countOK tI ∧ liveCount tI.buckets = kvs.length ∧
      (∀ k, keyCopies tI.buckets k = if k ∈ kvs.map Prod.fst then 1 else 0) ∧
      ∀ (alloc2 : Nat → Bool) (fuel2 : Nat) (tD : Table) (slots : List (Option Nat)),
        deleteKeys hasher alloc2 fuel2 (kvs.map Prod.fst) tI = .ok (tD, slots) →
        (∀ s ∈ slots, s ≠ none) → countOK tD ∧ liveCount tD.buckets = 0 := by
  have habs : ∀ k ∈ kvs.map Prod.fst, keyCopies t.buckets k = 0 := by
    intro k _
    have := keyCopies_le_liveCount t.buckets k
    omega
  obtain ⟨hcI, hI2⟩ := insertPairs_count hasher alloc fuel kvs t tI hc habs hnd hI
  have hlive : liveCount tI.buckets = kvs.length := by
    have e := hI2 Token.isLive (fun _ h => h)
    rw [countP_live_keys, List.length_map] at e
    rw [liveCount_eq_countP]
    rw [liveCount_eq_countP] at h0
    omega
  refine ⟨hcI, hlive, fun k => ?_, ?_⟩
  · have e := hI2 (fun x => decide (x = Token.live k)) (fun x hx => by
      simp at hx; rw [hx]; rfl)
    have e0 : keyCopies t.buckets k = 0 := by
      have := keyCopies_le_liveCount t.buckets k
      omega
    rw [keyCopies_eq_countP] at e0 ⊢
    rw [e, e0, Nat.zero_add]
    exact countP_key_nodup k _ hnd
  · intro alloc2 fuel2 tD slots hD hall
    obtain ⟨hcD, hD2⟩ := deleteKeys_count hasher alloc2 fuel2 _ tI tD slots hcI hD hall
    refine ⟨hcD, ?_⟩
    have e := hD2 Token.isLive (fun _ h => h)
    rw [countP_live_keys, List.length_map] at e
    rw [liveCount_eq_countP] at hlive ⊢
    omega

/-- C7: count consistency. In every state reachable from `PRHHNew` by insert,
upsert and delete calls, `objcnt` equals the number of live buckets of the
slab. In particular, on a reachable table without live buckets, after
successful inserts of `N` distinct keys `objcnt` is `N`, and after deletes of
all of them that each return a slot `objcnt` is 0. -/
theorem C7_count_consistency (hasher : Key → Nat) (t : Table) (h : reachedByOps hasher t) :
    t.objcnt = liveCount t.buckets ∧
    (liveCount t.buckets = 0 →
      ∀ (alloc : Nat → Bool) (fuel : Nat) (kvs : List (Key × Val)) (tI : Table),
        (kvs.map Prod.fst).Nodup →
        insertPairs hasher alloc fuel kvs t = .ok (tI, true) →
        tI.objcnt = kvs.length ∧ liveCount tI.buckets = kvs.length ∧
        ∀ (alloc2 : Nat → Bool) (fuel2 : Nat) (tD : Table) (slots : List (Option Nat)),
          deleteKeys hasher alloc2 fuel2 (kvs.map Prod.fst) tI = .ok (tD, slots) →
          (∀ s ∈ slots, s ≠ none) →
          tD.objcnt = 0 ∧ liveCount tD.buckets = 0) := by
  have hc := reached_countOK hasher t h
  refine ⟨(countOK_objcnt t hc).1, ?_⟩
  intro h0 alloc fuel kvs tI hnd hI
  obtain ⟨hcI, hlive, _, hdel⟩ := distinct_run hasher t hc h0 alloc fuel kvs tI hnd hI
  refine ⟨by rw [(countOK_objcnt tI hcI).1, hlive], hlive, ?_⟩
  intro alloc2 fuel2 tD slots hD hall
  obtain ⟨hcD, hz⟩ := hdel alloc2 fuel2 tD slots hD hall
  exact ⟨by rw [(countOK_objcnt tD hcD).1, hz], hz⟩

/-- Witness for C7 on `tableZ`, the fresh table of
`PRHHNew(num_objects = 4, load = 1/2, valsize = 0)`. -/
theorem C7_count_consistency_witness :
    reachedByOps hasherL tableZ ∧
    (tableZ.objcnt = liveCount tableZ.buckets ∧
    (liveCount tableZ.buckets = 0 →
      ∀ (alloc : Nat → Bool) (fuel : Nat) (kvs : List (Key × Val)) (tI : Table),
        (kvs.map Prod.fst).Nodup →
        insertPairs hasherL alloc fuel kvs tableZ = .ok (tI, true) →
        tI.objcnt = kvs.length ∧ liveCount tI.buckets = kvs.length ∧
        ∀ (alloc2 : Nat → Bool) (fuel2 : Nat) (tD : Table) (slots : List (Option Nat)),
          deleteKeys hasherL alloc2 fuel2 (kvs.map Prod.fst) tI = .ok (tD, slots) →
          (∀ s ∈ slots, s ≠ none) →
          tD.objcnt = 0 ∧ liveCount tD.buckets = 0)) :=
  ⟨reachedByOps.fresh allocAll 4 1 2 0 tableZ (by decide),
    C7_count_consistency hasherL tableZ
      (reachedByOps.fresh allocAll 4 1 2 0 tableZ (by decide))⟩

/-- A run of the "in particular" part on `tableZ` under `hasherL`: the inserts
of keys 1, 2, 3 all return `true` and leave `objcnt` 3; the deletes of keys 1,
2, 3 return the slots 1, 2, 3 and leave `objcnt` 0; `PRHHIterate` then makes
no callback. -/
theorem distinct_run_example :
    (match insertPairs hasherL allocAll 100 [([1], []), ([2], []), ([3], [])] tableZ with
      | .ok (tI, ok) =>
        match deleteKeys hasherL allocAll 100 [[1], [2], [3]] tI with
        | .ok (tD, slots) =>
          match PRHHIterate tI, PRHHIterate tD with
          | .ok callsI, .ok callsD =>
            .ok ([tI.objcnt, tD.objcnt, callsI.length, callsD.length], ok, slots)
          | _, _ => .error .abort
        | .error e => .error e
      | .error e => .error e)
      = (.ok ([3, 0, 3, 0], true, [some 1, some 2, some 3]) :
          Except Fault (List Nat × Bool × List (Option Nat))) := by
  decide

/-- C15, amended: `objcnt` never exceeds the capacity. In every state reachable
from `PRHHNew` by insert, upsert and delete calls, `objcnt` is the number of
live buckets of a slab of at most `PRHHCapacity` buckets, so
`objcnt ≤ PRHHCapacity`. -/
theorem C15_objcnt_le_capacity (hasher : Key → Nat) (t : Table) (h : reachedByOps hasher t) :
    t.objcnt ≤ PRHHCapacity t ∧ t.objcnt = liveCount t.buckets ∧
      t.buckets.length ≤ PRHHCapacity t := by
  have hc := reached_countOK hasher t h
  obtain ⟨h1, h2⟩ := countOK_objcnt t hc
  exact ⟨by omega, h1, slab_le_capacity t hc⟩

/-- Witness for C15, amended, on `tableFull`: eight live records in eight
buckets, so the bound is attained. -/
theorem C15_objcnt_le_capacity_witness :
    reachedByOps hasherL tableFull ∧ tableFull.objcnt = 8 ∧ PRHHCapacity tableFull = 8 ∧
    (tableFull.objcnt ≤ PRHHCapacity tableFull ∧
      tableFull.objcnt = liveCount tableFull.buckets ∧
      tableFull.buckets.length ≤ PRHHCapacity tableFull) :=
  ⟨reached_runFresh hasherL 200 7 7 8 0
      [.ins [0] [], .ins [1] [], .ins [2] [], .ins [3] [], .ins [4] [], .ins [5] [],
      .ins [6] [], .ins [7] []] tableFull (by decide), by decide, by decide,
    C15_objcnt_le_capacity hasherL tableFull
      (reached_runFresh hasherL 200 7 7 8 0
      [.ins [0] [], .ins [1] [], .ins [2] [], .ins [3] [], .ins [4] [], .ins [5] [],
      .ins [6] [], .ins [7] []] tableFull (by decide))⟩

/-- C17: iteration. On every table reachable from `PRHHNew` by insert, upsert
and delete calls, the callbacks `PRHHIterate` makes are `liveCalls`: one for
each live bucket, in ascending bucket index, with that bucket's key bytes, key
length, value slot and `valsize`, and none for an EMPTY or TOMBSTONE bucket;
the call returns whenever the slab size did not wrap. In particular, on a
reachable table without live buckets, after successful inserts of distinct keys
the callbacks name each inserted key exactly once and no other key, and after
deletes of all of them that each return a slot the callback is not called. -/
theorem C17_iterate_live_buckets (hasher : Key → Nat) (t : Table)
    (h : reachedByOps hasher t) :
    (∀ calls, PRHHIterate t = .ok calls → calls = liveCalls t.valsize t.buckets) ∧
    (bucket_size t * PRHHCapacity t < W64 →
      PRHHIterate t = .ok (liveCalls t.valsize t.buckets)) ∧
    (liveCount t.buckets = 0 →
      ∀ (alloc : Nat → Bool) (fuel : Nat) (kvs : List (Key × Val)) (tI : Table),
        (kvs.map Prod.fst).Nodup →
        insertPairs hasher alloc fuel kvs t = .ok (tI, true) →
        (∀ calls, PRHHIterate tI = .ok calls →
          calls.length = kvs.length ∧
          ∀ k, List.countP (fun c => decide (c.1 = k)) calls
            = if k ∈ kvs.map Prod.fst then 1 else 0) ∧
        ∀ (alloc2 : Nat → Bool) (fuel2 : Nat) (tD : Table) (slots : List (Option Nat)),
          deleteKeys hasher alloc2 fuel2 (kvs.map Prod.fst) tI = .ok (tD, slots) →
          (∀ s ∈ slots, s ≠ none) →
          ∀ calls, PRHHIterate tD = .ok calls → calls = []) := by
  have hc := reached_countOK hasher t h
  refine ⟨(iterate_calls t hc).1, (iterate_calls t hc).2, ?_⟩
  intro h0 alloc fuel kvs tI hnd hI
  obtain ⟨hcI, hlive, hkeys, hdel⟩ := distinct_run hasher t hc h0 alloc fuel kvs tI hnd hI
  constructor
  · intro calls hcalls
    have e := (iterate_calls tI hcI).1 calls hcalls
    subst e
    refine ⟨by rw [liveCalls_length, hlive], fun k => ?_⟩
    rw [← hkeys k, keyCopies_eq_countP,
      ← liveCalls_count tI.valsize (fun x => decide (x = Token.live k))
        (fun x hx => by simp at hx; rw [hx]; rfl)]
    apply List.countP_congr
    intro c _
    simp
  · intro alloc2 fuel2 tD slots hD hall calls hcalls
    obtain ⟨hcD, hz⟩ := hdel alloc2 fuel2 tD slots hD hall
    have e := (iterate_calls tD hcD).1 calls hcalls
    subst e
    apply List.eq_nil_of_length_eq_zero
    rw [liveCalls_length, hz]

/-- Witness for C17 on `tableFull`: `PRHHIterate` makes eight callbacks. -/
theorem C17_iterate_live_buckets_witness :
    reachedByOps hasherL tableFull ∧
    PRHHIterate tableFull = .ok (liveCalls tableFull.valsize tableFull.buckets) ∧
    (liveCalls tableFull.valsize tableFull.buckets).length = 8 :=
  ⟨reached_runFresh hasherL 200 7 7 8 0
      [.ins [0] [], .ins [1] [], .ins [2] [], .ins [3] [], .ins [4] [], .ins [5] [],
      .ins [6] [], .ins [7] []] tableFull (by decide),
    (C17_iterate_live_buckets hasherL tableFull
      (reached_runFresh hasherL 200 7 7 8 0
      [.ins [0] [], .ins [1] [], .ins [2] [], .ins [3] [], .ins [4] [], .ins [5] [],
      .ins [6] [], .ins [7] []] tableFull (by decide))).2.1 (by decide),
    by decide⟩

theorem sameFrame_refl (t : Table) : sameFrame t t :=
  ⟨rfl, rfl, rfl, rfl, rfl, rfl, rfl⟩

theorem sameFrame_trans (t t1 t2 : Table) (h1 : sameFrame t t1) (h2 : sameFrame t1 t2) :
    sameFrame t t2 := by
  obtain ⟨a1, a2, a3, a4, a5, a6, a7⟩ := h1
  obtain ⟨b1, b2, b3, b4, b5, b6, b7⟩ := h2
  exact ⟨by rw [b1, a1], by rw [b2, a2], by rw [b3, a3], by rw [b4, a4], by rw [b5, a5],
    by rw [b6, a6], by rw [b7, a7]⟩

theorem sizeUpRequest_frame (t t' : Table) (h : sameFrame t t') :
    sizeUpRequest t' = sizeUpRequest t := by
  obtain ⟨a1, a2, a3, a4, _, _, _⟩ := h
  unfold sizeUpRequest sizeUpShape PRHHCapacity bucket_size
  rw [a1, a2, a3, a4]

theorem quietAt_frame (alloc : Nat → Bool) (t t' : Table) (h : sameFrame t t')
    (hq : quietAt alloc t) : quietAt alloc t' := by
  intro n hn
  rw [sizeUpRequest_frame t t' h] at hn
  exact hq n hn

theorem sizeUpWith_quiet (pd : Table → Bucket → Except Fault Table) (alloc : Nat → Bool)
    (t t1 : Table) (s : Bool) (hq : quietAt alloc t)
    (h : sizeUpWith pd alloc t = .ok (t1, s)) : t1 = t ∧ s = false := by
  unfold sizeUpWith at h
  cases hs : sizeUpShape t with
  | error e => rw [hs] at h; cases h
  | ok cm =>
    obtain ⟨c, m⟩ := cm
    rw [hs] at h
    have hreq : sizeUpRequest t = .ok ((bucket_size t * PRHHCapacityInternal c m) % W64) := by
      unfold sizeUpRequest; rw [hs]
    have hfalse := hq _ hreq
    have h2 : resizeTo pd alloc t c m = .ok (t1, s) := h
    unfold resizeTo at h2
    dsimp only at h2
    rw [hfalse] at h2
    simp only [Bool.false_eq_true, if_false, Except.ok.injEq, Prod.mk.injEq] at h2
    exact ⟨h2.1.symm, h2.2.symm⟩

theorem sizeUp_quiet (hasher : Key → Nat) (alloc : Nat → Bool) (fuel : Nat) (t t1 : Table)
    (s : Bool) (hq : quietAt alloc t) (h : PRHHSizeUp hasher alloc fuel t = .ok (t1, s)) :
    t1 = t ∧ s = false :=
  sizeUpWith_quiet _ alloc t t1 s hq h

/-- A walk on a table whose resize request is refused writes only `objcnt`,
`longest_probes`, the histogram and buckets. -/
theorem pushDown_frame (hasher : Key → Nat) (alloc : Nat → Bool) :
    ∀ (fuel : Nat) (t : Table) (cpy : Bucket) (probe : Nat) (avoid : Option Nat) (visit : Nat)
      (visited : List Nat) (resized : Bool) (t' : Table) (r : Bool),
      quietAt alloc t →
      PRHHUpsertPushDown hasher alloc fuel t cpy probe avoid visit visited resized = .ok (t', r) →
      sameFrame t t' := by
  intro fuel
  induction fuel with
  | zero =>
    intro t cpy probe avoid visit visited resized t' r _ h
    simp [PRHHUpsertPushDown] at h
  | succ fuel ih =>
    intro t cpy probe avoid visit visited resized t' r hq h
    rw [PRHHUpsertPushDown] at h
    cases hth : tokenHash hasher cpy.tok with
    | error e => rw [hth] at h; cases h
    | ok hk =>
      rw [hth] at h
      dsimp only at h
      split at h
      · split at h
        · cases h
        · rename_i t1 swapped hsz
          obtain ⟨e1, _⟩ := sizeUpWith_quiet _ alloc t t1 swapped hq hsz
          subst e1
          exact ih _ _ _ _ _ _ _ _ _ hq h
      · split at h
        · exact ih _ _ _ _ _ _ _ _ _ hq h
        · split at h
          · exact ih _ _ _ _ _ _ _ _ _ hq h
          · split at h
            · cases h
            · split at h
              · split at h
                · cases h
                · split at h
                  · split at h
                    · cases h
                    · split at h
                      · cases h
                      · refine sameFrame_trans t _ t' ?_ (ih _ _ _ _ _ _ _ _ _ ?_ h)
                        · exact ⟨rfl, rfl, rfl, rfl, rfl, rfl, by simp⟩
                        · exact quietAt_frame alloc t _
                            ⟨rfl, rfl, rfl, rfl, rfl, rfl, by simp⟩ hq
                  · exact ih _ _ _ _ _ _ _ _ _ hq h
              · simp only [Except.ok.injEq, Prod.mk.injEq] at h
                rw [← h.1]
                exact ⟨rfl, rfl, rfl, rfl, rfl, rfl, by simp [IncreaseProbeStat]⟩

theorem rehashLoop_frame (pd : Table → Bucket → Except Fault Table) (alloc : Nat → Bool)
    (hpd : ∀ t b t1, quietAt alloc t → pd t b = .ok t1 → sameFrame t t1) :
    ∀ (bs : List Bucket) (n : Nat) (t t' : Table), quietAt alloc t →
      rehashLoop pd bs n t = .ok t' → sameFrame t t' := by
  intro bs
  induction bs with
  | nil =>
    intro n t t' _ h
    cases n with
    | zero =>
      simp only [rehashLoop, Except.ok.injEq] at h
      rw [← h]; exact sameFrame_refl t
    | succ n => simp [rehashLoop] at h
  | cons b rest ih =>
    intro n t t' hq h
    cases n with
    | zero =>
      simp only [rehashLoop, Except.ok.injEq] at h
      rw [← h]; exact sameFrame_refl t
    | succ n =>
      rw [rehashLoop] at h
      split at h
      · split at h
        · cases h
        · rename_i t1 hp
          have hf := hpd t b t1 hq hp
          exact sameFrame_trans _ _ _ hf (ih n t1 t' (quietAt_frame alloc _ _ hf hq) h)
      · exact ih n t t' hq h

theorem rehashPushDown_frame (hasher : Key → Nat) (alloc : Nat → Bool) (fuel : Nat)
    (t : Table) (b : Bucket) (t1 : Table) (hq : quietAt alloc t)
    (h : rehashPushDown hasher alloc fuel t b = .ok t1) : sameFrame t t1 := by
  unfold rehashPushDown at h
  split at h
  · cases h
  · rename_i r hr
    simp only [Except.ok.injEq] at h
    subst h
    exact pushDown_frame hasher alloc _ _ _ _ _ _ _ _ _ _ hq hr

/-- A resize whose re-insertion walks get no further slab: the table handed
back has the chosen shape, the watermarks of the new capacity and a slab of the
requested size. -/
theorem resizeTo_frame (hasher : Key → Nat) (alloc : Nat → Bool) (fuel : Nat) (t t1 : Table)
    (c m : Nat) (hq : quietAt alloc { t with capacity_clz := c, capacity_ms4b := m })
    (h : resizeTo (rehashPushDown hasher alloc fuel) alloc t c m = .ok (t1, true)) :
    t1.capacity_clz = c ∧ t1.capacity_ms4b = m ∧ t1.valsize = t.valsize ∧
      t1.large_data_threshold = t.large_data_threshold ∧
      t1.objcnt_high = (PRHHCapacityInternal c m * 8 % W64) / 10 ∧
      t1.objcnt_low = (PRHHCapacityInternal c m * 2 % W64) / 10 ∧
      t1.buckets.length
        = slabLen (bucket_size t) ((bucket_size t * PRHHCapacityInternal c m) % W64) := by
  unfold resizeTo at h
  dsimp only at h
  split at h
  · cases hre : rehashLoop (rehashPushDown hasher alloc fuel) t.buckets (PRHHCapacity t)
        { t with
          objcnt := 0
          objcnt_high := (PRHHCapacityInternal c m * 8 % W64) / 10
          objcnt_low := (PRHHCapacityInternal c m * 2 % W64) / 10
          capacity_clz := c
          capacity_ms4b := m
          longest_probes := 0
          stats := List.replicate PROBE_STATS_SIZE 0
          buckets := List.replicate
            (slabLen (bucket_size t) ((bucket_size t * PRHHCapacityInternal c m) % W64))
            (zeroBucket t.valsize) } with
    | error e => rw [hre] at h; cases h
    | ok t2 =>
      rw [hre] at h
      simp only [Except.ok.injEq, Prod.mk.injEq] at h
      obtain ⟨h1, _⟩ := h
      subst h1
      have hq1 : quietAt alloc
          { t with
            objcnt := 0
            objcnt_high := (PRHHCapacityInternal c m * 8 % W64) / 10
            objcnt_low := (PRHHCapacityInternal c m * 2 % W64) / 10
            capacity_clz := c
            capacity_ms4b := m
            longest_probes := 0
            stats := List.replicate PROBE_STATS_SIZE 0
            buckets := List.replicate
              (slabLen (bucket_size t) ((bucket_size t * PRHHCapacityInternal c m) % W64))
              (zeroBucket t.valsize) } := by
        intro n hn
        exact hq n hn
      obtain ⟨a1, a2, a3, a4, a5, a6, a7⟩ :=
        rehashLoop_frame _ alloc (rehashPushDown_frame hasher alloc fuel) _ _ _ _ hq1 hre
      exact ⟨a1, a2, a3, a4, a5, a6, by rw [a7]; simp⟩
  · simp only [Except.ok.injEq, Prod.mk.injEq] at h
    exact absurd h.2 (by simp)

/-- What `resizeTo` does when the allocator refuses the slab. -/
theorem resizeTo_deny (pd : Table → Bucket → Except Fault Table) (alloc : Nat → Bool)
    (t : Table) (c m : Nat)
    (h : alloc ((bucket_size t * PRHHCapacityInternal c m) % W64) = false) :
    resizeTo pd alloc t c m = .ok (t, false) := by
  unfold resizeTo
  dsimp only
  rw [h]
  rfl

/-- C28: small-data growth step. For a table with `capacity_clz` in `[4, 60]`
and `capacity_ms4b` in `[8, 15]` whose slab is below `large_data_threshold`,
`PRHHSizeUp` picks `ms4b = 8` and `clz - 1` when the old `ms4b` is 8, `clz - 2`
otherwise, and resizes to that shape; the new capacity is twice the old one in
the first case and `32 / ms4b` times the old one in the second, so at least
twice and less than four times the old capacity. If the allocator refuses the
slab, `PRHHSizeUp` returns `false` and the table as it was. If it returns `true`
and no re-insertion walk obtained a further slab, the table it hands back has
that `clz` and `ms4b = 8`, the watermarks of the new capacity, and, for a
count-consistent table, the same number of live buckets and of copies of every
key. -/
theorem C28_small_data_growth (t : Table)
    (hsmall : (PRHHCapacity t * bucket_size t) % W64 < t.large_data_threshold)
    (hclz : 4 ≤ t.capacity_clz ∧ t.capacity_clz ≤ 60)
    (hms : 8 ≤ t.capacity_ms4b ∧ t.capacity_ms4b ≤ 15) :
    ∃ nclz, sizeUpShape t = .ok (nclz, 8) ∧
      (∀ (hasher : Key → Nat) (alloc : Nat → Bool) (fuel : Nat),
        PRHHSizeUp hasher alloc fuel t
          = resizeTo (rehashPushDown hasher alloc fuel) alloc t nclz 8) ∧
      nclz = (if t.capacity_ms4b = 8 then t.capacity_clz - 1 else t.capacity_clz - 2) ∧
      (t.capacity_ms4b = 8 → PRHHCapacityInternal nclz 8 = 2 * PRHHCapacity t) ∧
      (t.capacity_ms4b ≠ 8 →
        PRHHCapacityInternal nclz 8 * t.capacity_ms4b = 32 * PRHHCapacity t) ∧
      2 * PRHHCapacity t ≤ PRHHCapacityInternal nclz 8 ∧
      PRHHCapacityInternal nclz 8 < 4 * PRHHCapacity t ∧
      (∀ (hasher : Key → Nat) (alloc : Nat → Bool) (fuel : Nat),
        alloc ((bucket_size t * PRHHCapacityInternal nclz 8) % W64) = false →
        PRHHSizeUp hasher alloc fuel t = .ok (t, false)) ∧
      (∀ (hasher : Key → Nat) (alloc : Nat → Bool) (fuel : Nat) (t1 : Table),
        quietAt alloc { t with capacity_clz := nclz, capacity_ms4b := 8 } →
        PRHHSizeUp hasher alloc fuel t = .ok (t1, true) →
        t1.capacity_clz = nclz ∧ t1.capacity_ms4b = 8 ∧
        PRHHCapacity t1 = PRHHCapacityInternal nclz 8 ∧
        t1.objcnt_high = (PRHHCapacityInternal nclz 8 * 8 % W64) / 10 ∧
        t1.objcnt_low = (PRHHCapacityInternal nclz 8 * 2 % W64) / 10 ∧
        (countOK t → t1.objcnt = t.objcnt ∧ liveCount t1.buckets = liveCount t.buckets ∧
          ∀ k, keyCopies t1.buckets k = keyCopies t.buckets k)) := by
  obtain ⟨hc1, hc2⟩ := hclz
  obtain ⟨hm1, hm2⟩ := hms
  have hshape : sizeUpShape t = .ok (if t.capacity_ms4b = 8 then (t.capacity_clz + 255) % 256
      else (t.capacity_clz + 254) % 256, 8) := by
    unfold sizeUpShape
    rw [if_neg (by omega)]
  have hpow56 : 2 ^ (64 - t.capacity_clz - 4) ≤ 2 ^ 56 :=
    Nat.pow_le_pow_right (by norm_num) (by omega)
  have hcap : PRHHCapacity t = 2 ^ (64 - t.capacity_clz - 4) * t.capacity_ms4b := by
    unfold PRHHCapacity PRHHCapacityInternal W64
    apply Nat.mod_eq_of_lt
    calc 2 ^ (64 - t.capacity_clz - 4) * t.capacity_ms4b ≤ 2 ^ 56 * 15 :=
          Nat.mul_le_mul hpow56 hm2
      _ < 2 ^ 64 := by norm_num
  have hpos : 0 < 2 ^ (64 - t.capacity_clz - 4) := by positivity
  have h1 : 2 ^ (64 - (t.capacity_clz - 1) - 4) = 2 * 2 ^ (64 - t.capacity_clz - 4) := by
    rw [show 64 - (t.capacity_clz - 1) - 4 = (64 - t.capacity_clz - 4) + 1 by omega, Nat.pow_succ]
    ring
  have h2 : 2 ^ (64 - (t.capacity_clz - 2) - 4) = 4 * 2 ^ (64 - t.capacity_clz - 4) := by
    rw [show 64 - (t.capacity_clz - 2) - 4 = (64 - t.capacity_clz - 4) + 2 by omega, Nat.pow_add]
    ring
  have hW : (2 : Nat) ^ 56 * 32 < W64 := by unfold W64; norm_num
  have hn1 : PRHHCapacityInternal (t.capacity_clz - 1) 8 = 16 * 2 ^ (64 - t.capacity_clz - 4) := by
    unfold PRHHCapacityInternal
    rw [h1, Nat.mod_eq_of_lt (by omega)]
    ring
  have hn2 : PRHHCapacityInternal (t.capacity_clz - 2) 8 = 32 * 2 ^ (64 - t.capacity_clz - 4) := by
    unfold PRHHCapacityInternal
    rw [h2, Nat.mod_eq_of_lt (by omega)]
    ring
  have hsz : ∀ (hasher : Key → Nat) (alloc : Nat → Bool) (fuel : Nat),
      PRHHSizeUp hasher alloc fuel t
        = resizeTo (rehashPushDown hasher alloc fuel) alloc t
            (if t.capacity_ms4b = 8 then (t.capacity_clz + 255) % 256
              else (t.capacity_clz + 254) % 256) 8 := by
    intro hasher alloc fuel
    unfold PRHHSizeUp sizeUpWith
    rw [hshape]
  refine ⟨_, hshape, hsz, ?_, ?_⟩
  · split <;> omega
  · rw [hcap]
    have hrest : ∀ nclz : Nat,
        nclz = (if t.capacity_ms4b = 8 then (t.capacity_clz + 255) % 256
          else (t.capacity_clz + 254) % 256) →
        (∀ (hasher : Key → Nat) (alloc : Nat → Bool) (fuel : Nat),
          alloc ((bucket_size t * PRHHCapacityInternal nclz 8) % W64) = false →
          PRHHSizeUp hasher alloc fuel t = .ok (t, false)) ∧
        (∀ (hasher : Key → Nat) (alloc : Nat → Bool) (fuel : Nat) (t1 : Table),
          quietAt alloc { t with capacity_clz := nclz, capacity_ms4b := 8 } →
          PRHHSizeUp hasher alloc fuel t = .ok (t1, true) →
          t1.capacity_clz = nclz ∧ t1.capacity_ms4b = 8 ∧
          PRHHCapacity t1 = PRHHCapacityInternal nclz 8 ∧
          t1.objcnt_high = (PRHHCapacityInternal nclz 8 * 8 % W64) / 10 ∧
          t1.objcnt_low = (PRHHCapacityInternal nclz 8 * 2 % W64) / 10 ∧
          (countOK t → t1.objcnt = t.objcnt ∧ liveCount t1.buckets = liveCount t.buckets ∧
            ∀ k, keyCopies t1.buckets k = keyCopies t.buckets k)) := by
      intro nclz hn
      subst hn
      constructor
      · intro hasher alloc fuel hdeny
        rw [hsz]
        exact resizeTo_deny _ alloc t _ 8 hdeny
      · intro hasher alloc fuel t1 hq hup
        have hup2 := hup
        rw [hsz] at hup2
        obtain ⟨a1, a2, _, _, a5, a6, _⟩ := resizeTo_frame hasher alloc fuel t t1 _ 8 hq hup2
        refine ⟨a1, a2, by unfold PRHHCapacity; rw [a1, a2], a5, a6, fun hcnt => ?_⟩
        obtain ⟨hc1', hk⟩ := sizeUp_count hasher alloc fuel t t1 true hcnt hup
        have hl : liveCount t1.buckets = liveCount t.buckets := by
          rw [liveCount_eq_countP, liveCount_eq_countP]
          exact hk _ (fun x hx => hx)
        refine ⟨by rw [(countOK_objcnt t1 hc1').1, (countOK_objcnt t hcnt).1, hl], hl,
          fun k => ?_⟩
        rw [keyCopies_eq_countP, keyCopies_eq_countP]
        exact hk _ (fun x hx => by simp at hx; rw [hx]; rfl)
    by_cases h8 : t.capacity_ms4b = 8
    · rw [if_pos h8, show (t.capacity_clz + 255) % 256 = t.capacity_clz - 1 by omega, hn1, h8]
      have hr := hrest (t.capacity_clz - 1) (by rw [if_pos h8]; omega)
      refine ⟨fun _ => by ring, fun h => absurd rfl h, by omega, by omega, ?_, ?_⟩
      · rw [← hn1]; exact hr.1
      · rw [← hn1]; exact hr.2
    · rw [if_neg h8, show (t.capacity_clz + 254) % 256 = t.capacity_clz - 2 by omega, hn2]
      have hr := hrest (t.capacity_clz - 2) (by rw [if_neg h8]; omega)
      refine ⟨fun h => absurd h h8, fun _ => by ring, ?_, ?_, ?_, ?_⟩
      · have : 2 * (2 ^ (64 - t.capacity_clz - 4) * t.capacity_ms4b)
            ≤ 2 * (2 ^ (64 - t.capacity_clz - 4) * 16) :=
          Nat.mul_le_mul_left _ (Nat.mul_le_mul_left _ (by omega))
        omega
      · have : 4 * (2 ^ (64 - t.capacity_clz - 4) * 9)
            ≤ 4 * (2 ^ (64 - t.capacity_clz - 4) * t.capacity_ms4b) :=
          Nat.mul_le_mul_left _ (Nat.mul_le_mul_left _ (by omega))
        omega
      · rw [← hn2]; exact hr.1
      · rw [← hn2]; exact hr.2

/-- Witness for C28 on `tableB` (capacity 8: `clz` 60, `ms4b` 8; the new shape
is `clz` 59, `ms4b` 8, capacity 16). -/
theorem C28_small_data_growth_witness :
    (PRHHCapacity tableB * bucket_size tableB) % W64 < tableB.large_data_threshold ∧
    (4 ≤ tableB.capacity_clz ∧ tableB.capacity_clz ≤ 60) ∧
    (8 ≤ tableB.capacity_ms4b ∧ tableB.capacity_ms4b ≤ 15) ∧
    ∃ nclz, sizeUpShape tableB = .ok (nclz, 8) ∧
      (∀ (hasher : Key → Nat) (alloc : Nat → Bool) (fuel : Nat),
        PRHHSizeUp hasher alloc fuel tableB
          = resizeTo (rehashPushDown hasher alloc fuel) alloc tableB nclz 8) ∧
      nclz = (if tableB.capacity_ms4b = 8 then tableB.capacity_clz - 1
        else tableB.capacity_clz - 2) ∧
      (tableB.capacity_ms4b = 8 → PRHHCapacityInternal nclz 8 = 2 * PRHHCapacity tableB) ∧
      (tableB.capacity_ms4b ≠ 8 →
        PRHHCapacityInternal nclz 8 * tableB.capacity_ms4b = 32 * PRHHCapacity tableB) ∧
      2 * PRHHCapacity tableB ≤ PRHHCapacityInternal nclz 8 ∧
      PRHHCapacityInternal nclz 8 < 4 * PRHHCapacity tableB ∧
      (∀ (hasher : Key → Nat) (alloc : Nat → Bool) (fuel : Nat),
        alloc ((bucket_size tableB * PRHHCapacityInternal nclz 8) % W64) = false →
        PRHHSizeUp hasher alloc fuel tableB = .ok (tableB, false)) ∧
      (∀ (hasher : Key → Nat) (alloc : Nat → Bool) (fuel : Nat) (t1 : Table),
        quietAt alloc { tableB with capacity_clz := nclz, capacity_ms4b := 8 } →
        PRHHSizeUp hasher alloc fuel tableB = .ok (t1, true) →
        t1.capacity_clz = nclz ∧ t1.capacity_ms4b = 8 ∧
        PRHHCapacity t1 = PRHHCapacityInternal nclz 8 ∧
        t1.objcnt_high = (PRHHCapacityInternal nclz 8 * 8 % W64) / 10 ∧
        t1.objcnt_low = (PRHHCapacityInternal nclz 8 * 2 % W64) / 10 ∧
        (countOK tableB → t1.objcnt = tableB.objcnt ∧
          liveCount t1.buckets = liveCount tableB.buckets ∧
          ∀ k, keyCopies t1.buckets k = keyCopies tableB.buckets k)) :=
  ⟨by decide, by decide, by decide,
    C28_small_data_growth tableB (by decide) (by decide) (by decide)⟩

/-- `PRHHSizeUp` on `tableB` with the allocator that grants only the 128 bytes
of the 16-bucket slab: it returns `true` and a table with `clz` 59, `ms4b` 8,
16 buckets, `objcnt_high` 12, `objcnt_low` 3, `objcnt` 1, in which key 1 is
found (bucket 3). -/
theorem size_up_example :
    (match PRHHSizeUp hasherA (allocOnly 128) 50 tableB with
      | .ok (t1, ok) =>
        match PRHHGetCustom hasherA t1 [1] with
        | .ok slot =>
          .ok ([t1.capacity_clz, t1.capacity_ms4b, t1.buckets.length, t1.objcnt_high,
                t1.objcnt_low, t1.objcnt], ok, slot)
        | .error e => .error e
      | .error e => .error e)
      = (.ok ([59, 8, 16, 12, 3, 1], true, some 3) :
          Except Fault (List Nat × Bool × Option Nat)) := by
  decide

theorem backShiftMove_marks (t t1 : Table) (idx cand probe : Nat)
    (h : backShiftMove t idx cand probe = .ok t1) :
    t1.objcnt_high = t.objcnt_high ∧ t1.objcnt_low = t.objcnt_low ∧
      t1.large_data_threshold = t.large_data_threshold := by
  unfold backShiftMove at h
  dsimp only at h
  split at h
  · cases h
  · split at h
    · cases h
    · split at h
      · cases h
      · simp only [Except.ok.injEq] at h
        subst h
        exact ⟨rfl, rfl, rfl⟩

theorem backShiftLoop_marks (hasher : Key → Nat) :
    ∀ (record_probe : Nat) (t t1 : Table) (idx hole : Nat),
      backShiftLoop hasher record_probe t idx = .ok (t1, hole) →
      t1.objcnt_high = t.objcnt_high ∧ t1.objcnt_low = t.objcnt_low ∧
        t1.large_data_threshold = t.large_data_threshold := by
  intro record_probe
  induction record_probe with
  | zero =>
    intro t t1 idx hole h
    simp only [backShiftLoop, Except.ok.injEq, Prod.mk.injEq] at h
    rw [← h.1]
    exact ⟨rfl, rfl, rfl⟩
  | succ n ih =>
    intro t t1 idx hole h
    rw [backShiftLoop] at h
    split at h
    · dsimp only at h
      split at h
      · cases h
      · simp only [Except.ok.injEq, Prod.mk.injEq] at h
        rw [← h.1]
        exact ⟨rfl, rfl, rfl⟩
      · split at h
        · cases h
        · rename_i t2 hmv
          obtain ⟨a1, a2, a3⟩ := backShiftMove_marks _ _ _ _ _ hmv
          obtain ⟨b1, b2, b3⟩ := ih _ _ _ _ h
          exact ⟨by rw [b1, a1], by rw [b2, a2], by rw [b3, a3]⟩
    · cases h

/-- The part of `PRHHDeleteCustom` after the size-down attempt keeps the
shape, the value size, the threshold, the watermarks and the slab length. -/
theorem deleteFound_frame (hasher : Key → Nat) (t : Table) (key : Key) (t' : Table)
    (r : Option Nat) (h : deleteFound hasher t key = .ok (t', r)) : sameFrame t t' := by
  unfold deleteFound at h
  split at h
  · cases h
  · simp only [Except.ok.injEq, Prod.mk.injEq] at h
    rw [← h.1]
    exact sameFrame_refl t
  · rename_i idx hs
    obtain ⟨b0, hb0, _⟩ := searchLoop_sound t key _ _ _ _ hs
    split at h
    · cases h
    · dsimp only at h
      split at h
      · cases h
      · split at h
        · cases h
        · rename_i t1 hole hbs
          split at h
          · cases h
          · simp only [Except.ok.injEq, Prod.mk.injEq] at h
            obtain ⟨h1, _⟩ := h
            subst h1
            obtain ⟨_, a2, a3, a4, a5, _, _⟩ :=
              backShiftLoop_count hasher _ _ t1 idx hole b0 hbs hb0
            obtain ⟨m1, m2, m3⟩ := backShiftLoop_marks hasher _ _ t1 idx hole hbs
            exact ⟨a3, a4, a2, m3, m1, m2, by simp only [List.length_set]; exact a5⟩

theorem resizeTo_granted (pd : Table → Bucket → Except Fault Table) (alloc : Nat → Bool)
    (t t1 : Table) (c m : Nat) (s : Bool)
    (hg : alloc ((bucket_size t * PRHHCapacityInternal c m) % W64) = true)
    (h : resizeTo pd alloc t c m = .ok (t1, s)) : s = true := by
  unfold resizeTo at h
  dsimp only at h
  rw [hg] at h
  simp only [if_true] at h
  split at h
  · cases h
  · simp only [Except.ok.injEq, Prod.mk.injEq] at h
    exact h.2.symm

/-- C32, amended: size-down leaves room by count. For a table with
`capacity_ms4b` in `[8, 15]`, fewer than `2^62` buckets (`capacity_clz ≥ 2`) and
`objcnt_low = capacity * 2 / 10`, whenever `PRHHDeleteCustom` triggers
`PRHHSizeDown` (`16 < objcnt < objcnt_low`): the old capacity exceeds 16, so the
assertion of `PRHHSizeDown` holds; the new shape is `clz + 1` with `ms4b` 8 for
an old `ms4b` of 8..11 and 12 for 12..15, and `PRHHSizeDown` and
`PRHHDeleteCustom` resize to that shape; the new capacity is between 4/11 and
1/2 of the old one; and `objcnt` is at most the new `objcnt_high`
(`new_capacity * 8 / 10`), which is below the new capacity. If the allocator
refuses the slab the delete returns `NULL` and the table as it was. If it
grants the slab, no re-insertion walk obtains a further slab and the table is
count-consistent, then a delete that returns hands back a table of the new
shape with the new `objcnt_high`, holding the live records it held before
(minus the deleted one), with `objcnt` their number and at most `objcnt_high`,
so that the entry test of the next insert is false. -/
theorem C32_size_down_leaves_room (t : Table)
    (hclz : 2 ≤ t.capacity_clz)
    (hms : 8 ≤ t.capacity_ms4b ∧ t.capacity_ms4b ≤ 15)
    (hlow : t.objcnt_low = (PRHHCapacity t * 2 % W64) / 10)
    (htrig : t.objcnt < t.objcnt_low ∧ t.objcnt > 16) :
    PRHHCapacity t > 16 ∧
    ∃ nms, nms = (if t.capacity_ms4b ≤ 11 then 8 else 12) ∧
      sizeDownShape t = .ok (t.capacity_clz + 1, nms) ∧
      (∀ (hasher : Key → Nat) (alloc : Nat → Bool) (fuel : Nat),
        PRHHSizeDown hasher alloc fuel t
          = resizeTo (rehashPushDown hasher alloc fuel) alloc t (t.capacity_clz + 1) nms) ∧
      (∀ (hasher : Key → Nat) (alloc : Nat → Bool) (fuel : Nat) (key : Key),
        PRHHDeleteCustom hasher alloc fuel t key
          = (match resizeTo (rehashPushDown hasher alloc fuel) alloc t
                (t.capacity_clz + 1) nms with
              | .error e => .error e
              | .ok (t0, false) => .ok (t0, none)
              | .ok (t0, true) => deleteFound hasher t0 key)) ∧
      4 * PRHHCapacity t ≤ 11 * PRHHCapacityInternal (t.capacity_clz + 1) nms ∧
      2 * PRHHCapacityInternal (t.capacity_clz + 1) nms ≤ PRHHCapacity t ∧
      t.objcnt ≤ (PRHHCapacityInternal (t.capacity_clz + 1) nms * 8 % W64) / 10 ∧
      (PRHHCapacityInternal (t.capacity_clz + 1) nms * 8 % W64) / 10
        < PRHHCapacityInternal (t.capacity_clz + 1) nms ∧
      (∀ (hasher : Key → Nat) (alloc : Nat → Bool) (fuel : Nat) (key : Key),
        alloc ((bucket_size t * PRHHCapacityInternal (t.capacity_clz + 1) nms) % W64) = false →
        PRHHDeleteCustom hasher alloc fuel t key = .ok (t, none)) ∧
      (∀ (hasher : Key → Nat) (alloc : Nat → Bool) (fuel : Nat) (key : Key) (t' : Table)
          (r : Option Nat),
        alloc ((bucket_size t * PRHHCapacityInternal (t.capacity_clz + 1) nms) % W64) = true →
        quietAt alloc { t with capacity_clz := t.capacity_clz + 1, capacity_ms4b := nms } →
        countOK t →
        PRHHDeleteCustom hasher alloc fuel t key = .ok (t', r) →
        t'.capacity_clz = t.capacity_clz + 1 ∧ t'.capacity_ms4b = nms ∧
        PRHHCapacity t' = PRHHCapacityInternal (t.capacity_clz + 1) nms ∧
        t'.objcnt_high = (PRHHCapacityInternal (t.capacity_clz + 1) nms * 8 % W64) / 10 ∧
        liveCount t'.buckets + (if r = none then 0 else 1) = liveCount t.buckets ∧
        t'.objcnt = liveCount t'.buckets ∧
        ¬ (t'.objcnt > t'.objcnt_high)) := by
  obtain ⟨hm1, hm2⟩ := hms
  have hW : W64 = 18446744073709551616 := by unfold W64; norm_num
  have htrig0 := htrig
  rw [hlow] at htrig
  have he : 1 ≤ 64 - t.capacity_clz - 4 := by
    by_contra hne
    have h0 : 64 - t.capacity_clz - 4 = 0 := by omega
    have hc : PRHHCapacity t = t.capacity_ms4b := by
      unfold PRHHCapacity PRHHCapacityInternal
      rw [h0, hW, Nat.pow_zero, Nat.one_mul, Nat.mod_eq_of_lt (by omega)]
    rw [hc, hW] at htrig
    omega
  obtain ⟨e, hee⟩ : ∃ e, 64 - t.capacity_clz - 4 = e + 1 := ⟨64 - t.capacity_clz - 4 - 1, by omega⟩
  have he2 : 64 - (t.capacity_clz + 1) - 4 = e := by omega
  have hK : 2 ^ e ≤ 144115188075855872 := by
    calc 2 ^ e ≤ 2 ^ 57 := Nat.pow_le_pow_right (by norm_num) (by omega)
      _ = 144115188075855872 := by norm_num
  have hold : PRHHCapacity t = 2 * 2 ^ e * t.capacity_ms4b % 18446744073709551616 := by
    unfold PRHHCapacity PRHHCapacityInternal
    rw [hee, hW, Nat.pow_succ, Nat.mul_comm (2 ^ e) 2]
  have hnew : ∀ nms, PRHHCapacityInternal (t.capacity_clz + 1) nms
      = 2 ^ e * nms % 18446744073709551616 := by
    intro nms
    unfold PRHHCapacityInternal
    rw [he2, hW]
  rw [hold, hW] at htrig
  have ha := size_down_arith (2 ^ e) t.capacity_ms4b t.objcnt hK ⟨hm1, hm2⟩ htrig
  rw [← hold, ← hnew] at ha
  obtain ⟨ha1, ha2, ha3, ha4, ha5⟩ := ha
  have ha4' : t.objcnt ≤ (PRHHCapacityInternal (t.capacity_clz + 1)
      (if t.capacity_ms4b ≤ 11 then 8 else 12) * 8 % W64) / 10 := by rw [hW]; exact ha4
  have hshape := sizeDownShape_eq t (by omega) ⟨hm1, hm2⟩ ha1
  have hsd : ∀ (hasher : Key → Nat) (alloc : Nat → Bool) (fuel : Nat),
      PRHHSizeDown hasher alloc fuel t
        = resizeTo (rehashPushDown hasher alloc fuel) alloc t (t.capacity_clz + 1)
            (if t.capacity_ms4b ≤ 11 then 8 else 12) := by
    intro hasher alloc fuel
    unfold PRHHSizeDown sizeDownWith
    rw [hshape]
  have hdel : ∀ (hasher : Key → Nat) (alloc : Nat → Bool) (fuel : Nat) (key : Key),
      PRHHDeleteCustom hasher alloc fuel t key
        = (match resizeTo (rehashPushDown hasher alloc fuel) alloc t
              (t.capacity_clz + 1) (if t.capacity_ms4b ≤ 11 then 8 else 12) with
            | .error e => .error e
            | .ok (t0, false) => .ok (t0, none)
            | .ok (t0, true) => deleteFound hasher t0 key) := by
    intro hasher alloc fuel key
    unfold PRHHDeleteCustom
    rw [if_pos htrig0, hsd]
  refine ⟨ha1, _, rfl, hshape, hsd, hdel, ha2, ha3, ha4', by rw [hW]; exact ha5, ?_, ?_⟩
  · intro hasher alloc fuel key hdeny
    rw [hdel, resizeTo_deny _ alloc t _ _ hdeny]
  · intro hasher alloc fuel key t' r hgrant hq hcnt hres
    rw [hdel] at hres
    cases hrz : resizeTo (rehashPushDown hasher alloc fuel) alloc t (t.capacity_clz + 1)
        (if t.capacity_ms4b ≤ 11 then 8 else 12) with
    | error e => rw [hrz] at hres; cases hres
    | ok p =>
      obtain ⟨t1, s⟩ := p
      have hs := resizeTo_granted _ alloc t t1 _ _ s hgrant hrz
      subst hs
      rw [hrz] at hres
      have hdf : deleteFound hasher t1 key = .ok (t', r) := hres
      obtain ⟨a1, a2, _, _, a5, _, _⟩ := resizeTo_frame hasher alloc fuel t t1 _ _ hq hrz
      obtain ⟨hc1, hk1⟩ := resizeTo_count _ (rehashPushDown_count hasher alloc fuel) alloc
        t t1 _ _ true hcnt hrz
      obtain ⟨f1, f2, _, _, f5, _, _⟩ := deleteFound_frame hasher t1 key t' r hdf
      obtain ⟨hc2, hnone, hsome⟩ := deleteFound_count hasher t1 key t' r hc1 hdf
      have hl1 : liveCount t1.buckets = liveCount t.buckets := by
        rw [liveCount_eq_countP, liveCount_eq_countP]
        exact hk1 _ (fun x hx => hx)
      have hl2 : liveCount t'.buckets + (if r = none then 0 else 1) = liveCount t1.buckets := by
        by_cases hr : r = none
        · rw [if_pos hr, hnone hr]; rfl
        · rw [if_neg hr, liveCount_eq_countP, liveCount_eq_countP]
          have := hsome hr Token.isLive (fun _ h => h)
          simpa [Token.isLive] using this
      have ho := (countOK_objcnt t' hc2).1
      have ho0 := (countOK_objcnt t hcnt).1
      refine ⟨by rw [f1, a1], by rw [f2, a2], by unfold PRHHCapacity; rw [f1, f2, a1, a2],
        by rw [f5, a5], by rw [hl2, hl1], ho, ?_⟩
      rw [f5, a5, ho]
      have : liveCount t'.buckets ≤ liveCount t.buckets := by
        rw [← hl1, ← hl2]; omega
      omega

set_option maxRecDepth 100000 in
/-- C32, counterexample: the re-insertion of a size-down does not fit. On
`tableV` (capacity 96, `objcnt` 17, `objcnt_low` 19, seventeen keys on three
hash values) `PRHHDeleteCustom` of key 1 enters `PRHHSizeDown`, which picks
`clz` 58 and `ms4b` 12 (48 buckets, `objcnt_high` 38 ≥ 17); a re-insertion walk
passes probe 64 and calls `PRHHSizeUp`, and the delete returns with a table of
128 buckets (`clz` 56, `ms4b` 8, `objcnt_high` 102), larger than the one it
started from, holding the 16 remaining records. -/
theorem C32_size_down_grows :
    (match tableV with
      | .ok t =>
        match PRHHDeleteCustom hasherM allocAll 200 t [1] with
        | .ok (t1, r) =>
          .ok ([PRHHCapacity t, t.objcnt, t.objcnt_low, t.capacity_clz, t.capacity_ms4b],
            sizeDownShape t,
            [PRHHCapacity t1, t1.capacity_clz, t1.capacity_ms4b, t1.objcnt, t1.objcnt_high,
              liveCount t1.buckets], r)
        | .error e => .error e
      | .error e => .error e)
      = (.ok ([96, 17, 19, 57, 12], .ok (58, 12), [128, 56, 8, 16, 102, 16], some 0) :
          Except Fault (List Nat × Except Fault (Nat × Nat) × List Nat × Option Nat)) := by
  decide

/-- Witness for C32, amended, on `tableU` (capacity 96, `objcnt` 17,
`objcnt_low` 19): the new shape is `capacity_clz` 58, `capacity_ms4b` 12,
capacity 48. -/
theorem C32_size_down_leaves_room_witness :
    2 ≤ tableU.capacity_clz ∧
      (8 ≤ tableU.capacity_ms4b ∧ tableU.capacity_ms4b ≤ 15) ∧
      tableU.objcnt_low = (PRHHCapacity tableU * 2 % W64) / 10 ∧
      (tableU.objcnt < tableU.objcnt_low ∧ tableU.objcnt > 16) ∧
      PRHHCapacity tableU > 16 ∧
      ∃ nms, nms = (if tableU.capacity_ms4b ≤ 11 then 8 else 12) ∧
        sizeDownShape tableU = .ok (tableU.capacity_clz + 1, nms) ∧
        (∀ (hasher : Key → Nat) (alloc : Nat → Bool) (fuel : Nat),
          PRHHSizeDown hasher alloc fuel tableU
            = resizeTo (rehashPushDown hasher alloc fuel) alloc tableU
                (tableU.capacity_clz + 1) nms) ∧
        (∀ (hasher : Key → Nat) (alloc : Nat → Bool) (fuel : Nat) (key : Key),
          PRHHDeleteCustom hasher alloc fuel tableU key
            = (match resizeTo (rehashPushDown hasher alloc fuel) alloc tableU
                  (tableU.capacity_clz + 1) nms with
                | .error e => .error e
                | .ok (t0, false) => .ok (t0, none)
                | .ok (t0, true) => deleteFound hasher t0 key)) ∧
        4 * PRHHCapacity tableU ≤ 11 * PRHHCapacityInternal (tableU.capacity_clz + 1) nms ∧
        2 * PRHHCapacityInternal (tableU.capacity_clz + 1) nms ≤ PRHHCapacity tableU ∧
        tableU.objcnt ≤ (PRHHCapacityInternal (tableU.capacity_clz + 1) nms * 8 % W64) / 10 ∧
        (PRHHCapacityInternal (tableU.capacity_clz + 1) nms * 8 % W64) / 10
          < PRHHCapacityInternal (tableU.capacity_clz + 1) nms ∧
        (∀ (hasher : Key → Nat) (alloc : Nat → Bool) (fuel : Nat) (key : Key),
          alloc ((bucket_size tableU
            * PRHHCapacityInternal (tableU.capacity_clz + 1) nms) % W64) = false →
          PRHHDeleteCustom hasher alloc fuel tableU key = .ok (tableU, none)) ∧
        (∀ (hasher : Key → Nat) (alloc : Nat → Bool) (fuel : Nat) (key : Key) (t' : Table)
            (r : Option Nat),
          alloc ((bucket_size tableU
            * PRHHCapacityInternal (tableU.capacity_clz + 1) nms) % W64) = true →
          quietAt alloc
            { tableU with capacity_clz := tableU.capacity_clz + 1, capacity_ms4b := nms } →
          countOK tableU →
          PRHHDeleteCustom hasher alloc fuel tableU key = .ok (t', r) →
          t'.capacity_clz = tableU.capacity_clz + 1 ∧ t'.capacity_ms4b = nms ∧
          PRHHCapacity t' = PRHHCapacityInternal (tableU.capacity_clz + 1) nms ∧
          t'.objcnt_high
            = (PRHHCapacityInternal (tableU.capacity_clz + 1) nms * 8 % W64) / 10 ∧
          liveCount t'.buckets + (if r = none then 0 else 1) = liveCount tableU.buckets ∧
          t'.objcnt = liveCount t'.buckets ∧
          ¬ (t'.objcnt > t'.objcnt_high)) :=
  ⟨by decide, by decide, by decide, by decide,
    C32_size_down_leaves_room tableU (by decide) (by decide) (by decide) (by decide)⟩

/-- Size-down on `tableU` without a further slab, then the next insert: with
the allocator that grants only the 384 bytes of the 48-bucket slab,
`PRHHDeleteCustom` of key 1 shrinks the table from 96 to 48 buckets
(`capacity_clz` 58, `capacity_ms4b` 12, `objcnt_high` 38) and leaves 16
objects; the following `PRHHInsertCustom` of key 1 keeps the capacity at 48. The
lists hold capacity, `objcnt` and `objcnt_high` after the delete and after the
insert. -/
theorem size_down_quiet_example :
    (match PRHHDeleteCustom hasherL (allocOnly 384) 400 tableU [1] with
      | .ok (t1, r) =>
        (match PRHHInsertCustom hasherL (allocOnly 384) 400 t1 [1] [] with
          | .ok (t2, b) =>
            .ok ([PRHHCapacity t1, t1.objcnt, t1.objcnt_high, t1.capacity_clz,
                  t1.capacity_ms4b],
                 [PRHHCapacity t2, t2.objcnt, t2.objcnt_high], r, b)
          | .error e => .error e)
      | .error e => .error e)
      = (.ok ([48, 16, 38, 58, 12], [48, 17, 38], some 1, true) :
          Except Fault (List Nat × List Nat × Option Nat × Bool)) := by
  decide

theorem mem_of_count_eq (bs bs0 : List Bucket) (b : Bucket) (idx : Nat)
    (hb : bs0[idx]? = some b)
    (h : List.countP (fun x => decide (x = b)) bs0 = List.countP (fun x => decide (x = b)) bs) :
    b ∈ bs := by
  have h0 : 0 < List.countP (fun x => decide (x = b)) bs0 := by
    rw [List.countP_pos_iff]
    exact ⟨b, List.getElem?_mem hb, by simp⟩
  rw [h, List.countP_pos_iff] at h0
  obtain ⟨a, ha, hab⟩ := h0
  have : a = b := by simpa using hab
  rw [← this]; exact ha

/-- C6, amended: the result of delete relative to the table the lookup runs on.
Let `t0` be that table: the entry table `t` when the call does not enter
`PRHHSizeDown` (`objcnt >= objcnt_low` or `objcnt <= 16`), the table rebuilt by
`PRHHSizeDown` when the call enters it and it returns `true`. If `t0` has
`capacity_clz` in `[4, 60]`, `capacity_ms4b` in `[8, 15]`, `longest_probes < 64`
and a slab of at least `PRHHCapacity` buckets, then `PRHHDeleteCustom(k)`
returns, and either the lookup on `t0` misses `k`, the result is `NULL` and the
table is `t0`, or the lookup finds `k` in a bucket `b` of `t0`, the result is a
slot of a bucket that now holds the tombstone and the value bytes of `b`, and
`objcnt` is one less than in `t0` (modulo `2^64`). When `objcnt` counted the
live buckets of `t` on entry (`countOK t`), `t0` has the `objcnt`, the number of
live buckets and the number of records of `k` of `t`, the bucket `b` is a
bucket of `t` (so the value is one stored for `k` just before the call), and
`objcnt` after the call plus 1 is `objcnt` before it. When the call enters
`PRHHSizeDown` and the allocation of the new slab fails, the result is `NULL`
and the table is unchanged, whether the lookup finds `k` or not. -/
theorem C6_delete_result (hasher : Key → Nat) (alloc : Nat → Bool) (fuel : Nat)
    (t : Table) (key : Key) :
    (∀ t0 : Table,
      ((¬(t.objcnt < t.objcnt_low ∧ t.objcnt > 16) ∧ t0 = t) ∨
        ((t.objcnt < t.objcnt_low ∧ t.objcnt > 16) ∧
          PRHHSizeDown hasher alloc fuel t = .ok (t0, true))) →
      (4 ≤ t0.capacity_clz ∧ t0.capacity_clz ≤ 60) →
      (8 ≤ t0.capacity_ms4b ∧ t0.capacity_ms4b ≤ 15) →
      t0.longest_probes < 64 →
      PRHHCapacity t0 ≤ t0.buckets.length →
      ((PRHHSearchIdx hasher t0 key = .ok none ∧
          PRHHDeleteCustom hasher alloc fuel t key = .ok (t0, none)) ∨
        (∃ idx b t1 slot, PRHHSearchIdx hasher t0 key = .ok (some idx) ∧
          t0.buckets[idx]? = some b ∧ b.tok = Token.live key ∧
          PRHHDeleteCustom hasher alloc fuel t key = .ok (t1, some slot) ∧
          t1.buckets[slot]? = some ⟨Token.tombstone, b.val⟩ ∧
          t1.objcnt = (t0.objcnt + W64 - 1) % W64 ∧
          (countOK t → b ∈ t.buckets ∧ t1.objcnt + 1 = t.objcnt))) ∧
      (countOK t → t0.objcnt = t.objcnt ∧ liveCount t0.buckets = liveCount t.buckets ∧
        keyCopies t0.buckets key = keyCopies t.buckets key)) ∧
    ((t.objcnt < t.objcnt_low ∧ t.objcnt > 16) →
      ∀ nclz nms4b, sizeDownShape t = .ok (nclz, nms4b) →
        alloc ((bucket_size t * PRHHCapacityInternal nclz nms4b) % W64) = false →
        PRHHDeleteCustom hasher alloc fuel t key = .ok (t, none)) := by
  constructor
  · intro t0 hentry hclz hms hlp hlen
    have hif : (if t.objcnt < t.objcnt_low ∧ t.objcnt > 16 then PRHHSizeDown hasher alloc fuel t
        else .ok (t, true)) = .ok (t0, true) := by
      rcases hentry with ⟨hno, h0⟩ | ⟨hyes, hsd⟩
      · rw [if_neg hno, h0]
      · rw [if_pos hyes, hsd]
    have hdel : PRHHDeleteCustom hasher alloc fuel t key = deleteFound hasher t0 key := by
      unfold PRHHDeleteCustom
      rw [hif]
    have hcount : countOK t → countOK t0 ∧ ∀ P : Bucket → Bool,
        (∀ x, P x = true → x.tok.isLive = true) →
        List.countP P t0.buckets = List.countP P t.buckets :=
      fun hc => entryDown_count hasher alloc fuel t t0 true _ hc hif
    have hobj : countOK t → t0.objcnt = t.objcnt ∧ liveCount t0.buckets = liveCount t.buckets ∧
        keyCopies t0.buckets key = keyCopies t.buckets key := by
      intro hc
      obtain ⟨hc0, hP⟩ := hcount hc
      have hl : liveCount t0.buckets = liveCount t.buckets := by
        rw [liveCount_eq_countP, liveCount_eq_countP]
        exact hP _ (fun x hx => hx)
      refine ⟨?_, hl, ?_⟩
      · rw [(countOK_objcnt t0 hc0).1, (countOK_objcnt t hc).1, hl]
      · rw [keyCopies_eq_countP, keyCopies_eq_countP]
        exact hP _ (fun x hx => by
          have : x.tok = Token.live key := by simpa using hx
          rw [this]; rfl)
    refine ⟨?_, hobj⟩
    rw [hdel]
    rcases deleteFound_ok hasher t0 key hclz hms hlp hlen with hmiss | hfound
    · exact Or.inl hmiss
    · obtain ⟨idx, b, t1, slot, h1, h2, h3, h4, h5, h6⟩ := hfound
      refine Or.inr ⟨idx, b, t1, slot, h1, h2, h3, h4, h5, h6, ?_⟩
      intro hc
      obtain ⟨hc0, hP⟩ := hcount hc
      have hbl : b.tok.isLive = true := by rw [h3]; rfl
      refine ⟨mem_of_count_eq t.buckets t0.buckets b idx h2 (hP _ (fun x hx => by
        have : x = b := by simpa using hx
        rw [this]; exact hbl)), ?_⟩
      obtain ⟨ho, hl, _⟩ := hobj hc
      have hpos : 0 < keyCopies t0.buckets key := keyCopies_pos t0.buckets key idx b h2 h3
      have hle := keyCopies_le_liveCount t0.buckets key
      have h7 := (countOK_objcnt t0 hc0).1
      have h8 := (countOK_objcnt t0 hc0).2
      have h9 := capacity_lt_W64 t0
      rw [h6, ← ho]
      unfold W64 at *
      omega
  · intro hyes nclz nms4b hshape hfail
    have hsize : PRHHSizeDown hasher alloc fuel t = .ok (t, false) := by
      simp [PRHHSizeDown, sizeDownWith, hshape, resizeTo, hfail]
    unfold PRHHDeleteCustom
    rw [if_pos hyes, hsize]

set_option maxRecDepth 100000 in
/-- Witness for C6, amended, on the size-down path: on `tableU` (`objcnt` 17,
`objcnt_low` 19) with every allocation granted, `PRHHDeleteCustom` of key 1
enters `PRHHSizeDown`, which returns `true` with the 48-bucket table
`tableU48`. -/
theorem C6_delete_result_witness :
    ((tableU.objcnt < tableU.objcnt_low ∧ tableU.objcnt > 16) ∧
      PRHHSizeDown hasherL allocAll 400 tableU = .ok (tableU48, true)) ∧
    ((PRHHSearchIdx hasherL tableU48 [1] = .ok none ∧
        PRHHDeleteCustom hasherL allocAll 400 tableU [1] = .ok (tableU48, none)) ∨
      (∃ idx b t1 slot, PRHHSearchIdx hasherL tableU48 [1] = .ok (some idx) ∧
        tableU48.buckets[idx]? = some b ∧ b.tok = Token.live [1] ∧
        PRHHDeleteCustom hasherL allocAll 400 tableU [1] = .ok (t1, some slot) ∧
        t1.buckets[slot]? = some ⟨Token.tombstone, b.val⟩ ∧
        t1.objcnt = (tableU48.objcnt + W64 - 1) % W64 ∧
        (countOK tableU → b ∈ tableU.buckets ∧ t1.objcnt + 1 = tableU.objcnt))) ∧
    (countOK tableU → tableU48.objcnt = tableU.objcnt ∧
      liveCount tableU48.buckets = liveCount tableU.buckets ∧
      keyCopies tableU48.buckets [1] = keyCopies tableU.buckets [1]) :=
  ⟨⟨by decide, by decide⟩,
    (C6_delete_result hasherL allocAll 400 tableU [1]).1 tableU48
      (Or.inr ⟨by decide, by decide⟩) (by decide) (by decide) (by decide) (by decide)⟩

set_option maxRecDepth 100000 in
/-- The delete of the witness, evaluated: `PRHHDeleteCustom` of key 1 on
`tableU` with every allocation granted shrinks the table from 96 to 48 buckets,
finds key 1 in bucket 1 of the rebuilt table, returns that slot and leaves
`objcnt` 16; the lookup of key 1 misses afterwards. The list holds the capacity
before, `objcnt` before, the capacity after and `objcnt` after. -/
theorem delete_after_size_down_example :
    (match PRHHDeleteCustom hasherL allocAll 400 tableU [1] with
      | .ok (t1, r) =>
        (match PRHHGetCustom hasherL tableU48 [1], PRHHGetCustom hasherL t1 [1] with
          | .ok g0, .ok g1 =>
            .ok ([PRHHCapacity tableU, tableU.objcnt, PRHHCapacity t1, t1.objcnt],
              [g0, r, g1], (t1.buckets[1]?).map (fun b => decide (b.tok = Token.tombstone)))
          | .error e, _ => .error e
          | _, .error e => .error e)
      | .error e => .error e)
      = (.ok ([96, 17, 48, 16], [some 1, some 1, none], some true) :
          Except Fault (List Nat × List (Option Nat) × Option Bool)) := by
  decide

/-- A walk of `PRHHUpsertPushDown` that gets no new slab keeps the Robin Hood
ordering. -/
theorem pushDown_ordered (hasher : Key → Nat) (alloc : Nat → Bool) :
    ∀ (fuel : Nat) (t : Table) (cpy : Bucket) (probe : Nat) (avoid : Option Nat) (visit : Nat)
      (visited : List Nat) (resized : Bool) (t' : Table) (r : Bool),
      quietAt alloc t →
      PRHHUpsertPushDown hasher alloc fuel t cpy probe avoid visit visited resized = .ok (t', r) →
      robinHoodOrdered hasher t → t.longest_probes ≤ 64 →
      (∀ hk, tokenHash hasher cpy.tok = .ok hk →
        ∀ j, j < probe → liveAt t.buckets (hash_with_probe t hk j)) →
      (∀ a, avoid = some a → liveAt t.buckets a) →
      visited.length = VISIT_IDX_CACHE →
      (∀ i x, i < visit → visited[i]? = some x → liveAt t.buckets x) →
      robinHoodOrdered hasher t' ∧ t'.longest_probes ≤ 64 := by
  intro fuel
  induction fuel with
  | zero =>
    intro t cpy probe avoid visit visited resized t' r _ h
    simp [PRHHUpsertPushDown] at h
  | succ fuel ih =>
    intro t cpy probe avoid visit visited resized t' r hq h hrho hlp hcar havoid hvlen hvis
    rw [PRHHUpsertPushDown] at h
    cases hth : tokenHash hasher cpy.tok with
    | error e => rw [hth] at h; cases h
    | ok hk =>
      obtain ⟨kc, hkc, hkeq⟩ := tokenHash_ok hasher _ _ hth
      have hclive : cpy.tok.isLive = true := by rw [hkc]; rfl
      have hcar1 := hcar hk hth
      rw [hth] at h
      dsimp only at h
      split at h
      · -- probe > PROBE_STATS_SIZE: the resize is refused, the walk restarts
        split at h
        · cases h
        · rename_i t1 swapped hsz
          obtain ⟨e1, e2⟩ := sizeUpWith_quiet _ alloc t t1 swapped hq hsz
          subst e1; subst e2
          refine ih _ _ _ _ _ _ _ _ _ hq h hrho hlp ?_ ?_ hvlen hvis
          · intro hk2 _ j hj; omega
          · simpa using havoid
      · rename_i hprobe
        have hp64 : probe ≤ 64 := by unfold PROBE_STATS_SIZE at hprobe; omega
        split at h
        · -- the avoided bucket
          rename_i hav
          refine ih _ _ _ _ _ _ _ _ _ hq h hrho hlp ?_ havoid hvlen hvis
          intro hk2 hth2 j hj
          rw [hth] at hth2
          simp only [Except.ok.injEq] at hth2
          subst hth2
          by_cases hjp : j < probe
          · exact hcar1 j hjp
          · have : j = probe := by omega
            subst this
            exact havoid _ hav
        · split at h
          · -- a recently visited bucket
            rename_i hhit
            have hhit2 : visitedHit visit visited (hash_with_probe t hk probe) = true := by
              simp only [Bool.and_eq_true, decide_eq_true_eq] at hhit
              exact hhit.2
            have hl := visitedHit_live t.buckets visit visited _ hvlen hvis hhit2
            refine ih _ _ _ _ _ _ _ _ _ hq h hrho hlp ?_ havoid hvlen hvis
            intro hk2 hth2 j hj
            rw [hth] at hth2
            simp only [Except.ok.injEq] at hth2
            subst hth2
            by_cases hjp : j < probe
            · exact hcar1 j hjp
            · have : j = probe := by omega
              subst this
              exact hl
          · split at h
            · cases h
            · rename_i b hb
              have hbq := readBucket_some _ _ _ hb
              have hidxlt := readBucket_lt _ _ _ hb
              split at h
              · -- a live bucket
                rename_i hblive
                split at h
                · cases h
                · rename_i old_probe hfp
                  obtain ⟨kb, hkb⟩ : ∃ kb, b.tok = Token.live kb := by
                    cases hbt : b.tok with
                    | live k => exact ⟨k, rfl⟩
                    | empty => rw [hbt] at hblive; simp [Token.isLive] at hblive
                    | tombstone => rw [hbt] at hblive; simp [Token.isLive] at hblive
                  have hvis1 : ∀ (bs : List Bucket), (∀ i, liveAt t.buckets i → liveAt bs i) →
                      liveAt bs (hash_with_probe t hk probe) →
                      ∀ i x, i < visit + 1 →
                        (visited.set (visit % VISIT_IDX_CACHE)
                          (hash_with_probe t hk probe))[i]? = some x → liveAt bs x := by
                    intro bs hmono hself i x hi hx
                    by_cases hiv : visit % VISIT_IDX_CACHE = i
                    · have hlt : visit % VISIT_IDX_CACHE < visited.length := by
                        rw [hvlen]; exact Nat.mod_lt _ (by unfold VISIT_IDX_CACHE; omega)
                      rw [← hiv] at hx
                      simp [hlt] at hx
                      rw [← hx]; exact hself
                    · rw [List.getElem?_set_ne hiv] at hx
                      have hilt : i < visited.length := by
                        by_contra hcon
                        rw [List.getElem?_eq_none (by omega)] at hx
                        cases hx
                      have : i < visit := by
                        rw [hvlen] at hilt
                        by_contra hcon
                        have hv8 : visit % VISIT_IDX_CACHE = visit := by
                          apply Nat.mod_eq_of_lt; omega
                        omega
                      exact hmono _ (hvis i x this hx)
                  split at h
                  · -- displace the resident record
                    rename_i hgt
                    split at h
                    · cases h
                    · split at h
                      · cases h
                      · rename_i s1 _ s2 _
                        obtain ⟨hfm, hfl, hfleast⟩ :=
                          findprobe_least hasher t _ old_probe b kb hbq hkb hfp
                        have hbord := hrho _ b kb hbq hkb
                        have hlive2 : ∀ i, liveAt t.buckets i →
                            liveAt (t.buckets.set (hash_with_probe t hk probe) cpy) i :=
                          fun i hi => liveAt_set _ _ _ _ hclive hi
                        have hself : liveAt (t.buckets.set (hash_with_probe t hk probe) cpy)
                            (hash_with_probe t hk probe) :=
                          liveAt_set_self _ _ _ hclive hidxlt
                        have hlpn : (if probe > t.longest_probes then probe
                            else t.longest_probes) % 2 ^ 16
                            = (if probe > t.longest_probes then probe else t.longest_probes) := by
                          apply Nat.mod_eq_of_lt
                          split <;> omega
                        refine ih _ _ _ _ _ _ _ _ _ ?_ h ?_ ?_ ?_ ?_ (by simpa using hvlen) ?_
                        · exact quietAt_frame alloc t _
                            ⟨rfl, rfl, rfl, rfl, rfl, rfl, by simp⟩ hq
                        · -- the ordering after the write
                          refine ordered_write hasher t _ (hash_with_probe t hk probe) cpy kc
                            rfl rfl ?_ rfl hkc ?_ hrho
                          · dsimp only; rw [hlpn]; split <;> omega
                          · refine ⟨probe, ?_, ?_, ?_⟩
                            · dsimp only; rw [hlpn]; split <;> omega
                            · rw [← hkeq]; rfl
                            · intro j hj
                              rw [← hkeq]
                              exact hlive2 _ (hcar1 j hj)
                        · dsimp only; rw [hlpn]; split <;> omega
                        · -- the displaced record restarts behind its old probe
                          intro hk2 hth2 j hj
                          rw [hkb] at hth2
                          simp only [tokenHash, Except.ok.injEq] at hth2
                          subst hth2
                          obtain ⟨q, hq, hqm, hqj⟩ := hbord
                          have hoq := hfleast q hq hqm
                          by_cases hjq : j < q
                          · exact hlive2 _ (hqj j hjq)
                          · have hjo : j = old_probe := by omega
                            subst hjo
                            have : hash_with_probe t (hasher kb % W64) j
                                = hash_with_probe t hk probe := hfm
                            show liveAt (t.buckets.set (hash_with_probe t hk probe) cpy)
                              (hash_with_probe t (hasher kb % W64) j)
                            rw [this]; exact hself
                        · intro a ha
                          exact hlive2 _ (havoid a ha)
                        · exact hvis1 _ hlive2 hself
                  · -- keep walking
                    refine ih _ _ _ _ _ _ _ _ _ hq h hrho hlp ?_ havoid (by simpa using hvlen) ?_
                    · intro hk2 hth2 j hj
                      rw [hth] at hth2
                      simp only [Except.ok.injEq] at hth2
                      subst hth2
                      by_cases hjp : j < probe
                      · exact hcar1 j hjp
                      · have : j = probe := by omega
                        subst this
                        exact ⟨b, hbq, hblive⟩
                    · exact hvis1 _ (fun i hi => hi) ⟨b, hbq, hblive⟩
              · -- an EMPTY or TOMBSTONE bucket: the record is placed
                simp only [Except.ok.injEq, Prod.mk.injEq] at h
                obtain ⟨h, _⟩ := h
                subst h
                have hlpn : (if probe > t.longest_probes then probe
                    else t.longest_probes) % 2 ^ 16
                    = (if probe > t.longest_probes then probe else t.longest_probes) := by
                  apply Nat.mod_eq_of_lt
                  split <;> omega
                constructor
                · refine ordered_write hasher t _ (hash_with_probe t hk probe) cpy kc
                    rfl rfl ?_ rfl hkc ?_ hrho
                  · show t.longest_probes ≤ (IncreaseProbeStat t probe).longest_probes
                    unfold IncreaseProbeStat; dsimp only; rw [hlpn]; split <;> omega
                  · refine ⟨probe, ?_, ?_, ?_⟩
                    · show probe ≤ (IncreaseProbeStat t probe).longest_probes
                      unfold IncreaseProbeStat; dsimp only; rw [hlpn]; split <;> omega
                    · rw [← hkeq]; rfl
                    · intro j hj
                      rw [← hkeq]
                      exact liveAt_set _ _ _ _ hclive (hcar1 j hj)
                · show (IncreaseProbeStat t probe).longest_probes ≤ 64
                  unfold IncreaseProbeStat; dsimp only; rw [hlpn]; split <;> omega

/-- What `PRHHUpsertNewKey` hands back when it gets no new slab. -/
theorem newKey_ordered (hasher : Key → Nat) (alloc : Nat → Bool)
    (key : Key) (h : Nat) :
    ∀ (fuel : Nat) (t : Table) (probe : Nat) (t1 : Table) (res : upsert_result_t) (m ps : Nat),
      quietAt alloc t →
      PRHHUpsertNewKey hasher alloc key h fuel t probe = .ok (t1, res, m, ps) →
      t.longest_probes ≤ 64 →
      (∀ j, j < probe → liveAt t.buckets (hash_with_probe t h j)) →
      t1.buckets = t.buckets ∧ t1.capacity_clz = t.capacity_clz ∧
      t1.capacity_ms4b = t.capacity_ms4b ∧ t.longest_probes ≤ t1.longest_probes ∧
      t1.longest_probes ≤ 64 ∧
      (res = upsert_result_t.UPSERT_DUP →
        ∃ b : Bucket, t.buckets[m]? = some b ∧ b.tok = Token.live key) ∧
      (res ≠ upsert_result_t.UPSERT_DUP →
        m < t.buckets.length ∧
        ∃ p, p ≤ t1.longest_probes ∧ hash_with_probe t h p = m ∧
          ∀ j, j < p → liveAt t.buckets (hash_with_probe t h j)) ∧
      (res = upsert_result_t.UPSERT_PUSHDOWN →
        ∃ (op : Nat) (b : Bucket) (kb : Key), ps = op + 1 ∧ t.buckets[m]? = some b ∧
          b.tok = Token.live kb ∧ findprobe hasher t m = .ok op) := by
  intro fuel
  induction fuel with
  | zero =>
    intro t probe t1 res m ps _ hnk
    simp [PRHHUpsertNewKey] at hnk
  | succ fuel ih =>
    intro t probe t1 res m ps hq hnk hlp hwalk
    rw [PRHHUpsertNewKey] at hnk
    split at hnk
    · split at hnk
      · cases hnk
      · rename_i t2 s hsz
        obtain ⟨e1, _⟩ := sizeUp_quiet hasher alloc fuel t t2 s hq hsz
        subst e1
        exact ih _ _ _ _ _ _ hq hnk hlp (fun j hj => absurd hj (Nat.not_lt_zero _))
    · rename_i hprobe
      have hp64 : probe ≤ 64 := by unfold PROBE_STATS_SIZE at hprobe; omega
      have hlpn : (if probe > t.longest_probes then probe else t.longest_probes) % 2 ^ 16
          = (if probe > t.longest_probes then probe else t.longest_probes) := by
        apply Nat.mod_eq_of_lt
        split <;> omega
      have hplace : (IncreaseProbeStat t probe).buckets = t.buckets ∧
          (IncreaseProbeStat t probe).capacity_clz = t.capacity_clz ∧
          (IncreaseProbeStat t probe).capacity_ms4b = t.capacity_ms4b ∧
          t.longest_probes ≤ (IncreaseProbeStat t probe).longest_probes ∧
          (IncreaseProbeStat t probe).longest_probes ≤ 64 ∧
          probe ≤ (IncreaseProbeStat t probe).longest_probes := by
        unfold IncreaseProbeStat
        dsimp only
        rw [hlpn]
        refine ⟨rfl, rfl, rfl, ?_, ?_, ?_⟩ <;> split <;> omega
      split at hnk
      · cases hnk
      · rename_i b hb
        have hbq := readBucket_some _ _ _ hb
        have hidxlt := readBucket_lt _ _ _ hb
        split at hnk
        · -- EMPTY
          simp only [Except.ok.injEq, Prod.mk.injEq] at hnk
          obtain ⟨e1, e2, e3, _⟩ := hnk
          subst e1; subst e2; subst e3
          obtain ⟨a1, a2, a3, a4, a5, a6⟩ := hplace
          refine ⟨a1, a2, a3, a4, a5, ?_, ?_, ?_⟩
          · intro hc; cases hc
          · intro _; exact ⟨hidxlt, probe, a6, rfl, hwalk⟩
          · intro hc; cases hc
        · -- TOMBSTONE
          split at hnk
          · cases hnk
          · rename_i dup hdup
            simp only [Except.ok.injEq, Prod.mk.injEq] at hnk
            obtain ⟨e1, e2, e3, _⟩ := hnk
            subst e1; subst e2; subst e3
            refine ⟨rfl, rfl, rfl, le_refl _, hlp, ?_, ?_, ?_⟩
            · intro _; exact dupScan_live t key h _ _ _ hdup
            · intro hc; exact absurd rfl hc
            · intro hc; cases hc
          · simp only [Except.ok.injEq, Prod.mk.injEq] at hnk
            obtain ⟨e1, e2, e3, _⟩ := hnk
            subst e1; subst e2; subst e3
            obtain ⟨a1, a2, a3, a4, a5, a6⟩ := hplace
            refine ⟨a1, a2, a3, a4, a5, ?_, ?_, ?_⟩
            · intro hc; cases hc
            · intro _; exact ⟨hidxlt, probe, a6, rfl, hwalk⟩
            · intro hc; cases hc
        · -- live
          rename_i k hk
          split at hnk
          · rename_i hkk
            simp only [Except.ok.injEq, Prod.mk.injEq] at hnk
            obtain ⟨e1, e2, e3, _⟩ := hnk
            subst e1; subst e2; subst e3
            refine ⟨rfl, rfl, rfl, le_refl _, hlp, ?_, ?_, ?_⟩
            · intro _; exact ⟨b, hbq, by rw [hk, hkk]⟩
            · intro hc; exact absurd rfl hc
            · intro hc; cases hc
          · split at hnk
            · cases hnk
            · rename_i old_probe hfp
              split at hnk
              · split at hnk
                · cases hnk
                · split at hnk
                  · cases hnk
                  · simp only [Except.ok.injEq, Prod.mk.injEq] at hnk
                    obtain ⟨e1, e2, e3, e4⟩ := hnk
                    subst e1; subst e2; subst e3; subst e4
                    dsimp only
                    rw [hlpn]
                    refine ⟨rfl, rfl, rfl, by split <;> omega, by split <;> omega, ?_, ?_, ?_⟩
                    · intro hc; cases hc
                    · intro _; exact ⟨hidxlt, probe, by split <;> omega, rfl, hwalk⟩
                    · intro _; exact ⟨old_probe, b, k, rfl, hbq, hk, hfp⟩
              · refine ih _ _ _ _ _ _ hq hnk hlp ?_
                intro j hj
                by_cases hjp : j < probe
                · exact hwalk j hjp
                · have : j = probe := by omega
                  subst this
                  exact ⟨b, hbq, by rw [hk]; rfl⟩

/-- A `PRHHUpsertNewKey` that gets no new slab writes only `longest_probes` and
the histogram. -/
theorem newKey_frame (hasher : Key → Nat) (alloc : Nat → Bool) (key : Key) (h : Nat) :
    ∀ (fuel : Nat) (t : Table) (probe : Nat) (t1 : Table) (res : upsert_result_t) (m ps : Nat),
      quietAt alloc t →
      PRHHUpsertNewKey hasher alloc key h fuel t probe = .ok (t1, res, m, ps) →
      sameFrame t t1 := by
  intro fuel
  induction fuel with
  | zero =>
    intro t probe t1 res m ps _ hnk
    simp [PRHHUpsertNewKey] at hnk
  | succ fuel ih =>
    intro t probe t1 res m ps hq hnk
    rw [PRHHUpsertNewKey] at hnk
    have hinc : sameFrame t (IncreaseProbeStat t probe) := by
      unfold IncreaseProbeStat
      exact ⟨rfl, rfl, rfl, rfl, rfl, rfl, rfl⟩
    split at hnk
    · split at hnk
      · cases hnk
      · rename_i t2 s hsz
        obtain ⟨e1, _⟩ := sizeUp_quiet hasher alloc fuel t t2 s hq hsz
        subst e1
        exact ih _ _ _ _ _ _ hq hnk
    · split at hnk
      · cases hnk
      · split at hnk
        · simp only [Except.ok.injEq, Prod.mk.injEq] at hnk
          rw [← hnk.1]; exact hinc
        · split at hnk
          · cases hnk
          · simp only [Except.ok.injEq, Prod.mk.injEq] at hnk
            rw [← hnk.1]; exact sameFrame_refl t
          · simp only [Except.ok.injEq, Prod.mk.injEq] at hnk
            rw [← hnk.1]; exact hinc
        · split at hnk
          · simp only [Except.ok.injEq, Prod.mk.injEq] at hnk
            rw [← hnk.1]; exact sameFrame_refl t
          · split at hnk
            · cases hnk
            · split at hnk
              · split at hnk
                · cases hnk
                · split at hnk
                  · cases hnk
                  · simp only [Except.ok.injEq, Prod.mk.injEq] at hnk
                    rw [← hnk.1]
                    exact ⟨rfl, rfl, rfl, rfl, rfl, rfl, rfl⟩
              · exact ih _ _ _ _ _ _ hq hnk

theorem quietAt_fields (alloc : Nat → Bool) (t t' : Table)
    (h1 : t'.capacity_clz = t.capacity_clz) (h2 : t'.capacity_ms4b = t.capacity_ms4b)
    (h3 : t'.valsize = t.valsize) (h4 : t'.large_data_threshold = t.large_data_threshold)
    (hq : quietAt alloc t) : quietAt alloc t' := by
  intro n hn
  have he : sizeUpRequest t' = sizeUpRequest t := by
    unfold sizeUpRequest sizeUpShape PRHHCapacity bucket_size
    rw [h1, h2, h3, h4]
  rw [he] at hn
  exact hq n hn

/-- The re-insertion loop of a resize keeps the Robin Hood ordering when no
re-insertion walk gets a further slab. -/
theorem rehashLoop_ordered (hasher : Key → Nat) (alloc : Nat → Bool) (fuel : Nat) :
    ∀ (bs : List Bucket) (n : Nat) (t t' : Table), quietAt alloc t →
      rehashLoop (rehashPushDown hasher alloc fuel) bs n t = .ok t' →
      robinHoodOrdered hasher t → t.longest_probes ≤ 64 →
      robinHoodOrdered hasher t' ∧ t'.longest_probes ≤ 64 := by
  intro bs
  induction bs with
  | nil =>
    intro n t t' _ h hrho hlp
    cases n with
    | zero =>
      simp only [rehashLoop, Except.ok.injEq] at h
      rw [← h]; exact ⟨hrho, hlp⟩
    | succ n => simp [rehashLoop] at h
  | cons b rest ih =>
    intro n t t' hq h hrho hlp
    cases n with
    | zero =>
      simp only [rehashLoop, Except.ok.injEq] at h
      rw [← h]; exact ⟨hrho, hlp⟩
    | succ n =>
      rw [rehashLoop] at h
      split at h
      · cases hpd : rehashPushDown hasher alloc fuel t b with
        | error e => rw [hpd] at h; cases h
        | ok t1 =>
          rw [hpd] at h
          have h2 : rehashLoop (rehashPushDown hasher alloc fuel) rest n t1 = .ok t' := h
          have hfr := rehashPushDown_frame hasher alloc fuel t b t1 hq hpd
          have hq1 := quietAt_frame alloc t t1 hfr hq
          have hpd2 := hpd
          unfold rehashPushDown at hpd2
          cases hr : PRHHUpsertPushDown hasher alloc fuel t b 0 none 0
              (List.replicate VISIT_IDX_CACHE 0) false with
          | error e => rw [hr] at hpd2; cases hpd2
          | ok r =>
            rw [hr] at hpd2
            simp only [Except.ok.injEq] at hpd2
            obtain ⟨r1, r2⟩ := r
            have hr1 : r1 = t1 := hpd2
            subst hr1
            obtain ⟨o1, o2⟩ := pushDown_ordered hasher alloc fuel t b 0 none 0
              (List.replicate VISIT_IDX_CACHE 0) false r1 r2 hq hr hrho hlp
              (fun _ _ j hj => absurd hj (Nat.not_lt_zero _))
              (fun a ha => by cases ha)
              (by simp)
              (fun i x hi => absurd hi (Nat.not_lt_zero _))
            exact ih n r1 t' hq1 h2 o1 o2
      · exact ih n t t' hq h hrho hlp

/-- A resize whose re-insertion walks get no further slab hands back a table in
Robin Hood order. -/
theorem resizeTo_ordered (hasher : Key → Nat) (alloc : Nat → Bool) (fuel : Nat) (t t1 : Table)
    (c m : Nat) (hq : quietAt alloc { t with capacity_clz := c, capacity_ms4b := m })
    (h : resizeTo (rehashPushDown hasher alloc fuel) alloc t c m = .ok (t1, true)) :
    robinHoodOrdered hasher t1 ∧ t1.longest_probes ≤ 64 := by
  unfold resizeTo at h
  dsimp only at h
  split at h
  · cases hre : rehashLoop (rehashPushDown hasher alloc fuel) t.buckets (PRHHCapacity t)
        { t with
          objcnt := 0
          objcnt_high := (PRHHCapacityInternal c m * 8 % W64) / 10
          objcnt_low := (PRHHCapacityInternal c m * 2 % W64) / 10
          capacity_clz := c
          capacity_ms4b := m
          longest_probes := 0
          stats := List.replicate PROBE_STATS_SIZE 0
          buckets := List.replicate
            (slabLen (bucket_size t) ((bucket_size t * PRHHCapacityInternal c m) % W64))
            (zeroBucket t.valsize) } with
    | error e => rw [hre] at h; cases h
    | ok t2 =>
      rw [hre] at h
      simp only [Except.ok.injEq, Prod.mk.injEq] at h
      obtain ⟨h1, _⟩ := h
      subst h1
      refine rehashLoop_ordered hasher alloc fuel _ _ _ _ ?_ hre ?_ (Nat.zero_le _)
      · intro n hn
        exact hq n hn
      · intro idx b k hb hk
        have hmem := List.getElem?_mem hb
        rw [List.mem_replicate] at hmem
        rw [hmem.2] at hk
        cases hk
  · simp only [Except.ok.injEq, Prod.mk.injEq] at h
    exact absurd h.2 (by simp)

/-- The entry step of `PRHHInsertCustom` and `PRHHUpsertCustom` when it reports
`true`: the table the walk runs on is in Robin Hood order and gets no slab. -/
theorem entryUp_ordered (hasher : Key → Nat) (alloc : Nat → Bool) (fuel : Nat) (t t0 : Table)
    (hw : walkQuiet alloc t)
    (h : (if t.objcnt > t.objcnt_high then PRHHSizeUp hasher alloc fuel t
      else .ok (t, true)) = .ok (t0, true))
    (hrho : robinHoodOrdered hasher t) (hlp : t.longest_probes ≤ 64) :
    robinHoodOrdered hasher t0 ∧ t0.longest_probes ≤ 64 ∧ quietAt alloc t0 := by
  unfold walkQuiet at hw
  by_cases htrig : t.objcnt > t.objcnt_high
  · rw [if_pos htrig] at hw h
    unfold PRHHSizeUp sizeUpWith at h
    cases hs : sizeUpShape t with
    | error e => rw [hs] at h; cases h
    | ok cm =>
      obtain ⟨c, m⟩ := cm
      rw [hs] at h
      have h2 : resizeTo (rehashPushDown hasher alloc fuel) alloc t c m = .ok (t0, true) := h
      have hq := hw c m hs
      obtain ⟨o1, o2⟩ := resizeTo_ordered hasher alloc fuel t t0 c m hq h2
      obtain ⟨f1, f2, f3, f4, _, _, _⟩ := resizeTo_frame hasher alloc fuel t t0 c m hq h2
      exact ⟨o1, o2, quietAt_fields alloc
        { t with capacity_clz := c, capacity_ms4b := m } t0 f1 f2 f3 f4 hq⟩
  · rw [if_neg htrig] at hw h
    simp only [Except.ok.injEq, Prod.mk.injEq] at h
    rw [← h.1]
    exact ⟨hrho, hlp, hw⟩

/-- `PRHHInsertCustom` keeps the Robin Hood ordering when its walks get no
slab. -/
theorem insert_ordered (hasher : Key → Nat) (alloc : Nat → Bool)
    (fuel : Nat) (t : Table) (key : Key) (val : Val) (t' : Table) (r : Bool)
    (hw : walkQuiet alloc t)
    (h : PRHHInsertCustom hasher alloc fuel t key val = .ok (t', r))
    (hrho0 : robinHoodOrdered hasher t) (hlp0 : t.longest_probes ≤ 64) :
    robinHoodOrdered hasher t' ∧ t'.longest_probes ≤ 64 := by
  unfold PRHHInsertCustom at h
  split at h
  · cases h
  · rename_i t0 hentry
    simp only [Except.ok.injEq, Prod.mk.injEq] at h
    rw [← h.1, entryUp_false hasher alloc fuel t t0 _ hentry]
    exact ⟨hrho0, hlp0⟩
  · rename_i t0 hentry
    obtain ⟨hrho, hlp, hqt⟩ := entryUp_ordered hasher alloc fuel t t0 hw hentry hrho0 hlp0
    split at h
    · cases h
    · -- UPSERT_EMPTY
      rename_i t1 m _ hnk
      obtain ⟨b1, b2, b3, b4, b5, _, b7, _⟩ :=
        newKey_ordered hasher alloc key _ _ _ _ _ _ _ _ hqt hnk hlp
          (fun j hj => absurd hj (Nat.not_lt_zero _))
      obtain ⟨_, p, hp1, hp2, hp3⟩ := b7 (by simp)
      have hrho1 := ordered_same_buckets hasher _ t1 b1 b2 b3 b4 hrho
      simp only [Except.ok.injEq, Prod.mk.injEq] at h
      rw [← h.1]
      refine ⟨ordered_place hasher t1 m _ key rfl hrho1 ⟨p, hp1, ?_, ?_⟩, b5⟩
      · rw [hash_with_probe_shape _ t1 b2 b3]; exact hp2
      · intro j hj
        rw [hash_with_probe_shape _ t1 b2 b3, b1]; exact hp3 j hj
    · -- UPSERT_DUP
      rename_i t1 m _ hnk
      obtain ⟨b1, b2, b3, b4, b5, b6, _, _⟩ :=
        newKey_ordered hasher alloc key _ _ _ _ _ _ _ _ hqt hnk hlp
          (fun j hj => absurd hj (Nat.not_lt_zero _))
      obtain ⟨b0, hb0, hb0k⟩ := b6 rfl
      have hrho1 := ordered_same_buckets hasher _ t1 b1 b2 b3 b4 hrho
      split at h
      · cases h
      · rename_i b hrb
        have hbq := readBucket_some _ _ _ hrb
        rw [b1, hb0] at hbq
        have hbb : b = b0 := (Option.some.inj hbq).symm
        simp only [Except.ok.injEq, Prod.mk.injEq] at h
        rw [← h.1]
        refine ⟨ordered_place hasher t1 m _ key (by rw [hbb]; exact hb0k) hrho1 ?_, b5⟩
        exact hrho1 m b0 key (by rw [b1]; exact hb0) hb0k
    · -- UPSERT_PUSHDOWN
      rename_i t1 m probe hnk
      obtain ⟨b1, b2, b3, b4, b5, _, b7, b8⟩ :=
        newKey_ordered hasher alloc key _ _ _ _ _ _ _ _ hqt hnk hlp
          (fun j hj => absurd hj (Nat.not_lt_zero _))
      obtain ⟨hmlt, p, hp1, hp2, hp3⟩ := b7 (by simp)
      obtain ⟨op, b0, kb, hps, hb0, hb0k, hfp⟩ := b8 rfl
      have hrho1 := ordered_same_buckets hasher _ t1 b1 b2 b3 b4 hrho
      split at h
      · cases h
      · rename_i cpy hrb
        have hbq := readBucket_some _ _ _ hrb
        rw [b1, hb0] at hbq
        have hbb : cpy = b0 := (Option.some.inj hbq).symm
        subst hbb
        split at h
        · cases h
        · rename_i t2 _ hpd
          simp only [Except.ok.injEq, Prod.mk.injEq] at h
          rw [← h.1]
          have hnewlive : (⟨Token.live key, val.take t1.valsize⟩ : Bucket).tok.isLive = true := rfl
          refine pushDown_ordered hasher alloc _ _ _ _ _ _ _ _ _ _ ?_ hpd ?_ b5 ?_ ?_ rfl ?_
          · exact quietAt_frame alloc t0 _ (sameFrame_trans t0 t1 _
              (newKey_frame hasher alloc key _ _ _ _ _ _ _ _ hqt hnk)
              ⟨rfl, rfl, rfl, rfl, rfl, rfl, by simp⟩) hqt
          · refine ordered_place hasher t1 m _ key rfl hrho1 ⟨p, hp1, ?_, ?_⟩
            · rw [hash_with_probe_shape _ t1 b2 b3]; exact hp2
            · intro j hj
              rw [hash_with_probe_shape _ t1 b2 b3, b1]; exact hp3 j hj
          · -- the displaced record restarts behind its old probe
            intro hk2 hth2 j hj
            rw [hb0k] at hth2
            simp only [tokenHash, Except.ok.injEq] at hth2
            subst hth2
            obtain ⟨hfm, _, hfleast⟩ := findprobe_least hasher _ m op cpy kb hb0 hb0k hfp
            obtain ⟨q, hq, hqm, hqj⟩ := hrho m cpy kb hb0 hb0k
            have hoq := hfleast q hq hqm
            show liveAt (t1.buckets.set m _) (hash_with_probe t1 (hasher kb % W64) j)
            rw [hash_with_probe_shape _ t1 b2 b3, b1]
            by_cases hjq : j < q
            · exact liveAt_set _ _ _ _ hnewlive (hqj j hjq)
            · have hjo : j = op := by omega
              subst hjo
              rw [hfm]
              exact liveAt_set_self _ _ _ hnewlive hmlt
          · intro a ha
            simp only [Option.some.injEq] at ha
            subst ha
            show liveAt (t1.buckets.set m _) m
            rw [b1]
            exact liveAt_set_self _ _ _ hnewlive hmlt
          · intro i x hi; omega

/-- `PRHHUpsertCustom` keeps the Robin Hood ordering when its walks get no
slab. -/
theorem upsert_ordered (hasher : Key → Nat) (alloc : Nat → Bool)
    (fuel : Nat) (t : Table) (key : Key) (t' : Table) (out : UpsertOut)
    (hw : walkQuiet alloc t)
    (h : PRHHUpsertCustom hasher alloc fuel t key = .ok (t', out))
    (hrho0 : robinHoodOrdered hasher t) (hlp0 : t.longest_probes ≤ 64) :
    robinHoodOrdered hasher t' ∧ t'.longest_probes ≤ 64 := by
  unfold PRHHUpsertCustom at h
  split at h
  · cases h
  · rename_i t0 hentry
    simp only [Except.ok.injEq, Prod.mk.injEq] at h
    rw [← h.1, entryUp_false hasher alloc fuel t t0 _ hentry]
    exact ⟨hrho0, hlp0⟩
  · rename_i t0 hentry
    obtain ⟨hrho, hlp, hqt⟩ := entryUp_ordered hasher alloc fuel t t0 hw hentry hrho0 hlp0
    split at h
    · cases h
    · -- UPSERT_DUP
      rename_i t1 m _ hnk
      obtain ⟨b1, b2, b3, b4, b5, _, _, _⟩ :=
        newKey_ordered hasher alloc key _ _ _ _ _ _ _ _ hqt hnk hlp
          (fun j hj => absurd hj (Nat.not_lt_zero _))
      have hrho1 := ordered_same_buckets hasher _ t1 b1 b2 b3 b4 hrho
      simp only [Except.ok.injEq, Prod.mk.injEq] at h
      rw [← h.1]
      exact ⟨hrho1, b5⟩
    · -- UPSERT_EMPTY
      rename_i t1 m _ hnk
      obtain ⟨b1, b2, b3, b4, b5, _, b7, _⟩ :=
        newKey_ordered hasher alloc key _ _ _ _ _ _ _ _ hqt hnk hlp
          (fun j hj => absurd hj (Nat.not_lt_zero _))
      obtain ⟨_, p, hp1, hp2, hp3⟩ := b7 (by simp)
      have hrho1 := ordered_same_buckets hasher _ t1 b1 b2 b3 b4 hrho
      split at h
      · cases h
      · simp only [Except.ok.injEq, Prod.mk.injEq] at h
        rw [← h.1]
        refine ⟨ordered_place hasher t1 m _ key rfl hrho1 ⟨p, hp1, ?_, ?_⟩, b5⟩
        · rw [hash_with_probe_shape _ t1 b2 b3]; exact hp2
        · intro j hj
          rw [hash_with_probe_shape _ t1 b2 b3, b1]; exact hp3 j hj
    · -- UPSERT_PUSHDOWN
      rename_i t1 m probe hnk
      obtain ⟨b1, b2, b3, b4, b5, _, b7, b8⟩ :=
        newKey_ordered hasher alloc key _ _ _ _ _ _ _ _ hqt hnk hlp
          (fun j hj => absurd hj (Nat.not_lt_zero _))
      obtain ⟨hmlt, p, hp1, hp2, hp3⟩ := b7 (by simp)
      obtain ⟨op, b0, kb, hps, hb0, hb0k, hfp⟩ := b8 rfl
      have hrho1 := ordered_same_buckets hasher _ t1 b1 b2 b3 b4 hrho
      split at h
      · cases h
      · rename_i cpy hrb
        have hbq := readBucket_some _ _ _ hrb
        rw [b1, hb0] at hbq
        have hbb : cpy = b0 := (Option.some.inj hbq).symm
        subst hbb
        have hnewlive : (⟨Token.live key, cpy.val⟩ : Bucket).tok.isLive = true := rfl
        have hpdo : ∀ t2 r, PRHHUpsertPushDown hasher alloc fuel
            { t1 with buckets := t1.buckets.set m ⟨Token.live key, cpy.val⟩ }
            cpy probe (some m) 0 (List.replicate VISIT_IDX_CACHE 0) false = .ok (t2, r) →
            robinHoodOrdered hasher t2 ∧ t2.longest_probes ≤ 64 := by
          intro t2 r hpd
          refine pushDown_ordered hasher alloc _ _ _ _ _ _ _ _ _ _ ?_ hpd ?_ b5 ?_ ?_ rfl ?_
          · exact quietAt_frame alloc t0 _ (sameFrame_trans t0 t1 _
              (newKey_frame hasher alloc key _ _ _ _ _ _ _ _ hqt hnk)
              ⟨rfl, rfl, rfl, rfl, rfl, rfl, by simp⟩) hqt
          · refine ordered_place hasher t1 m _ key rfl hrho1 ⟨p, hp1, ?_, ?_⟩
            · rw [hash_with_probe_shape _ t1 b2 b3]; exact hp2
            · intro j hj
              rw [hash_with_probe_shape _ t1 b2 b3, b1]; exact hp3 j hj
          · intro hk2 hth2 j hj
            rw [hb0k] at hth2
            simp only [tokenHash, Except.ok.injEq] at hth2
            subst hth2
            obtain ⟨hfm, _, hfleast⟩ := findprobe_least hasher _ m op cpy kb hb0 hb0k hfp
            obtain ⟨q, hq, hqm, hqj⟩ := hrho m cpy kb hb0 hb0k
            have hoq := hfleast q hq hqm
            show liveAt (t1.buckets.set m _) (hash_with_probe t1 (hasher kb % W64) j)
            rw [hash_with_probe_shape _ t1 b2 b3, b1]
            by_cases hjq : j < q
            · exact liveAt_set _ _ _ _ hnewlive (hqj j hjq)
            · have hjo : j = op := by omega
              subst hjo
              rw [hfm]
              exact liveAt_set_self _ _ _ hnewlive hmlt
          · intro a ha
            simp only [Option.some.injEq] at ha
            subst ha
            show liveAt (t1.buckets.set m _) m
            rw [b1]
            exact liveAt_set_self _ _ _ hnewlive hmlt
          · intro i x hi; omega
        split at h
        · cases h
        · rename_i t2 hpd
          simp only [Except.ok.injEq, Prod.mk.injEq] at h
          rw [← h.1]
          exact hpdo _ _ hpd
        · rename_i t2 hpd
          split at h
          · cases h
          · simp only [Except.ok.injEq, Prod.mk.injEq] at h
            rw [← h.1]
            exact hpdo _ _ hpd

theorem reached_ordered (hasher : Key → Nat) (t : Table)
    (hr : reachedByQuietInserts hasher t) :
    robinHoodOrdered hasher t ∧ t.longest_probes ≤ 64 := by
  induction hr with
  | fresh alloc num_objects load_num load_den valsize t h =>
    exact new_ordered hasher alloc num_objects load_num load_den valsize t h
  | insert alloc fuel t key val t' r _ hw h ih =>
    exact insert_ordered hasher alloc fuel t key val t' r hw h ih.1 ih.2
  | upsert alloc fuel t key t' out _ hw h ih =>
    exact upsert_ordered hasher alloc fuel t key t' out hw h ih.1 ih.2

/-- C23, amended: Robin Hood ordering without deletes and without a resize in
the middle of a walk. In every table reached from `PRHHNew` by
`PRHHInsertCustom` and `PRHHUpsertCustom` calls that return, each with an
allocator that gives no slab to a `PRHHSizeUp` called from inside
`PRHHUpsertNewKey` or `PRHHUpsertPushDown` (the `PRHHSizeUp` at the start of a
call may be granted and replace the slab), every live record has a probe
`p ≤ longest_probes` of its hash that reaches its bucket such that every bucket
at the probes `j < p` is live; and `longest_probes ≤ 64`. -/
theorem C23_ordered_without_delete (hasher : Key → Nat) (t : Table)
    (hr : reachedByQuietInserts hasher t) :
    (∀ (idx : Nat) (b : Bucket) (k : Key),
      t.buckets[idx]? = some b → b.tok = Token.live k →
      ∃ p, p ≤ t.longest_probes ∧ hash_with_probe t (hasher k % W64) p = idx ∧
        ∀ j, j < p →
          ∃ b1 : Bucket, t.buckets[hash_with_probe t (hasher k % W64) j]? = some b1 ∧
            b1.tok.isLive = true) ∧
    t.longest_probes ≤ 64 :=
  reached_ordered hasher t hr

/-- Witness for C23: `tableY3` is reached from `tableY0`, the table of
`PRHHNew(1, 1/8, 0)`, by the inserts of keys 1, 2 and 3, which share one hash;
the third insert starts with a granted `PRHHSizeUp` from 8 to 16 buckets, which
re-inserts key 2 at probe 1, and places key 3 at probe 2. -/
theorem C23_ordered_without_delete_witness :
    reachedByQuietInserts hasherZero tableY3 ∧
    ((∀ (idx : Nat) (b : Bucket) (k : Key),
      tableY3.buckets[idx]? = some b → b.tok = Token.live k →
      ∃ p, p ≤ tableY3.longest_probes ∧
        hash_with_probe tableY3 (hasherZero k % W64) p = idx ∧
        ∀ j, j < p →
          ∃ b1 : Bucket,
            tableY3.buckets[hash_with_probe tableY3 (hasherZero k % W64) j]? = some b1 ∧
            b1.tok.isLive = true) ∧
    tableY3.longest_probes ≤ 64) :=
  ⟨reachedByQuietInserts.insert (allocOnly 128) 50 tableY2 [3] [] tableY3 true
      (reachedByQuietInserts.insert allocNone 50 tableY1 [2] [] tableY2 true
        (reachedByQuietInserts.insert allocNone 50 tableY0 [1] [] tableY1 true
          (reachedByQuietInserts.fresh allocAll 1 1 8 0 tableY0 (by decide))
          (by decide) (by decide))
        (by decide) (by decide))
      (by decide) (by decide),
    C23_ordered_without_delete hasherZero tableY3
      (reachedByQuietInserts.insert (allocOnly 128) 50 tableY2 [3] [] tableY3 true
        (reachedByQuietInserts.insert allocNone 50 tableY1 [2] [] tableY2 true
          (reachedByQuietInserts.insert allocNone 50 tableY0 [1] [] tableY1 true
            (reachedByQuietInserts.fresh allocAll 1 1 8 0 tableY0 (by decide))
            (by decide) (by decide))
          (by decide) (by decide))
        (by decide) (by decide))⟩

/-- The run of the witness, evaluated. Before the third insert the table has 8
buckets, `objcnt` 2 and `objcnt_high` 1; after it, 16 buckets (`capacity_clz`
59, `capacity_ms4b` 8), `objcnt` 3 and `longest_probes` 2, with keys 1, 2 and 3
in buckets 0, 1 and 4, which their hash reaches at probes 0, 1 and 2. The
request a further `PRHHSizeUp` would make is 256 bytes. -/
theorem quiet_resize_example :
    ([PRHHCapacity tableY2, tableY2.objcnt, tableY2.objcnt_high],
      [PRHHCapacity tableY3, tableY3.capacity_clz, tableY3.capacity_ms4b, tableY3.objcnt,
        tableY3.longest_probes],
      [PRHHGetCustom hasherZero tableY3 [1], PRHHGetCustom hasherZero tableY3 [2],
        PRHHGetCustom hasherZero tableY3 [3]],
      [findprobe hasherZero tableY3 0, findprobe hasherZero tableY3 1,
        findprobe hasherZero tableY3 4, sizeUpRequest tableY3])
      = ([8, 2, 1], [16, 59, 8, 3, 2], [.ok (some 0), .ok (some 1), .ok (some 4)],
          [.ok 0, .ok 1, .ok 2, .ok 256]) := by
  decide

end PRHH
